import Mathlib

/-!
# Formal model of the pathoram-go Path ORAM engine

A shallow embedding of the `pathoram` Go package (files `config.go`,
`eviction.go`, the access driver in `src/unnamed/part_002`, the
constant-time variants in `src/unnamed/part_000`, the in-memory storage,
position map and `NoOpEncryptor` collaborators).

Modelling conventions:

* Machine integers are `Int` where the Go code uses sentinel values
  (`id`, `leaf`, with `EMPTY = -1`) and `Nat` for derived quantities that
  are provably non-negative (tree height, leaf count, bucket size,
  byte-string lengths).  None of the quantities involved come near
  overflow, so plain `Int`/`Nat` arithmetic coincides with Go `int`.
* Payloads are `List Nat` byte strings; `copy` is modelled by
  `copyBytes` (which copies `min` of the two lengths, as in Go).
* The engine is instantiated with the in-memory storage backend
  (`InMemoryStorage`), the in-memory position map, and `NoOpEncryptor`
  (identity encryption), exactly as `NewInMemory` does.  The storage
  bound/arity checks of `InMemoryStorage` can only fail on out-of-range
  bucket indices or wrong bucket arity; the engine only ever reads and
  writes path buckets (indices below `2^h - 1`, see `pathOf_lt_total`)
  with buckets of the configured arity, so the storage operations are
  embedded as total functions (`List.getD` / `List.set`).
* `crypto/rand` is modelled by an externally supplied tape
  `tape : Nat → Nat` together with a counter; `randomLeaf` consumes one
  tape entry reduced modulo `numLeaves`, so every run of the Go code
  corresponds to a tape and every tape to a possible run.
* Bucket-store traffic is recorded in an event list (`Ev`), one entry
  per `ReadBucket` / `WriteBucket` call, in call order.
* Go loops whose measure is not structural (`canPlaceAt`'s parent walk,
  the greedy eviction loop, the tree-height search) are written with an
  explicit fuel parameter instantiated with a provably sufficient value;
  fuel-adequacy lemmas show the value chosen is large enough.
-/

namespace PathORAM

/-- A block: `id = -1` is the EMPTY sentinel, `leaf` the assigned leaf
(`-1` on empty slots), `data` the payload bytes.  This is both the
internal `block` and the storage `Block` (the `NoOpEncryptor` makes the
conversion `blockToStorage` the identity). -/
structure Blk where
  id : Int
  leaf : Int
  data : List Nat
deriving DecidableEq, Repr

instance : Inhabited Blk := ⟨⟨-1, -1, []⟩⟩

/-- Bucket-store events: one per `ReadBucket` / `WriteBucket` call. -/
inductive Ev where
  | readB (idx : Nat)
  | writeB (idx : Nat)
deriving DecidableEq, Repr

/-- The error values of the package that are reachable in the embedded
configuration (storage and decryption errors cannot occur with the
in-memory backend and `NoOpEncryptor`). -/
inductive Err where
  | invalidConfig
  | invalidBlockID
  | invalidDataSize
  | stashOverflow
deriving DecidableEq, Repr

/-- `EvictionStrategy` from `config.go`. -/
inductive Strategy where
  | levelByLevel
  | greedyByDepth
  | deterministicTwoPath
deriving DecidableEq, Repr

/-- `Config` from `config.go` (non-negative fields; the claims under
verification only concern configurations with non-negative parameters,
where `Nat` coincides with Go `int`). -/
structure Config where
  numBlocks : Nat
  blockSize : Nat
  bucketSize : Nat
  stashLimit : Nat
  strategy : Strategy
  constantTime : Bool
deriving Repr

/-- `Config.Validate`: rejects `NumBlocks ≤ 0` / `BlockSize ≤ 0`,
defaults `BucketSize` to 5 and `StashLimit` to 100. -/
def Config.validate (c : Config) : Except Err Config :=
  if c.numBlocks = 0 ∨ c.blockSize = 0 then .error .invalidConfig
  else .ok { c with
    bucketSize := if c.bucketSize = 0 then 5 else c.bucketSize,
    stashLimit := if c.stashLimit = 0 then 100 else c.stashLimit }

/-- The height-search loop of `ComputeTreeParams`
(`for (1<<height)-1 < numBuckets { height++ }`), with fuel. -/
def heightLoop (nb : Nat) : Nat → Nat → Nat
  | 0, h => h
  | fuel+1, h => if 2 ^ h - 1 < nb then heightLoop nb fuel (h + 1) else h

/-- `Config.ComputeTreeParams`: returns `(height, numLeaves, totalBuckets)`. -/
def Config.computeTreeParams (c : Config) : Nat × Nat × Nat :=
  let nb := (c.numBlocks + c.bucketSize - 1) / c.bucketSize
  let h := heightLoop nb nb 1
  (h, 2 ^ (h - 1), 2 ^ h - 1)

/-- The full engine state: configuration, derived tree geometry, the
position map (association list mirroring the Go map, keys unique by
construction), the stash, the in-memory bucket store, the bucket-store
event trace, and the random tape with its consumption counter. -/
structure ORAM where
  numBlocks : Nat
  blockSize : Nat
  bucketSize : Nat
  stashLimit : Nat
  strategy : Strategy
  constantTime : Bool
  height : Nat
  numLeaves : Nat
  posMap : List (Int × Int)
  stash : List Blk
  tree : List (List Blk)
  events : List Ev
  tape : Nat → Nat
  ctr : Nat

/-- `InMemoryPositionMap.Get`. -/
def pmGet (m : List (Int × Int)) (k : Int) : Option Int :=
  (m.find? (fun p => p.1 = k)).map (·.2)

/-- `InMemoryPositionMap.Set`: overwrite if present, append otherwise. -/
def pmSet (m : List (Int × Int)) (k v : Int) : List (Int × Int) :=
  if (m.find? (fun p => p.1 = k)).isSome then
    m.map (fun p => if p.1 = k then (k, v) else p)
  else m ++ [(k, v)]

/-- `copy(dst, src)`: overwrite the first `min |dst| |src|` bytes of
`dst` with those of `src`. -/
def copyBytes (dst src : List Nat) : List Nat :=
  src.take (min dst.length src.length) ++ dst.drop (min dst.length src.length)

/-- `ReadBucket` on the in-memory storage (recording the event). -/
def readBucket (st : ORAM) (i : Nat) : List Blk × ORAM :=
  (st.tree.getD i [], { st with events := st.events ++ [.readB i] })

/-- `WriteBucket` on the in-memory storage (recording the event). -/
def writeBucket (st : ORAM) (i : Nat) (bkt : List Blk) : ORAM :=
  { st with tree := st.tree.set i bkt, events := st.events ++ [.writeB i] }

/-- `randomLeaf`: consume one tape entry, reduced into `[0, numLeaves)`. -/
def randomLeaf (st : ORAM) : Nat × ORAM :=
  (st.tape st.ctr % st.numLeaves, { st with ctr := st.ctr + 1 })

/-- The body of `Path`: `height` parent steps from the leaf bucket,
leaf first (`parent = (i-1)/2`, which on `Nat` agrees with Go's
truncated division for the non-negative indices that occur). -/
def pathAux (b : Nat) : Nat → List Nat
  | 0 => []
  | n+1 => b :: pathAux ((b - 1) / 2) n

/-- `Path(leaf)`: bucket indices from leaf to root. -/
def pathOf (st : ORAM) (leaf : Nat) : List Nat :=
  pathAux (st.numLeaves - 1 + leaf) st.height

/-- The parent walk of `canPlaceAt`
(`for b := leafBucket; b >= 0; b = (b-1)/2`), with fuel; the walk from
`b` reaches 0 in at most `b` steps, so fuel `b` is always sufficient
(`chainAux_fuel`). -/
def chainAux (target : Nat) : Nat → Nat → Bool
  | 0, b => b == target
  | fuel+1, b =>
    if b == target then true
    else if b == 0 then false
    else chainAux target fuel ((b - 1) / 2)

/-- `canPlaceAt(leaf, bucketIdx)`: walk the parent chain of `leaf`'s
leaf bucket looking for `bucketIdx`.  A negative leaf bucket (never
reached from the engine) makes the Go loop exit immediately. -/
def canPlaceAt (numLeaves : Nat) (leaf : Int) (bucketIdx : Nat) : Bool :=
  let lb : Int := (numLeaves : Int) - 1 + leaf
  if lb < 0 then false else chainAux bucketIdx lb.toNat lb.toNat

/-- `j`-fold parent of `b` (the inner loop of `canPlaceAtConstantTime`). -/
def parentIter (b : Nat) : Nat → Nat
  | 0 => b
  | j+1 => parentIter ((b - 1) / 2) j

/-- `canPlaceAtConstantTime`: OR-accumulation of an equality test over
all `height` levels, no early exit. -/
def canPlaceAtCT (numLeaves height : Nat) (leaf : Int) (bucketIdx : Nat) : Bool :=
  let lb : Int := (numLeaves : Int) - 1 + leaf
  if lb < 0 then false
  else (List.range height).any (fun level => parentIter lb.toNat level == bucketIdx)

/-- One iteration of `readPathIntoStash`: read the bucket, append each
non-empty slot (decrypted — here `NoOpEncryptor`, the identity) to the
stash, mark the slots empty, write the bucket back. -/
def readBucketIntoStash (st : ORAM) (i : Nat) : ORAM :=
  let (bucket, st) := readBucket st i
  let st := { st with stash := st.stash ++ bucket.filter (fun b => b.id != -1) }
  writeBucket st i (bucket.map (fun b => if b.id != -1 then { b with id := -1 } else b))

/-- `readPathIntoStash`. -/
def readPathIntoStash (st : ORAM) (path : List Nat) : ORAM :=
  path.foldl readBucketIntoStash st

/-- `findInStash`: first stash index holding `blockID`, with a copy of
its payload; `(-1, [])` when absent. -/
def findInStash (stash : List Blk) (blockID : Int) : Int × List Nat :=
  match stash.findIdx? (fun b => b.id = blockID) with
  | some i => ((i : Int), (stash.getD i default).data)
  | none => (-1, [])

/-- The loop of `findInStashConstantTime`: every entry is visited; each
match overwrites the accumulated `(index, payload)` pair
(`ConstantTimeSelect` / `ConstantTimeCopy`), so the last match wins. -/
def findCTAux (blockID : Int) : List Blk → Nat → Int × List Nat → Int × List Nat
  | [], _, acc => acc
  | b :: rest, i, acc =>
    findCTAux blockID rest (i + 1) (if b.id = blockID then ((i : Int), b.data) else acc)

/-- `findInStashConstantTime`. -/
def findInStashCT (st : ORAM) (blockID : Int) : Int × List Nat :=
  findCTAux blockID st.stash 0 (-1, List.replicate st.blockSize 0)

/-- Remove the first element satisfying `p`, returning it together with
the remaining list (the `append(stash[:i], stash[i+1:]...)` removal). -/
def extractFirst (p : Blk → Bool) : List Blk → Option (Blk × List Blk)
  | [] => none
  | b :: rest =>
    if p b then some (b, rest)
    else match extractFirst p rest with
      | none => none
      | some (x, rest') => some (x, b :: rest')

/-- One slot of the level-by-level eviction: skip occupied slots,
otherwise place the first placeable stash block and mark the bucket
modified. -/
def levelStep (numLeaves bucketIdx : Nat) (acc : List Blk × List Blk × Bool)
    (slot : Nat) : List Blk × List Blk × Bool :=
  if (acc.1.getD slot default).id != -1 then acc
  else match extractFirst (fun b => canPlaceAt numLeaves b.leaf bucketIdx) acc.2.1 with
    | none => acc
    | some (b, rest) => (acc.1.set slot b, rest, true)

/-- One bucket of the level-by-level eviction (`evict` in
`eviction.go`): read the bucket, fill each empty slot in index order
with the first placeable stash block, write back only if modified. -/
def evictLevelBucket (st : ORAM) (bucketIdx : Nat) : ORAM :=
  let (bucket, st) := readBucket st bucketIdx
  let res := (List.range st.bucketSize).foldl (levelStep st.numLeaves bucketIdx)
    (bucket, st.stash, false)
  let st := { st with stash := res.2.1 }
  if res.2.2 then writeBucket st bucketIdx res.1 else st

/-- Level-by-level eviction (`evict`), including the stash-overflow
check at the end. -/
def evictLevel (st : ORAM) (path : List Nat) : Option Err × ORAM :=
  let st := path.foldl evictLevelBucket st
  if st.stash.length > st.stashLimit then (some .stashOverflow, st) else (none, st)

/-- Read all path buckets into a local list (greedy and constant-time
eviction both start this way). -/
def readBuckets (st : ORAM) (path : List Nat) : List (List Blk) × ORAM :=
  path.foldl (fun (acc : List (List Blk) × ORAM) i =>
    let (bkt, st') := readBucket acc.2 i
    (acc.1 ++ [bkt], st')) ([], st)

/-- Write all path buckets back (greedy and constant-time eviction both
end this way). -/
def writeBuckets (st : ORAM) (path : List Nat) (buckets : List (List Blk)) : ORAM :=
  (path.zip buckets).foldl (fun st' p => writeBucket st' p.1 p.2) st

/-- Deepest level (leaf first) whose bucket admits the block and has an
empty slot, together with the first empty slot index (the level/slot
scan of `evictGreedyByDepth`). -/
def tryPlace (numLeaves : Nat) (leaf : Int) (path : List Nat)
    (buckets : List (List Blk)) : Option (Nat × Nat) :=
  (List.range path.length).findSome? (fun level =>
    if canPlaceAt numLeaves leaf (path.getD level 0) then
      match (buckets.getD level []).findIdx? (fun b => b.id = -1) with
      | some slot => some (level, slot)
      | none => none
    else none)

/-- The stash loop of `evictGreedyByDepth`, with fuel (each iteration
either removes a stash entry by swap-remove or advances `i`, so
`stash.length + 1` fuel always suffices, see `greedyLoop_fuel`). -/
def greedyLoop (numLeaves : Nat) (path : List Nat) :
    Nat → List (List Blk) → List Blk → Nat → List (List Blk) × List Blk
  | 0, buckets, stash, _ => (buckets, stash)
  | fuel+1, buckets, stash, i =>
    if i < stash.length then
      let b := stash.getD i default
      match tryPlace numLeaves b.leaf path buckets with
      | some (level, slot) =>
        greedyLoop numLeaves path fuel
          (buckets.set level ((buckets.getD level []).set slot b))
          ((stash.set i (stash.getLastD default)).dropLast) i
      | none => greedyLoop numLeaves path fuel buckets stash (i + 1)
    else (buckets, stash)

/-- `evictGreedyByDepth`: read the path buckets, run the greedy stash
loop, write everything back, check the stash bound. -/
def evictGreedy (st : ORAM) (path : List Nat) : Option Err × ORAM :=
  let (buckets, st) := readBuckets st path
  let res := greedyLoop st.numLeaves path (st.stash.length + 1) buckets st.stash 0
  let st := writeBuckets { st with stash := res.2 } path res.1
  if st.stash.length > st.stashLimit then (some .stashOverflow, st) else (none, st)

/-- Placement scan of `evictConstantTime` for one block: first
`(level, slot)` pair, level leaf-first then slot in index order, with
`canPlaceAtConstantTime` admitting the block and the slot empty (the
`shouldPlace` mask makes exactly this choice). -/
def tryPlaceCT (numLeaves height : Nat) (leaf : Int) (path : List Nat)
    (buckets : List (List Blk)) : Option (Nat × Nat) :=
  (List.range path.length).findSome? (fun level =>
    if canPlaceAtCT numLeaves height leaf (path.getD level 0) then
      match (buckets.getD level []).findIdx? (fun b => b.id = -1) with
      | some slot => some (level, slot)
      | none => none
    else none)

/-- The stash loop of `evictConstantTime`: every stash block is visited
in order; placed blocks go into the bucket copy, unplaced blocks are
appended to the new stash. -/
def ctLoop (numLeaves height : Nat) (path : List Nat) :
    List Blk → List (List Blk) → List Blk → List (List Blk) × List Blk
  | [], buckets, newStash => (buckets, newStash)
  | b :: rest, buckets, newStash =>
    match tryPlaceCT numLeaves height b.leaf path buckets with
    | some (level, slot) =>
      ctLoop numLeaves height path rest
        (buckets.set level ((buckets.getD level []).set slot b)) newStash
    | none => ctLoop numLeaves height path rest buckets (newStash ++ [b])

/-- `evictConstantTime`. -/
def evictCT (st : ORAM) (path : List Nat) : Option Err × ORAM :=
  let (buckets, st) := readBuckets st path
  let res := ctLoop st.numLeaves st.height path st.stash buckets []
  let st := writeBuckets { st with stash := res.2 } path res.1
  if st.stash.length > st.stashLimit then (some .stashOverflow, st) else (none, st)

/-- `evictWithStrategy`: dispatch on the configured strategy; the
deterministic two-path strategy runs greedy eviction, then drains and
greedily evicts a fresh random path. -/
def evictWithStrategy (st : ORAM) (path : List Nat) : Option Err × ORAM :=
  match st.strategy with
  | .greedyByDepth => evictGreedy st path
  | .deterministicTwoPath =>
    match evictGreedy st path with
    | (some e, st) => (some e, st)
    | (none, st) =>
      let (aux, st) := randomLeaf st
      let p2 := pathOf st aux
      let st := readPathIntoStash st p2
      evictGreedy st p2
  | .levelByLevel => evictLevel st path

/-- The core `access` (post-validation).  Returns the result (previous
payload or error) together with the final state; on a stash-overflow
error all mutations (position map, stash, bucket store) persist, as in
the Go code. -/
def access (st : ORAM) (blockID : Nat) (newData : Option (List Nat)) :
    Except Err (List Nat) × ORAM :=
  -- Step 1: look up or draw the current leaf
  let (leafOld, st) := match pmGet st.posMap blockID with
    | some l => (l.toNat, st)
    | none => randomLeaf st
  -- Step 2: remap to a fresh random leaf
  let (leafNew, st) := randomLeaf st
  let st := { st with posMap := pmSet st.posMap blockID (leafNew : Int) }
  -- Step 3: drain the path into the stash
  let path := pathOf st leafOld
  let st := readPathIntoStash st path
  -- Step 4: locate the block in the stash
  let found := if st.constantTime then findInStashCT st blockID
               else findInStash st.stash blockID
  -- Step 5: serve the request
  let (result, st) :=
    if found.1 = -1 then
      let result := List.replicate st.blockSize 0
      let newLeaf := (pmGet st.posMap blockID).getD 0
      let blkData := match newData with
        | some d => copyBytes (List.replicate st.blockSize 0) d
        | none => List.replicate st.blockSize 0
      (result, { st with stash := st.stash ++ [⟨blockID, newLeaf, blkData⟩] })
    else
      let newLeaf := (pmGet st.posMap blockID).getD 0
      let upd := fun (b : Blk) => { b with
        leaf := newLeaf,
        data := match newData with
          | some d => copyBytes b.data d
          | none => b.data }
      (found.2, { st with stash := st.stash.modify upd found.1.toNat })
  -- Step 6: evict
  match (if st.constantTime then evictCT st path else evictWithStrategy st path) with
  | (some e, st) => (.error e, st)
  | (none, st) => (.ok result, st)

/-- `Access` (public): id and payload-size validation, then `access`. -/
def Access (st : ORAM) (blockID : Int) (newData : Option (List Nat)) :
    Except Err (List Nat) × ORAM :=
  if blockID < 0 ∨ (st.numBlocks : Int) ≤ blockID then (.error .invalidBlockID, st)
  else if ∃ d, newData = some d ∧ d.length ≠ st.blockSize then
    (.error .invalidDataSize, st)
  else access st blockID.toNat newData

/-- `Read` (public). -/
def Read (st : ORAM) (blockID : Int) : Except Err (List Nat) × ORAM :=
  if blockID < 0 ∨ (st.numBlocks : Int) ≤ blockID then (.error .invalidBlockID, st)
  else access st blockID.toNat none

/-- `Write` (public): returns the previous value. -/
def Write (st : ORAM) (blockID : Int) (data : List Nat) :
    Except Err (List Nat) × ORAM :=
  if blockID < 0 ∨ (st.numBlocks : Int) ≤ blockID then (.error .invalidBlockID, st)
  else if data.length ≠ st.blockSize then (.error .invalidDataSize, st)
  else access st blockID.toNat (some data)

/-- `NewInMemory`: validate the configuration, derive the tree geometry
and build the empty engine over the given random tape. -/
def newInMemory (cfg : Config) (tape : Nat → Nat) : Except Err ORAM := do
  let cfg ← cfg.validate
  let (h, nl, total) := cfg.computeTreeParams
  return {
    numBlocks := cfg.numBlocks
    blockSize := cfg.blockSize
    bucketSize := cfg.bucketSize
    stashLimit := cfg.stashLimit
    strategy := cfg.strategy
    constantTime := cfg.constantTime
    height := h
    numLeaves := nl
    posMap := []
    stash := []
    tree := List.replicate total (List.replicate cfg.bucketSize ⟨-1, -1, List.replicate cfg.blockSize 0⟩)
    events := []
    tape := tape
    ctr := 0 }

/-- `Size` observer: number of ids the position map has seen. -/
def size (st : ORAM) : Nat := st.posMap.length

/-- `StashSize` observer. -/
def stashSize (st : ORAM) : Nat := st.stash.length

/-- Run a sequence of public `Access` operations, threading the state
(errors leave the state as `Access` returned it, mutations included for
stash overflow). -/
def runOps (st : ORAM) : List (Int × Option (List Nat)) → ORAM
  | [] => st
  | (id, nd) :: rest => runOps (Access st id nd).2 rest

/-- Run a sequence of public `Access` operations, collecting the
results. -/
def runResults (st : ORAM) : List (Int × Option (List Nat)) →
    List (Except Err (List Nat))
  | [] => []
  | (id, nd) :: rest => (Access st id nd).1 :: runResults (Access st id nd).2 rest

/-- A random tape drawn from a finite list (zero afterwards). -/
def mkTape (l : List Nat) : Nat → Nat := fun n => l.getD n 0

/-- Non-empty blocks of a bucket. -/
def bucketNE (bkt : List Blk) : List Blk := bkt.filter (fun b => b.id != -1)

/-- Non-empty blocks of the whole tree, bucket-major. -/
def treeNE (tree : List (List Blk)) : List Blk := tree.flatMap bucketNE

/-- All live blocks: the stash followed by the non-empty tree blocks. -/
def allBlocks (st : ORAM) : List Blk := st.stash ++ treeNE st.tree

/-- The payload currently associated with an id, if a live block holds
that id. -/
def dataOf (st : ORAM) (id : Int) : Option (List Nat) :=
  ((allBlocks st).find? (fun b => b.id = id)).map (·.data)

/-- The previous value an access to `id` returns: the stored payload,
or `blockSize` zero bytes when the id holds no block. -/
def prevOf (st : ORAM) (id : Int) : List Nat :=
  (dataOf st id).getD (List.replicate st.blockSize 0)

/-! ## Generic list lemmas -/

theorem copyBytes_length (dst src : List Nat) :
    (copyBytes dst src).length = dst.length := by
  unfold copyBytes
  rw [List.length_append, List.length_take, List.length_drop]
  omega

theorem copyBytes_eq_of_length_eq (dst src : List Nat)
    (h : src.length = dst.length) : copyBytes dst src = src := by
  unfold copyBytes
  rw [← h, min_self, List.take_length, List.drop_eq_nil_of_le (le_of_eq h.symm),
    List.append_nil]

theorem extractFirst_eq_none {p : Blk → Bool} {l : List Blk}
    (h : extractFirst p l = none) : ∀ b ∈ l, p b = false := by
  induction l with
  | nil => simp
  | cons x rest ih =>
    intro b hb
    unfold extractFirst at h
    by_cases hx : p x
    · simp [hx] at h
    · rcases List.mem_cons.mp hb with rfl | hb
      · simpa using hx
      · rcases hrec : extractFirst p rest with _ | pr
        · exact ih hrec b hb
        · simp [hx, hrec] at h

theorem extractFirst_eq_some {p : Blk → Bool} {l : List Blk} {x : Blk}
    {rest : List Blk} (h : extractFirst p l = some (x, rest)) :
    p x = true ∧ x ∈ l ∧ l.Perm (x :: rest) ∧ (∀ b ∈ rest, b ∈ l) := by
  induction l generalizing x rest with
  | nil => simp [extractFirst] at h
  | cons a tl ih =>
    unfold extractFirst at h
    by_cases ha : p a
    · simp [ha] at h
      obtain ⟨rfl, rfl⟩ := h
      exact ⟨ha, List.mem_cons_self _ _, List.Perm.refl _,
        fun b hb => List.mem_cons_of_mem _ hb⟩
    · rcases hrec : extractFirst p tl with _ | ⟨y, rest'⟩
      · simp [ha, hrec] at h
      · simp [ha, hrec] at h
        obtain ⟨rfl, rfl⟩ := h
        obtain ⟨h1, h2, h3, h4⟩ := ih hrec
        refine ⟨h1, List.mem_cons_of_mem _ h2, ?_, ?_⟩
        · exact (h3.cons _).trans (List.Perm.swap y _ rest')
        · intro b hb
          rcases List.mem_cons.mp hb with rfl | hb
          · exact List.mem_cons_self _ _
          · exact List.mem_cons_of_mem _ (h4 b hb)

theorem swapRemove_perm_concat {α : Type} [Inhabited α] (A : List α) (x : α)
    (i : Nat) (hi : i < (A ++ [x]).length) :
    (((A ++ [x]).set i ((A ++ [x]).getLastD default)).dropLast).Perm
      ((A ++ [x]).eraseIdx i) := by
  have hlast : (A ++ [x]).getLastD default = x := by
    rw [List.getLastD_eq_getLast?, List.getLast?_concat]
    rfl
  rw [hlast]
  rcases Nat.lt_or_ge i A.length with hlt | hge
  · rw [List.set_append, if_pos hlt, List.dropLast_concat,
      List.eraseIdx_append_of_lt_length hlt]
    rw [List.set_eq_take_append_cons_drop, if_pos hlt,
      List.eraseIdx_eq_take_drop_succ]
    refine List.Perm.trans List.perm_middle ?_
    exact (List.perm_append_singleton _ _).symm
  · have hi' : i = A.length := by
      simp only [List.length_append, List.length_singleton] at hi
      omega
    subst hi'
    rw [List.set_append, if_neg (lt_irrefl _), Nat.sub_self]
    simp only [List.set_cons_zero, List.dropLast_concat]
    rw [List.eraseIdx_eq_take_drop_succ]
    have h1 : List.take A.length (A ++ [x]) = A := by simp
    have h2 : List.drop (A.length + 1) (A ++ [x]) = [] := by
      apply List.drop_eq_nil_of_le
      simp
    rw [h1, h2, List.append_nil]

theorem swapRemove_perm {α : Type} [Inhabited α] (l : List α) (i : Nat)
    (hi : i < l.length) :
    ((l.set i (l.getLastD default)).dropLast).Perm (l.eraseIdx i) := by
  rcases List.eq_nil_or_concat l with rfl | ⟨A, x, rfl⟩
  · simp at hi
  · rw [List.concat_eq_append] at hi ⊢
    exact swapRemove_perm_concat A x i hi

theorem swapRemove_length {α : Type} [Inhabited α] (l : List α) (i : Nat) :
    ((l.set i (l.getLastD default)).dropLast).length = l.length - 1 := by
  rw [List.length_dropLast, List.length_set]

/-! ## Position-map lemmas -/

/-- Keys of an association list. -/
def pmKeys (m : List (Int × Int)) : List Int := m.map (·.1)

theorem find?_congr_pred {α : Type} {p q : α → Bool} (l : List α)
    (h : ∀ a ∈ l, p a = q a) : l.find? p = l.find? q := by
  induction l with
  | nil => rfl
  | cons a tl ih =>
    rw [List.find?_cons, List.find?_cons, h a (List.mem_cons_self _ _),
      ih (fun b hb => h b (List.mem_cons_of_mem _ hb))]

theorem pmGet_eq_none_iff {m : List (Int × Int)} {k : Int} :
    pmGet m k = none ↔ k ∉ pmKeys m := by
  unfold pmGet pmKeys
  rw [Option.map_eq_none', List.find?_eq_none]
  constructor
  · intro h hk
    obtain ⟨p, hp, hpk⟩ := List.mem_map.mp hk
    exact h p hp (by simpa using hpk)
  · intro h p hp hpk
    exact h (List.mem_map.mpr ⟨p, hp, by simpa using hpk⟩)

theorem pmGet_isSome_iff {m : List (Int × Int)} {k : Int} :
    (pmGet m k).isSome = true ↔ k ∈ pmKeys m := by
  rw [← Decidable.not_iff_not, Option.not_isSome_iff_eq_none, pmGet_eq_none_iff]

theorem pmGet_none_find? {m : List (Int × Int)} {k : Int}
    (h : pmGet m k = none) : m.find? (fun p => decide (p.1 = k)) = none := by
  unfold pmGet at h
  exact Option.map_eq_none'.mp h

theorem pmGet_mem {m : List (Int × Int)} {k v : Int}
    (h : pmGet m k = some v) : (k, v) ∈ m := by
  unfold pmGet at h
  rw [Option.map_eq_some'] at h
  obtain ⟨p, hp, hpv⟩ := h
  have h1 := List.mem_of_find?_eq_some hp
  have h2 : p.1 = k := by simpa using List.find?_some hp
  have hpe : p = (k, v) := by
    cases p
    simp_all
  rwa [hpe] at h1

theorem pmSet_keys_of_mem {m : List (Int × Int)} {k : Int} (v : Int)
    (h : (pmGet m k).isSome = true) : pmKeys (pmSet m k v) = pmKeys m := by
  unfold pmGet at h
  unfold pmSet
  rw [if_pos (by simpa using h)]
  unfold pmKeys
  rw [List.map_map]
  apply List.map_congr_left
  intro p _
  by_cases hp : p.1 = k <;> simp [hp]

theorem pmSet_keys_of_not_mem {m : List (Int × Int)} {k : Int} (v : Int)
    (h : pmGet m k = none) : pmKeys (pmSet m k v) = pmKeys m ++ [k] := by
  unfold pmSet
  rw [if_neg (by rw [pmGet_none_find? h]; simp)]
  unfold pmKeys
  simp

theorem pmSet_length_of_mem {m : List (Int × Int)} {k : Int} (v : Int)
    (h : (pmGet m k).isSome = true) : (pmSet m k v).length = m.length := by
  unfold pmGet at h
  unfold pmSet
  rw [if_pos (by simpa using h), List.length_map]

theorem pmSet_length_of_not_mem {m : List (Int × Int)} {k : Int} (v : Int)
    (h : pmGet m k = none) : (pmSet m k v).length = m.length + 1 := by
  unfold pmSet
  rw [if_neg (by rw [pmGet_none_find? h]; simp), List.length_append]
  rfl

theorem pmSet_get_self (m : List (Int × Int)) (k v : Int) :
    pmGet (pmSet m k v) k = some v := by
  unfold pmSet
  by_cases h : (List.find? (fun p => decide (p.1 = k)) m).isSome
  · rw [if_pos h]
    unfold pmGet
    rw [List.find?_map]
    have hcong : m.find?
        ((fun p : Int × Int => decide (p.1 = k)) ∘ (fun p => if p.1 = k then (k, v) else p)) =
        m.find? (fun p => decide (p.1 = k)) := by
      apply find?_congr_pred
      intro a _
      by_cases ha : a.1 = k <;> simp [ha]
    rw [hcong]
    obtain ⟨p, hp⟩ := Option.isSome_iff_exists.mp h
    have hpk : p.1 = k := by simpa using List.find?_some hp
    rw [hp]
    simp [hpk]
  · rw [if_neg h]
    unfold pmGet
    rw [List.find?_append]
    have hn : List.find? (fun p => decide (p.1 = k)) m = none :=
      Option.not_isSome_iff_eq_none.mp h
    rw [hn]
    simp [List.find?]

theorem pmSet_get_other (m : List (Int × Int)) (k v k' : Int) (hk : k' ≠ k) :
    pmGet (pmSet m k v) k' = pmGet m k' := by
  have hkk : ¬(k = k') := fun hc => hk hc.symm
  unfold pmSet
  by_cases h : (List.find? (fun p => decide (p.1 = k)) m).isSome
  · rw [if_pos h]
    unfold pmGet
    rw [List.find?_map]
    have hcong : m.find?
        ((fun p : Int × Int => decide (p.1 = k')) ∘ (fun p => if p.1 = k then (k, v) else p)) =
        m.find? (fun p => decide (p.1 = k')) := by
      apply find?_congr_pred
      intro a _
      by_cases ha : a.1 = k
      · have hne : ¬(a.1 = k') := by rw [ha]; exact fun hc => hk hc.symm
        simp only [Function.comp_apply, if_pos ha]
        simp [hkk, hne]
      · simp [ha]
    rw [hcong]
    rcases hfind : List.find? (fun p => decide (p.1 = k')) m with _ | p
    · rw [hfind]
      rfl
    · have hpk : p.1 = k' := by simpa using List.find?_some hfind
      have hpnk : ¬(p.1 = k) := by rw [hpk]; exact hk
      rw [hfind]
      simp [hpnk]
  · rw [if_neg h]
    unfold pmGet
    rw [List.find?_append]
    rcases hfind : List.find? (fun p => decide (p.1 = k')) m with _ | p
    · rw [hfind]
      simp [List.find?, hkk]
    · rw [hfind]
      rfl

theorem pmSet_keys_nodup (m : List (Int × Int)) (k v : Int)
    (hnd : (pmKeys m).Nodup) : (pmKeys (pmSet m k v)).Nodup := by
  by_cases h : (pmGet m k).isSome
  · rwa [pmSet_keys_of_mem v h]
  · have hn : pmGet m k = none := Option.not_isSome_iff_eq_none.mp h
    rw [pmSet_keys_of_not_mem v hn, List.nodup_append]
    refine ⟨hnd, List.nodup_singleton k, ?_⟩
    intro a ha hb
    rw [List.mem_singleton] at hb
    subst hb
    exact (pmGet_eq_none_iff.mp hn) ha

/-! ## Tree-geometry lemmas -/

theorem parentIter_succ_right (b j : Nat) :
    parentIter b (j + 1) = (parentIter b j - 1) / 2 := by
  induction j generalizing b with
  | zero => rfl
  | succ j ih => exact ih ((b - 1) / 2)

theorem parentIter_le (b j : Nat) : parentIter b j ≤ b := by
  induction j generalizing b with
  | zero => exact le_refl b
  | succ j ih =>
    have h1 : parentIter ((b - 1) / 2) j ≤ (b - 1) / 2 := ih _
    have h2 : (b - 1) / 2 ≤ b := le_trans (Nat.div_le_self _ _) (Nat.sub_le _ _)
    exact le_trans h1 h2

theorem pathAux_length (b n : Nat) : (pathAux b n).length = n := by
  induction n generalizing b with
  | zero => rfl
  | succ n ih => simp [pathAux, ih]

theorem pathAux_mem_iff {t b n : Nat} :
    t ∈ pathAux b n ↔ ∃ j, j < n ∧ parentIter b j = t := by
  induction n generalizing b with
  | zero => simp [pathAux]
  | succ n ih =>
    simp only [pathAux, List.mem_cons, ih]
    constructor
    · rintro (rfl | ⟨j, hj, hp⟩)
      · exact ⟨0, Nat.succ_pos n, rfl⟩
      · exact ⟨j + 1, Nat.succ_lt_succ hj, hp⟩
    · rintro ⟨j, hj, hp⟩
      cases j with
      | zero => exact Or.inl hp.symm
      | succ j => exact Or.inr ⟨j, Nat.lt_of_succ_lt_succ hj, hp⟩

theorem pathAux_getD (b : Nat) {n j : Nat} (hj : j < n) :
    (pathAux b n).getD j 0 = parentIter b j := by
  induction n generalizing b j with
  | zero => omega
  | succ n ih =>
    cases j with
    | zero => rfl
    | succ j => exact ih _ (Nat.lt_of_succ_lt_succ hj)

theorem pathAux_nodup (n : Nat) :
    ∀ b, (∀ j, j + 1 < n → parentIter b j ≠ 0) → (pathAux b n).Nodup := by
  induction n with
  | zero => intro b _; simp [pathAux]
  | succ n ih =>
    intro b hb
    rw [pathAux, List.nodup_cons]
    constructor
    · intro hmem
      obtain ⟨j, hj, hp⟩ := pathAux_mem_iff.mp hmem
      rcases Nat.eq_zero_or_pos n with rfl | hn
      · omega
      · have hb0 : b ≠ 0 := hb 0 (by omega)
        have h1 : parentIter ((b - 1) / 2) j ≤ (b - 1) / 2 := parentIter_le _ _
        have h2 : (b - 1) / 2 < b := by omega
        omega
    · exact ih _ (fun j hj => hb (j + 1) (by omega))

theorem leafChain_closed {k leaf : Nat} :
    ∀ j, j ≤ k → parentIter (2 ^ k - 1 + leaf) j = 2 ^ (k - j) - 1 + leaf / 2 ^ j := by
  intro j
  induction j with
  | zero => intro _; simp [parentIter]
  | succ j ih =>
    intro hj
    have hj' : j ≤ k := le_of_lt (Nat.lt_of_succ_le hj)
    rw [parentIter_succ_right, ih hj']
    have hA : 2 ^ (k - j) = 2 * 2 ^ (k - j - 1) := by
      conv_lhs => rw [show k - j = (k - j - 1) + 1 by omega]
      rw [pow_succ']
    have hA1 : 1 ≤ 2 ^ (k - j - 1) := Nat.one_le_two_pow
    have hsplit : 2 ^ (k - j) - 1 + leaf / 2 ^ j - 1 = 2 * (2 ^ (k - j - 1) - 1) + leaf / 2 ^ j := by
      revert hA hA1
      generalize leaf / 2 ^ j = q
      generalize 2 ^ (k - j - 1) = X
      generalize 2 ^ (k - j) = Y
      intro hA hA1
      omega
    rw [hsplit, Nat.mul_add_div (by norm_num), Nat.div_div_eq_div_mul, ← pow_succ]
    have hke : k - j - 1 = k - (j + 1) := by omega
    rw [hke]

theorem leafChain_root {k leaf : Nat} (hleaf : leaf < 2 ^ k) :
    parentIter (2 ^ k - 1 + leaf) k = 0 := by
  rw [leafChain_closed k (le_refl k), Nat.sub_self]
  simp [Nat.div_eq_of_lt hleaf]

theorem leafChain_ne_zero {k leaf : Nat} {j : Nat}
    (hj : j < k) : parentIter (2 ^ k - 1 + leaf) j ≠ 0 := by
  rw [leafChain_closed j (le_of_lt hj)]
  have h2 : (2 : Nat) ≤ 2 ^ (k - j) := by
    calc (2 : Nat) = 2 ^ 1 := rfl
      _ ≤ 2 ^ (k - j) := Nat.pow_le_pow_right (by norm_num) (by omega)
  clear hj
  revert h2
  generalize leaf / 2 ^ j = q
  generalize 2 ^ (k - j) = P
  intro h2
  omega

theorem leafChain_lt {k leaf : Nat} (hleaf : leaf < 2 ^ k) {j : Nat}
    (hj : j ≤ k) : parentIter (2 ^ k - 1 + leaf) j < 2 ^ (k + 1) - 1 := by
  rw [leafChain_closed j hj]
  have h1 : leaf / 2 ^ j < 2 ^ (k - j) := by
    apply Nat.div_lt_of_lt_mul
    calc leaf < 2 ^ k := hleaf
      _ = 2 ^ j * 2 ^ (k - j) := by rw [← pow_add]; congr 1; omega
  have h2 : 2 ^ (k - j) ≤ 2 ^ k := Nat.pow_le_pow_right (by norm_num) (by omega)
  have h3 : (1 : Nat) ≤ 2 ^ k := Nat.one_le_two_pow
  have h4 : 2 ^ k + 2 ^ k = 2 ^ (k + 1) := by rw [pow_succ]; omega
  clear hleaf hj
  revert h1 h2 h3 h4
  generalize leaf / 2 ^ j = q
  generalize 2 ^ (k - j) = P
  generalize 2 ^ k = K
  generalize 2 ^ (k + 1) = M
  intro h1 h2 h3 h4
  omega

theorem chainAux_spec :
    ∀ (s b : Nat), parentIter b s = 0 → (∀ j, j < s → parentIter b j ≠ 0) →
    ∀ (fuel : Nat), s ≤ fuel → ∀ t, chainAux t fuel b = decide (t ∈ pathAux b (s + 1)) := by
  intro s
  induction s with
  | zero =>
    intro b h0 _ fuel _ t
    have hb : b = 0 := h0
    subst hb
    cases fuel with
    | zero =>
      simp only [chainAux, pathAux, List.mem_cons]
      by_cases h : t = 0
      · subst h; simp
      · simp [h, Ne.symm h, pathAux]
    | succ f =>
      simp only [chainAux, pathAux, List.mem_cons]
      by_cases h : t = 0
      · subst h; simp
      · simp [Ne.symm h, h, pathAux]
  | succ s ih =>
    intro b h0 hne fuel hfuel t
    have hb : b ≠ 0 := hne 0 (Nat.succ_pos s)
    cases fuel with
    | zero => omega
    | succ f =>
      have hrec := ih ((b - 1) / 2) h0
        (fun j hj => hne (j + 1) (Nat.succ_lt_succ hj)) f (Nat.le_of_succ_le_succ hfuel) t
      simp only [chainAux]
      by_cases ht : b = t
      · subst ht
        simp [pathAux]
      · have hbt : (b == t) = false := by simp [ht]
        have hb0 : (b == 0) = false := by simp [hb]
        rw [hbt, hb0]
        simp only [Bool.false_eq_true, if_false, hrec]
        have : pathAux b (s + 1 + 1) = b :: pathAux ((b - 1) / 2) (s + 1) := rfl
        rw [this]
        simp [Ne.symm ht]

/-- `canPlaceAt` agrees with membership in the leaf-to-root path, for
in-range leaves over the engine geometry (`numLeaves = 2^(height-1)`). -/
theorem canPlaceAt_iff_mem {h numLeaves : Nat} (hh : 1 ≤ h)
    (hnl : numLeaves = 2 ^ (h - 1)) (leaf : Int) (hge : 0 ≤ leaf)
    (hlt : leaf < (numLeaves : Int)) (i : Nat) :
    canPlaceAt numLeaves leaf i = true ↔ i ∈ pathAux (numLeaves - 1 + leaf.toNat) h := by
  set k := h - 1 with hk
  have hnl1 : 1 ≤ numLeaves := by
    rw [hnl]
    exact Nat.one_le_two_pow
  have hlb : ((numLeaves : Int) - 1 + leaf) = ((numLeaves - 1 + leaf.toNat : Nat) : Int) := by
    omega
  have hleafNat : leaf.toNat < 2 ^ k := by
    rw [← hnl]
    omega
  unfold canPlaceAt
  rw [hlb]
  simp only [Int.toNat_ofNat, Int.ofNat_toNat]
  have hnonneg : ¬((numLeaves - 1 + leaf.toNat : Nat) : Int) < 0 := by
    omega
  rw [if_neg hnonneg]
  have hb : numLeaves - 1 + leaf.toNat = 2 ^ k - 1 + leaf.toNat := by
    rw [hnl]
  rw [hb]
  have hroot : parentIter (2 ^ k - 1 + leaf.toNat) k = 0 := leafChain_root hleafNat
  have hne : ∀ j, j < k → parentIter (2 ^ k - 1 + leaf.toNat) j ≠ 0 :=
    fun j hj => leafChain_ne_zero hj
  have hfuel : k ≤ 2 ^ k - 1 + leaf.toNat := by
    have := Nat.lt_two_pow k
    omega
  rw [chainAux_spec k _ hroot hne _ hfuel i]
  have hsk : k + 1 = h := by omega
  rw [hsk]
  simp

/-- `canPlaceAtConstantTime` agrees with `canPlaceAt` for in-range
leaves over the engine geometry. -/
theorem canPlaceAtCT_eq {h numLeaves : Nat} (hh : 1 ≤ h)
    (hnl : numLeaves = 2 ^ (h - 1)) (leaf : Int) (hge : 0 ≤ leaf)
    (hlt : leaf < (numLeaves : Int)) (i : Nat) :
    canPlaceAtCT numLeaves h leaf i = canPlaceAt numLeaves leaf i := by
  have hmem := canPlaceAt_iff_mem hh hnl leaf hge hlt i
  have hlb : ((numLeaves : Int) - 1 + leaf) = ((numLeaves - 1 + leaf.toNat : Nat) : Int) := by
    have hnl1 : 1 ≤ numLeaves := by
      rw [hnl]
      exact Nat.one_le_two_pow
    omega
  unfold canPlaceAtCT
  rw [hlb]
  have hnonneg : ¬((numLeaves - 1 + leaf.toNat : Nat) : Int) < 0 := by omega
  rw [if_neg hnonneg, Int.toNat_ofNat]
  rcases Bool.eq_false_or_eq_true (canPlaceAt numLeaves leaf i) with hc | hc
  case inl =>
    rw [hc]
    rw [hc] at hmem
    have hi : i ∈ pathAux (numLeaves - 1 + leaf.toNat) h := hmem.mp rfl
    obtain ⟨j, hj, hp⟩ := pathAux_mem_iff.mp hi
    simp only [List.any_eq_true]
    exact ⟨j, List.mem_range.mpr hj, by simp [hp]⟩
  case inr =>
    rw [hc]
    rw [hc] at hmem
    simp only [List.any_eq_false]
    intro j hj
    rw [List.mem_range] at hj
    intro hcontra
    have hmemP : i ∈ pathAux (numLeaves - 1 + leaf.toNat) h := by
      rw [pathAux_mem_iff]
      exact ⟨j, hj, by simpa using hcontra⟩
    exact absurd (hmem.mpr hmemP) (by simp)

/-- Every index on a path is a valid bucket index (`< 2^height - 1`). -/
theorem pathAux_mem_lt {h numLeaves leaf : Nat} (hh : 1 ≤ h)
    (hnl : numLeaves = 2 ^ (h - 1)) (hleaf : leaf < numLeaves) :
    ∀ i ∈ pathAux (numLeaves - 1 + leaf) h, i < 2 ^ h - 1 := by
  intro i hi
  obtain ⟨j, hj, hp⟩ := pathAux_mem_iff.mp hi
  set k := h - 1 with hk
  have hleaf' : leaf < 2 ^ k := by rw [← hnl]; exact hleaf
  have hb : numLeaves - 1 + leaf = 2 ^ k - 1 + leaf := by rw [hnl]
  rw [hb] at hp
  have hjk : j ≤ k := by omega
  have := leafChain_lt hleaf' hjk
  rw [hp] at this
  have hsk : k + 1 = h := by omega
  rwa [hsk] at this

/-- Paths over the engine geometry have no duplicate bucket indices. -/
theorem pathAux_leaf_nodup {h numLeaves leaf : Nat} (hh : 1 ≤ h)
    (hnl : numLeaves = 2 ^ (h - 1)) (hleaf : leaf < numLeaves) :
    (pathAux (numLeaves - 1 + leaf) h).Nodup := by
  apply pathAux_nodup
  intro j hj
  set k := h - 1 with hk
  have hb : numLeaves - 1 + leaf = 2 ^ k - 1 + leaf := by rw [hnl]
  rw [hb]
  exact leafChain_ne_zero (by omega)

/-! ## Block-accounting lemmas -/

theorem bucketNE_mem_id {bkt : List Blk} {b : Blk} (h : b ∈ bucketNE bkt) :
    b.id ≠ -1 := by
  have := List.of_mem_filter h
  simpa using this

theorem bucketNE_mem {bkt : List Blk} {b : Blk} (h : b ∈ bucketNE bkt) :
    b ∈ bkt := List.mem_of_mem_filter h

theorem mem_bucketNE {bkt : List Blk} {b : Blk} (h1 : b ∈ bkt) (h2 : b.id ≠ -1) :
    b ∈ bucketNE bkt := by
  apply List.mem_filter.mpr
  exact ⟨h1, by simpa using h2⟩

theorem bucketNE_emptied (bkt : List Blk) :
    bucketNE (bkt.map (fun b => if b.id != -1 then { b with id := -1 } else b)) = [] := by
  unfold bucketNE
  rw [List.filter_eq_nil_iff]
  intro a ha
  rw [List.mem_map] at ha
  obtain ⟨x, _, rfl⟩ := ha
  by_cases hx : x.id = -1 <;> simp [hx]

theorem bucketNE_set {bkt : List Blk} {slot : Nat} {b : Blk}
    (hs : slot < bkt.length) (hempty : (bkt.getD slot default).id = -1)
    (hb : b.id ≠ -1) : (bucketNE (bkt.set slot b)).Perm (b :: bucketNE bkt) := by
  have hset : bkt.set slot b = bkt.take slot ++ b :: bkt.drop (slot + 1) := by
    rw [List.set_eq_take_append_cons_drop, if_pos hs]
  have hold : bkt = bkt.take slot ++ bkt.getD slot default :: bkt.drop (slot + 1) := by
    conv_lhs => rw [← List.take_append_drop slot bkt]
    congr 1
    rw [List.getD_eq_getElem _ _ hs]
    exact List.drop_eq_getElem_cons hs
  rw [hset]
  conv_rhs => rw [hold]
  unfold bucketNE
  rw [List.filter_append, List.filter_append, List.filter_cons, List.filter_cons]
  have hbt : (b.id != -1) = true := by simpa using hb
  have hof : ((bkt.getD slot default).id != -1) = false := by simpa using hempty
  rw [hbt, hof]
  simp only [if_true, if_false]
  exact List.perm_middle

theorem treeNE_set (ts : List (List Blk)) (i : Nat) (hi : i < ts.length)
    (bkt : List Blk) :
    (treeNE (ts.set i bkt) ++ bucketNE (ts.getD i [])).Perm
      (treeNE ts ++ bucketNE bkt) := by
  have hset : ts.set i bkt = ts.take i ++ bkt :: ts.drop (i + 1) := by
    rw [List.set_eq_take_append_cons_drop, if_pos hi]
  have hold : ts = ts.take i ++ ts.getD i [] :: ts.drop (i + 1) := by
    conv_lhs => rw [← List.take_append_drop i ts]
    congr 1
    rw [List.getD_eq_getElem _ _ hi]
    exact List.drop_eq_getElem_cons hi
  rw [hset]
  conv_rhs => rw [hold]
  unfold treeNE
  rw [List.flatMap_append, List.flatMap_cons, List.flatMap_append, List.flatMap_cons]
  -- abbreviate the three block lists
  generalize bucketNE (ts.getD i []) = O
  generalize bucketNE bkt = B
  generalize (List.take i ts).flatMap bucketNE = T1
  generalize (List.drop (i + 1) ts).flatMap bucketNE = T2
  have hmid : ((B ++ T2) ++ O).Perm ((O ++ T2) ++ B) := by
    refine List.Perm.trans List.perm_append_comm ?_
    refine List.Perm.trans (List.Perm.append_left O List.perm_append_comm) ?_
    rw [← List.append_assoc]
  have h1 : (T1 ++ (B ++ T2) ++ O).Perm (T1 ++ ((B ++ T2) ++ O)) := by
    rw [List.append_assoc]
  have h2 : (T1 ++ ((B ++ T2) ++ O)).Perm (T1 ++ ((O ++ T2) ++ B)) :=
    List.Perm.append_left _ hmid
  have h3 : (T1 ++ ((O ++ T2) ++ B)).Perm (T1 ++ (O ++ T2) ++ B) := by
    simp only [List.append_assoc]
    exact List.Perm.refl _
  exact (h1.trans h2).trans h3

theorem treeNE_mem_bucket {ts : List (List Blk)} {b : Blk} (h : b ∈ treeNE ts) :
    ∃ i, i < ts.length ∧ b ∈ bucketNE (ts.getD i []) := by
  unfold treeNE at h
  rw [List.mem_flatMap] at h
  obtain ⟨bkt, hbkt, hb⟩ := h
  obtain ⟨i, hi, heq⟩ := List.mem_iff_getElem.mp hbkt
  refine ⟨i, hi, ?_⟩
  rw [List.getD_eq_getElem _ _ hi, heq]
  exact hb

/-- Membership in a path bucket gives membership in the tree blocks. -/
theorem mem_treeNE_of_bucket {ts : List (List Blk)} {i : Nat} {b : Blk}
    (hi : i < ts.length) (hb : b ∈ bucketNE (ts.getD i [])) : b ∈ treeNE ts := by
  unfold treeNE
  rw [List.mem_flatMap]
  refine ⟨ts.getD i [], ?_, hb⟩
  rw [List.getD_eq_getElem _ _ hi]
  exact List.getElem_mem _

/-! ## The common shape of the drain step and the eviction variants -/

/-- State facts shared by `readPathIntoStash` and all eviction variants:
configuration and position map untouched, tree shape preserved, the
multiset of live blocks preserved, stash blocks drawn from the previous
live blocks, and every non-empty tree slot either held its block before
or received a block placeable at that bucket. -/
structure StepOK (st st' : ORAM) : Prop where
  cfg : st'.numBlocks = st.numBlocks ∧ st'.blockSize = st.blockSize ∧
    st'.bucketSize = st.bucketSize ∧ st'.stashLimit = st.stashLimit ∧
    st'.strategy = st.strategy ∧ st'.constantTime = st.constantTime ∧
    st'.height = st.height ∧ st'.numLeaves = st.numLeaves
  pm : st'.posMap = st.posMap
  treeLen : st'.tree.length = st.tree.length
  bktLen : ∀ i, (st'.tree.getD i []).length = (st.tree.getD i []).length
  blocksPerm : (allBlocks st').Perm (allBlocks st)
  stashMem : ∀ b ∈ st'.stash, b ∈ allBlocks st
  plc : ∀ i, ∀ b ∈ bucketNE (st'.tree.getD i []),
    b ∈ bucketNE (st.tree.getD i []) ∨
      (b ∈ allBlocks st ∧ canPlaceAt st.numLeaves b.leaf i = true)

theorem StepOK.refl (st : ORAM) : StepOK st st where
  cfg := ⟨rfl, rfl, rfl, rfl, rfl, rfl, rfl, rfl⟩
  pm := rfl
  treeLen := rfl
  bktLen := fun _ => rfl
  blocksPerm := List.Perm.refl _
  stashMem := fun b hb => List.mem_append_left _ hb
  plc := fun _ b hb => Or.inl hb

theorem StepOK.trans {a b c : ORAM} (h1 : StepOK a b) (h2 : StepOK b c) :
    StepOK a c where
  cfg := ⟨h2.cfg.1.trans h1.cfg.1, h2.cfg.2.1.trans h1.cfg.2.1,
    h2.cfg.2.2.1.trans h1.cfg.2.2.1, h2.cfg.2.2.2.1.trans h1.cfg.2.2.2.1,
    h2.cfg.2.2.2.2.1.trans h1.cfg.2.2.2.2.1,
    h2.cfg.2.2.2.2.2.1.trans h1.cfg.2.2.2.2.2.1,
    h2.cfg.2.2.2.2.2.2.1.trans h1.cfg.2.2.2.2.2.2.1,
    h2.cfg.2.2.2.2.2.2.2.trans h1.cfg.2.2.2.2.2.2.2⟩
  pm := h2.pm.trans h1.pm
  treeLen := h2.treeLen.trans h1.treeLen
  bktLen := fun i => (h2.bktLen i).trans (h1.bktLen i)
  blocksPerm := h2.blocksPerm.trans h1.blocksPerm
  stashMem := fun blk hb => h1.blocksPerm.mem_iff.mp (h2.stashMem blk hb)
  plc := by
    intro i blk hb
    rcases h2.plc i blk hb with hin | ⟨hmem, hcp⟩
    · exact h1.plc i blk hin
    · right
      refine ⟨h1.blocksPerm.mem_iff.mp hmem, ?_⟩
      rwa [h1.cfg.2.2.2.2.2.2.2] at hcp

/-! ## Path drain (`readPathIntoStash`) -/

theorem readBucketIntoStash_def (st : ORAM) (i : Nat) :
    readBucketIntoStash st i = { st with
      stash := st.stash ++ bucketNE (st.tree.getD i []),
      tree := st.tree.set i
        ((st.tree.getD i []).map (fun b => if b.id != -1 then { b with id := -1 } else b)),
      events := st.events ++ [.readB i, .writeB i] } := by
  unfold readBucketIntoStash readBucket writeBucket bucketNE
  simp

theorem readBucketIntoStash_StepOK (st : ORAM) (i : Nat)
    (hi : i < st.tree.length) : StepOK st (readBucketIntoStash st i) := by
  rw [readBucketIntoStash_def]
  set emptied := (st.tree.getD i []).map
    (fun b => if b.id != -1 then { b with id := -1 } else b) with hemp
  have hlen : emptied.length = (st.tree.getD i []).length := List.length_map _ _
  have hperm := treeNE_set st.tree i hi emptied
  rw [bucketNE_emptied, List.append_nil] at hperm
  constructor
  · exact ⟨rfl, rfl, rfl, rfl, rfl, rfl, rfl, rfl⟩
  · rfl
  · exact List.length_set _ _ _
  · intro j
    by_cases hj : i = j
    · subst hj
      rw [List.getD_eq_getElem?_getD, List.getElem?_set, if_pos rfl, if_pos hi]
      simpa using hlen
    · rw [List.getD_eq_getElem?_getD, List.getElem?_set, if_neg hj,
        ← List.getD_eq_getElem?_getD]
  · show (st.stash ++ bucketNE (st.tree.getD i []) ++ treeNE (st.tree.set i emptied)).Perm
      (allBlocks st)
    unfold allBlocks
    refine List.Perm.trans ?_ (List.Perm.append_left st.stash hperm)
    simp only [List.append_assoc]
    exact List.Perm.append_left _ List.perm_append_comm
  · intro b hb
    rcases List.mem_append.mp hb with h | h
    · exact List.mem_append_left _ h
    · exact List.mem_append_right _ (mem_treeNE_of_bucket hi h)
  · intro j b hb
    by_cases hj : i = j
    · subst hj
      rw [List.getD_eq_getElem?_getD, List.getElem?_set, if_pos rfl, if_pos hi] at hb
      simp only [Option.getD_some] at hb
      rw [hemp, bucketNE_emptied] at hb
      simp at hb
    · rw [List.getD_eq_getElem?_getD, List.getElem?_set, if_neg hj,
        ← List.getD_eq_getElem?_getD] at hb
      exact Or.inl hb

theorem readPathIntoStash_StepOK (p : List Nat) :
    ∀ (st : ORAM), (∀ j ∈ p, j < st.tree.length) →
    StepOK st (readPathIntoStash st p) := by
  induction p with
  | nil => intro st _; exact StepOK.refl st
  | cons j rest ih =>
    intro st hp
    have h1 := readBucketIntoStash_StepOK st j (hp j (List.mem_cons_self _ _))
    have h2 := ih (readBucketIntoStash st j) (by
      intro x hx
      rw [h1.treeLen]
      exact hp x (List.mem_cons_of_mem _ hx))
    exact h1.trans h2

theorem readPathIntoStash_stash_ext (p : List Nat) :
    ∀ st : ORAM, ∃ t, (readPathIntoStash st p).stash = st.stash ++ t := by
  induction p with
  | nil => intro st; exact ⟨[], (List.append_nil _).symm⟩
  | cons j rest ih =>
    intro st
    obtain ⟨t, ht⟩ := ih (readBucketIntoStash st j)
    refine ⟨bucketNE (st.tree.getD j []) ++ t, ?_⟩
    show (readPathIntoStash (readBucketIntoStash st j) rest).stash = _
    rw [ht, readBucketIntoStash_def]
    simp [List.append_assoc]

theorem readPathIntoStash_tree_untouched (p : List Nat) :
    ∀ (st : ORAM) (i : Nat), i ∉ p →
    (readPathIntoStash st p).tree.getD i [] = st.tree.getD i [] := by
  induction p with
  | nil => intro st i _; rfl
  | cons j rest ih =>
    intro st i hi
    have hij : i ≠ j := fun hc => hi (hc ▸ List.mem_cons_self _ _)
    have hrest : i ∉ rest := fun hc => hi (List.mem_cons_of_mem _ hc)
    show (readPathIntoStash (readBucketIntoStash st j) rest).tree.getD i [] = _
    rw [ih _ i hrest, readBucketIntoStash_def]
    simp only
    rw [List.getD_eq_getElem?_getD, List.getElem?_set, if_neg (fun hc => hij hc.symm),
      ← List.getD_eq_getElem?_getD]

theorem readPathIntoStash_empties (p : List Nat) :
    ∀ st : ORAM, p.Nodup → (∀ j ∈ p, j < st.tree.length) →
    ∀ i ∈ p, bucketNE ((readPathIntoStash st p).tree.getD i []) = [] := by
  induction p with
  | nil => intro st _ _ i hi; simp at hi
  | cons j rest ih =>
    intro st hnd hlt i hi
    have hndr : rest.Nodup := (List.nodup_cons.mp hnd).2
    have hjr : j ∉ rest := (List.nodup_cons.mp hnd).1
    rcases List.mem_cons.mp hi with rfl | hir
    · -- the head bucket is emptied by its own step and untouched afterwards
      show bucketNE ((readPathIntoStash (readBucketIntoStash st i) rest).tree.getD i []) = []
      rw [readPathIntoStash_tree_untouched rest _ i hjr, readBucketIntoStash_def]
      simp only
      rw [List.getD_eq_getElem?_getD, List.getElem?_set, if_pos rfl,
        if_pos (hlt i (List.mem_cons_self _ _))]
      simp only [Option.getD_some]
      exact bucketNE_emptied _
    · show bucketNE ((readPathIntoStash (readBucketIntoStash st j) rest).tree.getD i []) = []
      apply ih _ hndr _ i hir
      intro x hx
      rw [(readBucketIntoStash_StepOK st j (hlt j (List.mem_cons_self _ _))).treeLen]
      exact hlt x (List.mem_cons_of_mem _ hx)

theorem readPathIntoStash_collects (p : List Nat) :
    ∀ st : ORAM, ∀ i ∈ p, ∀ b ∈ bucketNE (st.tree.getD i []),
    b ∈ (readPathIntoStash st p).stash := by
  induction p with
  | nil => intro st i hi; simp at hi
  | cons j rest ih =>
    intro st i hi b hb
    rcases List.mem_cons.mp hi with rfl | hir
    · -- collected by the head step, and the stash only grows afterwards
      obtain ⟨t, ht⟩ := readPathIntoStash_stash_ext rest (readBucketIntoStash st i)
      show b ∈ (readPathIntoStash (readBucketIntoStash st i) rest).stash
      rw [ht, readBucketIntoStash_def]
      simp only
      exact List.mem_append_left _ (List.mem_append_right _ hb)
    · by_cases hij : i = j
      · subst hij
        obtain ⟨t, ht⟩ := readPathIntoStash_stash_ext rest (readBucketIntoStash st i)
        show b ∈ (readPathIntoStash (readBucketIntoStash st i) rest).stash
        rw [ht, readBucketIntoStash_def]
        simp only
        exact List.mem_append_left _ (List.mem_append_right _ hb)
      · show b ∈ (readPathIntoStash (readBucketIntoStash st j) rest).stash
        apply ih _ i hir
        rw [readBucketIntoStash_def]
        simp only
        rw [List.getD_eq_getElem?_getD, List.getElem?_set, if_neg (fun hc => hij hc.symm),
          ← List.getD_eq_getElem?_getD]
        exact hb

/-! ## Level-by-level eviction -/

theorem levelStep_fold (nl bIdx : Nat) :
    ∀ (slots : List Nat) (bucket stash : List Blk) (m : Bool),
    (∀ s ∈ slots, s < bucket.length) → (∀ b ∈ stash, b.id ≠ -1) →
    (let r := slots.foldl (levelStep nl bIdx) (bucket, stash, m)
     r.1.length = bucket.length ∧
     (bucketNE r.1 ++ r.2.1).Perm (bucketNE bucket ++ stash) ∧
     (∀ b ∈ r.2.1, b ∈ stash) ∧
     (∀ b ∈ bucketNE r.1,
       b ∈ bucketNE bucket ∨ (b ∈ stash ∧ canPlaceAt nl b.leaf bIdx = true)) ∧
     (m = true → r.2.2 = true) ∧
     (r.2.2 = false → r.1 = bucket ∧ r.2.1 = stash)) := by
  intro slots
  induction slots with
  | nil =>
    intro bucket stash m _ _
    exact ⟨rfl, List.Perm.refl _, fun b hb => hb, fun b hb => Or.inl hb,
      fun h => h, fun _ => ⟨rfl, rfl⟩⟩
  | cons s rest ih =>
    intro bucket stash m hs hst
    simp only [List.foldl_cons]
    by_cases hocc : ((bucket.getD s default).id != -1) = true
    · have hstep : levelStep nl bIdx (bucket, stash, m) s = (bucket, stash, m) := by
        unfold levelStep
        simp only [hocc, if_true]
      rw [hstep]
      exact ih bucket stash m (fun x hx => hs x (List.mem_cons_of_mem _ hx)) hst
    · rcases hext : extractFirst (fun b => canPlaceAt nl b.leaf bIdx) stash with _ | ⟨b, rest'⟩
      · have hstep : levelStep nl bIdx (bucket, stash, m) s = (bucket, stash, m) := by
          unfold levelStep
          simp only [hocc, Bool.false_eq_true, if_false, hext]
        rw [hstep]
        exact ih bucket stash m (fun x hx => hs x (List.mem_cons_of_mem _ hx)) hst
      · have hstep : levelStep nl bIdx (bucket, stash, m) s = (bucket.set s b, rest', true) := by
          unfold levelStep
          simp only [hocc, Bool.false_eq_true, if_false, hext]
        rw [hstep]
        obtain ⟨hpb, hbmem, hsperm, hsub⟩ := extractFirst_eq_some hext
        have hbid : b.id ≠ -1 := hst b hbmem
        have hslen : s < bucket.length := hs s (List.mem_cons_self _ _)
        have hempty : (bucket.getD s default).id = -1 := by
          simpa using hocc
        have hset := bucketNE_set hslen hempty hbid
        have ihr := ih (bucket.set s b) rest' true
          (fun x hx => by rw [List.length_set]; exact hs x (List.mem_cons_of_mem _ hx))
          (fun x hx => hst x (hsub x hx))
        obtain ⟨ih1, ih2, ih3, ih4, ih5, _⟩ := ihr
        refine ⟨by rw [ih1, List.length_set], ?_, ?_, ?_, ?_, ?_⟩
        · -- block accounting
          refine List.Perm.trans ih2 ?_
          refine List.Perm.trans (List.Perm.append_right rest' hset) ?_
          show (b :: (bucketNE bucket ++ rest')).Perm (bucketNE bucket ++ stash)
          refine List.Perm.trans ?_ ((List.Perm.append_left _ hsperm.symm))
          exact List.perm_middle.symm
        · exact fun x hx => hsub x (ih3 x hx)
        · intro x hx
          rcases ih4 x hx with hin | ⟨hmem, hcp⟩
          · rcases List.mem_cons.mp (hset.mem_iff.mp hin) with rfl | hold
            · exact Or.inr ⟨hbmem, by simpa using hpb⟩
            · exact Or.inl hold
          · exact Or.inr ⟨hsub x hmem, hcp⟩
        · intro _
          exact ih5 rfl
        · intro hfalse
          rw [ih5 rfl] at hfalse
          cases hfalse

theorem allBlocks_id_ne {st : ORAM} (hst : ∀ b ∈ st.stash, b.id ≠ -1) :
    ∀ b ∈ allBlocks st, b.id ≠ -1 := by
  intro b hb
  rcases List.mem_append.mp hb with h | h
  · exact hst b h
  · obtain ⟨i, _, hbkt⟩ := treeNE_mem_bucket h
    exact bucketNE_mem_id hbkt

theorem StepOK.stashNE {st st' : ORAM} (h : StepOK st st')
    (hst : ∀ b ∈ st.stash, b.id ≠ -1) : ∀ b ∈ st'.stash, b.id ≠ -1 :=
  fun b hb => allBlocks_id_ne hst b (h.stashMem b hb)

theorem evictLevelBucket_StepOK (st : ORAM) (bIdx : Nat)
    (hb : bIdx < st.tree.length)
    (hZ : (st.tree.getD bIdx []).length = st.bucketSize)
    (hst : ∀ b ∈ st.stash, b.id ≠ -1) : StepOK st (evictLevelBucket st bIdx) := by
  unfold evictLevelBucket readBucket
  simp only
  set bucket := st.tree.getD bIdx [] with hbkt
  obtain ⟨L1, L2, L3, L4, _, L6⟩ := levelStep_fold st.numLeaves bIdx
    (List.range st.bucketSize) bucket st.stash false
    (fun s hs => by rw [hbkt, hZ]; exact List.mem_range.mp hs) hst
  generalize hr : (List.range st.bucketSize).foldl (levelStep st.numLeaves bIdx)
    (bucket, st.stash, false) = r
  rw [hr] at L1 L2 L3 L4 L6
  rcases hmod : r.2.2 with _ | _
  · -- not modified: nothing written back
    rw [if_neg (by simp)]
    obtain ⟨he1, he2⟩ := L6 hmod
    constructor
    · exact ⟨rfl, rfl, rfl, rfl, rfl, rfl, rfl, rfl⟩
    · rfl
    · rfl
    · intro i; rfl
    · show (r.2.1 ++ treeNE st.tree).Perm (allBlocks st)
      rw [he2]
      exact List.Perm.refl _
    · intro b hbm
      rw [he2] at hbm
      exact List.mem_append_left _ hbm
    · intro i b hbm
      exact Or.inl hbm
  · rw [if_pos rfl]
    unfold writeBucket
    have hts := treeNE_set st.tree bIdx hb r.1
    rw [← hbkt] at hts
    constructor
    · exact ⟨rfl, rfl, rfl, rfl, rfl, rfl, rfl, rfl⟩
    · rfl
    · exact List.length_set _ _ _
    · intro i
      by_cases hi : bIdx = i
      · subst hi
        rw [List.getD_eq_getElem?_getD, List.getElem?_set, if_pos rfl, if_pos hb]
        simp only [Option.getD_some]
        rw [L1, hbkt]
      · rw [List.getD_eq_getElem?_getD, List.getElem?_set, if_neg hi,
          ← List.getD_eq_getElem?_getD]
    · show (r.2.1 ++ treeNE (st.tree.set bIdx r.1)).Perm (allBlocks st)
      apply (List.perm_append_right_iff (bucketNE bucket)).mp
      have s1 : ((r.2.1 ++ treeNE (st.tree.set bIdx r.1)) ++ bucketNE bucket).Perm
          (r.2.1 ++ (treeNE (st.tree.set bIdx r.1) ++ bucketNE bucket)) := by
        rw [List.append_assoc]
      have s2 : (r.2.1 ++ (treeNE (st.tree.set bIdx r.1) ++ bucketNE bucket)).Perm
          (r.2.1 ++ (treeNE st.tree ++ bucketNE r.1)) := List.Perm.append_left _ hts
      have s3 : (r.2.1 ++ (treeNE st.tree ++ bucketNE r.1)).Perm
          ((bucketNE r.1 ++ r.2.1) ++ treeNE st.tree) := by
        rw [← Multiset.coe_eq_coe]
        simp only [← Multiset.coe_add]
        abel
      have s4 : ((bucketNE r.1 ++ r.2.1) ++ treeNE st.tree).Perm
          ((bucketNE bucket ++ st.stash) ++ treeNE st.tree) :=
        List.Perm.append_right _ L2
      have s5 : ((bucketNE bucket ++ st.stash) ++ treeNE st.tree).Perm
          ((st.stash ++ treeNE st.tree) ++ bucketNE bucket) := by
        rw [← Multiset.coe_eq_coe]
        simp only [← Multiset.coe_add]
        abel
      exact (((s1.trans s2).trans s3).trans s4).trans s5
    · intro b hbm
      exact List.mem_append_left _ (L3 b hbm)
    · intro i b hbm
      by_cases hi : bIdx = i
      · subst hi
        rw [List.getD_eq_getElem?_getD, List.getElem?_set, if_pos rfl, if_pos hb,
          Option.getD_some] at hbm
        rcases L4 b hbm with hold | ⟨hmem, hcp⟩
        · exact Or.inl (hbkt ▸ hold)
        · exact Or.inr ⟨List.mem_append_left _ hmem, hcp⟩
      · rw [List.getD_eq_getElem?_getD, List.getElem?_set, if_neg hi,
          ← List.getD_eq_getElem?_getD] at hbm
        exact Or.inl hbm

theorem evictLevel_fold_StepOK (p : List Nat) :
    ∀ st : ORAM, (∀ j ∈ p, j < st.tree.length) →
    (∀ i, i < st.tree.length → (st.tree.getD i []).length = st.bucketSize) →
    (∀ b ∈ st.stash, b.id ≠ -1) →
    StepOK st (p.foldl evictLevelBucket st) := by
  induction p with
  | nil => intro st _ _ _; exact StepOK.refl st
  | cons j rest ih =>
    intro st hp hZ hst
    have hjlt := hp j (List.mem_cons_self _ _)
    have h1 := evictLevelBucket_StepOK st j hjlt (hZ j hjlt) hst
    have h2 := ih (evictLevelBucket st j)
      (fun x hx => by rw [h1.treeLen]; exact hp x (List.mem_cons_of_mem _ hx))
      (fun i hi => by
        rw [h1.bktLen i, h1.cfg.2.2.1]
        exact hZ i (by rw [h1.treeLen] at hi; exact hi))
      (h1.stashNE hst)
    exact h1.trans h2

theorem evictLevel_StepOK (st : ORAM) (p : List Nat)
    (hp : ∀ j ∈ p, j < st.tree.length)
    (hZ : ∀ i, i < st.tree.length → (st.tree.getD i []).length = st.bucketSize)
    (hst : ∀ b ∈ st.stash, b.id ≠ -1) : StepOK st (evictLevel st p).2 := by
  unfold evictLevel
  simp only
  by_cases hov : (p.foldl evictLevelBucket st).stash.length >
      (p.foldl evictLevelBucket st).stashLimit
  · rw [if_pos hov]
    exact evictLevel_fold_StepOK p st hp hZ hst
  · rw [if_neg hov]
    exact evictLevel_fold_StepOK p st hp hZ hst

theorem evictLevel_err (st : ORAM) (p : List Nat)
    (hp : ∀ j ∈ p, j < st.tree.length)
    (hZ : ∀ i, i < st.tree.length → (st.tree.getD i []).length = st.bucketSize)
    (hst : ∀ b ∈ st.stash, b.id ≠ -1) {e : Err}
    (h : (evictLevel st p).1 = some e) :
    e = .stashOverflow ∧ (evictLevel st p).2.stash.length > st.stashLimit := by
  have hlim : (p.foldl evictLevelBucket st).stashLimit = st.stashLimit :=
    (evictLevel_fold_StepOK p st hp hZ hst).cfg.2.2.2.1
  unfold evictLevel at h ⊢
  simp only at h ⊢
  by_cases hov : (p.foldl evictLevelBucket st).stash.length >
      (p.foldl evictLevelBucket st).stashLimit
  · rw [if_pos hov] at h ⊢
    simp only at h
    rw [hlim] at hov
    exact ⟨(Option.some_inj.mp h).symm, hov⟩
  · rw [if_neg hov] at h
    simp at h

/-! ## Reading and writing whole paths (greedy and constant-time eviction) -/

/-- Non-empty blocks currently stored in the buckets of a path. -/
def pathNE (st : ORAM) (p : List Nat) : List Blk :=
  (p.map (fun i => st.tree.getD i [])).flatMap bucketNE

theorem readBuckets_def (p : List Nat) :
    ∀ (acc : List (List Blk)) (st : ORAM),
    p.foldl (fun (a : List (List Blk) × ORAM) i =>
        let pr := readBucket a.2 i
        (a.1 ++ [pr.1], pr.2)) (acc, st) =
      (acc ++ p.map (fun i => st.tree.getD i []),
       { st with events := st.events ++ p.map .readB }) := by
  induction p with
  | nil =>
    intro acc st
    simp
  | cons j rest ih =>
    intro acc st
    rw [List.foldl_cons, ih]
    unfold readBucket
    simp [List.append_assoc]

theorem readBuckets_eq (st : ORAM) (p : List Nat) :
    readBuckets st p = (p.map (fun i => st.tree.getD i []),
      { st with events := st.events ++ p.map .readB }) := by
  unfold readBuckets
  have := readBuckets_def p [] st
  simp only [List.nil_append] at this
  exact this

theorem writeBuckets_stash (p : List Nat) :
    ∀ (st : ORAM) (bks : List (List Blk)),
    (writeBuckets st p bks).stash = st.stash ∧
    (writeBuckets st p bks).posMap = st.posMap ∧
    (writeBuckets st p bks).numBlocks = st.numBlocks ∧
    (writeBuckets st p bks).blockSize = st.blockSize ∧
    (writeBuckets st p bks).bucketSize = st.bucketSize ∧
    (writeBuckets st p bks).stashLimit = st.stashLimit ∧
    (writeBuckets st p bks).strategy = st.strategy ∧
    (writeBuckets st p bks).constantTime = st.constantTime ∧
    (writeBuckets st p bks).height = st.height ∧
    (writeBuckets st p bks).numLeaves = st.numLeaves ∧
    (writeBuckets st p bks).tree.length = st.tree.length ∧
    (writeBuckets st p bks).tape = st.tape ∧
    (writeBuckets st p bks).ctr = st.ctr := by
  induction p with
  | nil =>
    intro st bks
    unfold writeBuckets
    simp
  | cons j rest ih =>
    intro st bks
    cases bks with
    | nil =>
      unfold writeBuckets
      simp
    | cons bkt bksRest =>
      have hstep : writeBuckets st (j :: rest) (bkt :: bksRest) =
          writeBuckets (writeBucket st j bkt) rest bksRest := by
        unfold writeBuckets
        simp [List.zip_cons_cons]
      rw [hstep]
      have := ih (writeBucket st j bkt) bksRest
      unfold writeBucket at this
      simpa using this

theorem writeBuckets_untouched (p : List Nat) :
    ∀ (st : ORAM) (bks : List (List Blk)) (i : Nat), i ∉ p →
    (writeBuckets st p bks).tree.getD i [] = st.tree.getD i [] := by
  induction p with
  | nil =>
    intro st bks i _
    unfold writeBuckets
    simp
  | cons j rest ih =>
    intro st bks i hi
    cases bks with
    | nil =>
      unfold writeBuckets
      simp
    | cons bkt bksRest =>
      have hstep : writeBuckets st (j :: rest) (bkt :: bksRest) =
          writeBuckets (writeBucket st j bkt) rest bksRest := by
        unfold writeBuckets
        simp [List.zip_cons_cons]
      rw [hstep, ih _ _ i (fun hc => hi (List.mem_cons_of_mem _ hc))]
      unfold writeBucket
      simp only
      rw [List.getD_eq_getElem?_getD, List.getElem?_set,
        if_neg (fun hc => hi (by rw [← hc]; exact List.mem_cons_self _ _)),
        ← List.getD_eq_getElem?_getD]

theorem writeBuckets_written (p : List Nat) :
    ∀ (st : ORAM) (bks : List (List Blk)), p.Nodup →
    (∀ j ∈ p, j < st.tree.length) → bks.length = p.length →
    ∀ level, level < p.length →
    (writeBuckets st p bks).tree.getD (p.getD level 0) [] = bks.getD level [] := by
  induction p with
  | nil =>
    intro st bks _ _ _ level hlev
    simp at hlev
  | cons j rest ih =>
    intro st bks hnd hlt hlen level hlev
    cases bks with
    | nil => simp at hlen
    | cons bkt bksRest =>
      have hstep : writeBuckets st (j :: rest) (bkt :: bksRest) =
          writeBuckets (writeBucket st j bkt) rest bksRest := by
        unfold writeBuckets
        simp [List.zip_cons_cons]
      rw [hstep]
      cases level with
      | zero =>
        show (writeBuckets (writeBucket st j bkt) rest bksRest).tree.getD j [] = bkt
        rw [writeBuckets_untouched rest _ _ j (List.nodup_cons.mp hnd).1]
        unfold writeBucket
        simp only
        rw [List.getD_eq_getElem?_getD, List.getElem?_set, if_pos rfl,
          if_pos (hlt j (List.mem_cons_self _ _))]
        rfl
      | succ level =>
        have htl : (writeBucket st j bkt).tree.length = st.tree.length :=
          List.length_set _ _ _
        apply ih (writeBucket st j bkt) bksRest (List.nodup_cons.mp hnd).2
          (fun x hx => by rw [htl]; exact hlt x (List.mem_cons_of_mem _ hx))
          (by simpa using hlen)
        exact Nat.lt_of_succ_lt_succ hlev

theorem writeBuckets_perm (p : List Nat) :
    ∀ (st : ORAM) (bks : List (List Blk)), p.Nodup →
    (∀ j ∈ p, j < st.tree.length) → bks.length = p.length →
    (treeNE (writeBuckets st p bks).tree ++ pathNE st p).Perm
      (treeNE st.tree ++ bks.flatMap bucketNE) := by
  induction p with
  | nil =>
    intro st bks _ _ hlen
    obtain rfl : bks = [] := List.length_eq_zero.mp (by simpa using hlen)
    unfold writeBuckets pathNE
    simp
  | cons j rest ih =>
    intro st bks hnd hlt hlen
    cases bks with
    | nil => simp at hlen
    | cons bkt bksRest =>
      have hstep : writeBuckets st (j :: rest) (bkt :: bksRest) =
          writeBuckets (writeBucket st j bkt) rest bksRest := by
        unfold writeBuckets
        simp [List.zip_cons_cons]
      rw [hstep]
      have hjr : j ∉ rest := (List.nodup_cons.mp hnd).1
      have hjlt : j < st.tree.length := hlt j (List.mem_cons_self _ _)
      have hhead : (treeNE (writeBucket st j bkt).tree ++
          bucketNE (st.tree.getD j [])).Perm (treeNE st.tree ++ bucketNE bkt) := by
        unfold writeBucket
        simp only
        exact treeNE_set st.tree j hjlt bkt
      have hrestNE : pathNE (writeBucket st j bkt) rest = pathNE st rest := by
        unfold pathNE writeBucket
        simp only
        congr 1
        apply List.map_congr_left
        intro x hx
        rw [List.getD_eq_getElem?_getD, List.getElem?_set,
          if_neg (fun hc => hjr (by rw [hc]; exact hx)), ← List.getD_eq_getElem?_getD]
      have hih := ih (writeBucket st j bkt) bksRest (List.nodup_cons.mp hnd).2
        (fun x hx => by
          rw [show (writeBucket st j bkt).tree.length = st.tree.length from
            List.length_set _ _ _]
          exact hlt x (List.mem_cons_of_mem _ hx))
        (by simpa using hlen)
      rw [hrestNE] at hih
      have hcons : pathNE st (j :: rest) = bucketNE (st.tree.getD j []) ++ pathNE st rest := by
        unfold pathNE
        simp
      rw [hcons]
      have hflat : (bkt :: bksRest).flatMap bucketNE =
          bucketNE bkt ++ bksRest.flatMap bucketNE := by simp
      rw [hflat]
      -- abbreviations
      generalize hA : treeNE (writeBuckets (writeBucket st j bkt) rest bksRest).tree = A
      rw [hA] at hih
      generalize hO : bucketNE (st.tree.getD j []) = O
      rw [hO] at hhead
      generalize hR : pathNE st rest = R
      rw [hR] at hih
      generalize hT1 : treeNE (writeBucket st j bkt).tree = T1
      rw [hT1] at hih hhead
      generalize hB : bucketNE bkt = B
      rw [hB] at hhead
      generalize hBR : bksRest.flatMap bucketNE = BR
      rw [hBR] at hih
      generalize hT : treeNE st.tree = T
      rw [hT] at hhead
      -- combine: A ++ (O ++ R) ~ T ++ (B ++ BR)
      have s1 : (A ++ (O ++ R)).Perm ((A ++ R) ++ O) := by
        rw [← Multiset.coe_eq_coe]
        simp only [← Multiset.coe_add]
        abel
      have s2 : ((A ++ R) ++ O).Perm ((T1 ++ BR) ++ O) := List.Perm.append_right _ hih
      have s3 : ((T1 ++ BR) ++ O).Perm ((T1 ++ O) ++ BR) := by
        rw [← Multiset.coe_eq_coe]
        simp only [← Multiset.coe_add]
        abel
      have s4 : ((T1 ++ O) ++ BR).Perm ((T ++ B) ++ BR) := List.Perm.append_right _ hhead
      have s5 : ((T ++ B) ++ BR).Perm (T ++ (B ++ BR)) := by
        rw [List.append_assoc]
      exact (((s1.trans s2).trans s3).trans s4).trans s5

theorem writeBuckets_events (p : List Nat) :
    ∀ (st : ORAM) (bks : List (List Blk)), bks.length = p.length →
    (writeBuckets st p bks).events = st.events ++ p.map .writeB := by
  induction p with
  | nil =>
    intro st bks _
    unfold writeBuckets
    simp
  | cons j rest ih =>
    intro st bks hlen
    cases bks with
    | nil => simp at hlen
    | cons bkt bksRest =>
      have hstep : writeBuckets st (j :: rest) (bkt :: bksRest) =
          writeBuckets (writeBucket st j bkt) rest bksRest := by
        unfold writeBuckets
        simp [List.zip_cons_cons]
      rw [hstep, ih _ _ (by simpa using hlen)]
      unfold writeBucket
      simp [List.append_assoc]

/-! ## Greedy eviction -/

theorem findIdx?_spec {l : List Blk} {p : Blk → Bool} {i : Nat}
    (h : l.findIdx? p = some i) : i < l.length ∧ p (l.getD i default) = true := by
  have hp := List.findIdx?_of_eq_some h
  rcases hie : l[i]? with _ | a
  · rw [hie] at hp
    simp at hp
  · rw [hie] at hp
    have hlt : i < l.length := (List.getElem?_eq_some.mp hie).1
    refine ⟨hlt, ?_⟩
    rw [List.getD_eq_getElem?_getD, hie]
    exact hp

theorem getD_mem {l : List Blk} {i : Nat} (h : i < l.length) :
    l.getD i default ∈ l := by
  rw [List.getD_eq_getElem _ _ h]
  exact List.getElem_mem _

theorem tryPlace_spec {nl : Nat} {leaf : Int} {path : List Nat}
    {buckets : List (List Blk)} {level slot : Nat}
    (h : tryPlace nl leaf path buckets = some (level, slot)) :
    level < path.length ∧ canPlaceAt nl leaf (path.getD level 0) = true ∧
    slot < (buckets.getD level []).length ∧
    ((buckets.getD level []).getD slot default).id = -1 := by
  unfold tryPlace at h
  obtain ⟨level', hmem, hsome⟩ := List.exists_of_findSome?_eq_some h
  rcases hcp : canPlaceAt nl leaf (path.getD level' 0) with _ | _
  · rw [hcp] at hsome
    simp at hsome
  · rw [hcp] at hsome
    simp only [if_true] at hsome
    rcases hfind : (buckets.getD level' []).findIdx? (fun b => b.id = -1) with _ | slot'
    · rw [hfind] at hsome
      simp at hsome
    · rw [hfind] at hsome
      simp only [Option.some_inj, Prod.mk.injEq] at hsome
      obtain ⟨rfl, rfl⟩ := hsome
      obtain ⟨hlt, hp⟩ := findIdx?_spec hfind
      exact ⟨List.mem_range.mp hmem, hcp, hlt, by simpa using hp⟩

theorem perm_cons_eraseIdx (l : List Blk) (i : Nat) (hi : i < l.length) :
    l.Perm (l.getD i default :: l.eraseIdx i) := by
  conv_lhs => rw [← List.take_append_drop i l, List.drop_eq_getElem_cons hi]
  rw [List.eraseIdx_eq_take_drop_succ, List.getD_eq_getElem _ _ hi]
  exact List.perm_middle

theorem eraseIdx_mem {l : List Blk} {i : Nat} {b : Blk}
    (h : b ∈ l.eraseIdx i) : b ∈ l := by
  rw [List.eraseIdx_eq_take_drop_succ] at h
  rcases List.mem_append.mp h with h | h
  · exact List.mem_of_mem_take h
  · exact List.mem_of_mem_drop h

theorem greedyLoop_succ (nl : Nat) (path : List Nat) (fuel : Nat)
    (buckets : List (List Blk)) (stash : List Blk) (i : Nat) :
    greedyLoop nl path (fuel + 1) buckets stash i =
      if i < stash.length then
        match tryPlace nl (stash.getD i default).leaf path buckets with
        | some (level, slot) => greedyLoop nl path fuel
            (buckets.set level ((buckets.getD level []).set slot (stash.getD i default)))
            ((stash.set i (stash.getLastD default)).dropLast) i
        | none => greedyLoop nl path fuel buckets stash (i + 1)
      else (buckets, stash) := rfl

theorem greedyLoop_facts (nl : Nat) (path : List Nat) :
    ∀ (fuel : Nat) (buckets : List (List Blk)) (stash : List Blk) (i : Nat),
    buckets.length = path.length →
    (∀ b ∈ stash, b.id ≠ -1) →
    (let r := greedyLoop nl path fuel buckets stash i
     r.1.length = buckets.length ∧
     (∀ level, (r.1.getD level []).length = (buckets.getD level []).length) ∧
     (treeNE r.1 ++ r.2).Perm (treeNE buckets ++ stash) ∧
     (∀ b ∈ r.2, b ∈ stash) ∧
     (∀ level, ∀ b ∈ bucketNE (r.1.getD level []),
       b ∈ bucketNE (buckets.getD level []) ∨
         (b ∈ stash ∧ canPlaceAt nl b.leaf (path.getD level 0) = true))) := by
  intro fuel
  induction fuel with
  | zero =>
    intro buckets stash i _ _
    exact ⟨rfl, fun _ => rfl, List.Perm.refl _, fun _ hb => hb,
      fun _ b hb => Or.inl hb⟩
  | succ fuel ih =>
    intro buckets stash i hbl hst
    rw [greedyLoop_succ]
    by_cases hi : i < stash.length
    · rw [if_pos hi]
      rcases htp : tryPlace nl (stash.getD i default).leaf path buckets
        with _ | ⟨level, slot⟩
      · -- no level admits this block: advance the index
        exact ih buckets stash (i + 1) hbl hst
      · obtain ⟨hlev, hcp, hslot, hempty⟩ := tryPlace_spec htp
        set b := stash.getD i default with hbdef
        set bkt := buckets.getD level [] with hbkt
        set bkt' := bkt.set slot b with hbkt'
        set buckets' := buckets.set level bkt' with hbks'
        set stash' := (stash.set i (stash.getLastD default)).dropLast with hstash'
        have hbmem : b ∈ stash := getD_mem hi
        have hbid : b.id ≠ -1 := hst b hbmem
        have hlevb : level < buckets.length := by rw [hbl]; exact hlev
        have hNEset : (bucketNE bkt').Perm (b :: bucketNE bkt) :=
          bucketNE_set hslot hempty hbid
        have hTset : (treeNE buckets' ++ bucketNE bkt).Perm
            (treeNE buckets ++ bucketNE bkt') := treeNE_set buckets level hlevb bkt'
        have hsp : stash.Perm (b :: stash.eraseIdx i) := perm_cons_eraseIdx stash i hi
        have hsw : stash'.Perm (stash.eraseIdx i) := swapRemove_perm stash i hi
        have hstash'mem : ∀ x ∈ stash', x ∈ stash :=
          fun x hx => eraseIdx_mem (hsw.mem_iff.mp hx)
        have hst' : ∀ x ∈ stash', x.id ≠ -1 := fun x hx => hst x (hstash'mem x hx)
        have hbl' : buckets'.length = path.length := by
          rw [hbks', List.length_set, hbl]
        obtain ⟨ih1, ih2, ih3, ih4, ih5⟩ := ih buckets' stash' i hbl' hst'
        have hbsw : (b :: stash').Perm stash :=
          ((hsw.cons b).trans hsp.symm)
        -- the state change preserves the live-block multiset
        have hchg : (treeNE buckets' ++ stash').Perm (treeNE buckets ++ stash) := by
          apply (List.perm_append_right_iff (bucketNE bkt)).mp
          have t1 : ((treeNE buckets' ++ stash') ++ bucketNE bkt).Perm
              ((treeNE buckets' ++ bucketNE bkt) ++ stash') := by
            rw [← Multiset.coe_eq_coe]
            simp only [← Multiset.coe_add]
            abel
          have t2 : ((treeNE buckets' ++ bucketNE bkt) ++ stash').Perm
              ((treeNE buckets ++ bucketNE bkt') ++ stash') :=
            List.Perm.append_right _ hTset
          have t3 : ((treeNE buckets ++ bucketNE bkt') ++ stash').Perm
              ((treeNE buckets ++ (b :: bucketNE bkt)) ++ stash') :=
            List.Perm.append_right _ (List.Perm.append_left _ hNEset)
          have t4 : ((treeNE buckets ++ (b :: bucketNE bkt)) ++ stash').Perm
              ((treeNE buckets ++ (([b] ++ bucketNE bkt))) ++ stash') := by
            rw [List.singleton_append]
          have t5 : ((treeNE buckets ++ ([b] ++ bucketNE bkt)) ++ stash').Perm
              ((treeNE buckets ++ bucketNE bkt) ++ ([b] ++ stash')) := by
            rw [← Multiset.coe_eq_coe]
            simp only [← Multiset.coe_add]
            abel
          have t6 : ((treeNE buckets ++ bucketNE bkt) ++ ([b] ++ stash')).Perm
              ((treeNE buckets ++ bucketNE bkt) ++ stash) := by
            apply List.Perm.append_left
            rw [List.singleton_append]
            exact hbsw
          have t7 : ((treeNE buckets ++ bucketNE bkt) ++ stash).Perm
              ((treeNE buckets ++ stash) ++ bucketNE bkt) := by
            rw [← Multiset.coe_eq_coe]
            simp only [← Multiset.coe_add]
            abel
          exact ((((t1.trans t2).trans t3).trans t4).trans t5).trans (t6.trans t7)
        refine ⟨?_, ?_, ?_, ?_, ?_⟩
        · rw [ih1, hbks', List.length_set]
        · intro lv
          rw [ih2 lv]
          by_cases hlv : level = lv
          · subst hlv
            rw [hbks', List.getD_eq_getElem?_getD, List.getElem?_set, if_pos rfl,
              if_pos hlevb, Option.getD_some, hbkt', List.length_set, hbkt]
          · rw [hbks', List.getD_eq_getElem?_getD, List.getElem?_set, if_neg hlv,
              ← List.getD_eq_getElem?_getD]
        · exact ih3.trans hchg
        · exact fun x hx => hstash'mem x (ih4 x hx)
        · intro lv x hx
          rcases ih5 lv x hx with hin | ⟨hmem, hcpx⟩
          · by_cases hlv : level = lv
            · subst hlv
              rw [hbks', List.getD_eq_getElem?_getD, List.getElem?_set, if_pos rfl,
                if_pos hlevb, Option.getD_some] at hin
              rcases List.mem_cons.mp (hNEset.mem_iff.mp hin) with rfl | hold
              · exact Or.inr ⟨hbmem, hcp⟩
              · exact Or.inl (hbkt ▸ hold)
            · rw [hbks', List.getD_eq_getElem?_getD, List.getElem?_set, if_neg hlv,
                ← List.getD_eq_getElem?_getD] at hin
              exact Or.inl hin
          · exact Or.inr ⟨hstash'mem x hmem, hcpx⟩
    · rw [if_neg hi]
      exact ⟨rfl, fun _ => rfl, List.Perm.refl _, fun _ hb => hb,
        fun _ b hb => Or.inl hb⟩

/-- Index form of path membership: a path entry is `p.getD level 0` for
some level. -/
theorem mem_getD_of_mem {p : List Nat} {i : Nat} (h : i ∈ p) :
    ∃ level, level < p.length ∧ p.getD level 0 = i := by
  obtain ⟨n, hn, he⟩ := List.mem_iff_getElem.mp h
  exact ⟨n, hn, by rw [List.getD_eq_getElem _ _ hn]; exact he⟩

theorem map_getD_bucket (tree : List (List Blk)) (p : List Nat) {lv : Nat}
    (hlv : lv < p.length) :
    (p.map (fun i => tree.getD i [])).getD lv [] = tree.getD (p.getD lv 0) [] := by
  have hlv' : lv < (p.map (fun i => tree.getD i [])).length := by
    rw [List.length_map]; exact hlv
  rw [List.getD_eq_getElem _ _ hlv', List.getElem_map, List.getD_eq_getElem _ _ hlv]

theorem evictGreedy_StepOK (st : ORAM) (p : List Nat) (hnd : p.Nodup)
    (hp : ∀ j ∈ p, j < st.tree.length)
    (hst : ∀ b ∈ st.stash, b.id ≠ -1) : StepOK st (evictGreedy st p).2 := by
  unfold evictGreedy
  rw [readBuckets_eq]
  simp only
  obtain ⟨G1, G2, G3, G4, G5⟩ := greedyLoop_facts st.numLeaves p
    (st.stash.length + 1) (p.map (fun i => st.tree.getD i [])) st.stash 0
    (List.length_map _ _) hst
  generalize hr : greedyLoop st.numLeaves p (st.stash.length + 1)
    (p.map (fun i => st.tree.getD i [])) st.stash 0 = r
  rw [hr] at G1 G2 G3 G4 G5
  have hlen1 : r.1.length = p.length := by rw [G1, List.length_map]
  set stR : ORAM := { st with
    events := st.events ++ p.map Ev.readB, stash := r.2 } with hstR
  have htreeR : stR.tree = st.tree := rfl
  obtain ⟨W1, W2, W3, W4, W5, W6, W7, W8, W9, W10, W11, W12, W13⟩ :=
    writeBuckets_stash p stR r.1
  have hWperm := writeBuckets_perm p stR r.1 hnd (fun j hj => hp j hj) hlen1
  have hWwr := writeBuckets_written p stR r.1 hnd (fun j hj => hp j hj) hlen1
  have hWun := writeBuckets_untouched p stR r.1
  have hstepOK : StepOK st (writeBuckets stR p r.1) := by
    constructor
    · exact ⟨W3, W4, W5, W6, W7, W8, W9, W10⟩
    · exact W2
    · exact W11
    · -- bucket lengths
      intro i
      by_cases hip : i ∈ p
      · obtain ⟨lv, hlv, hgd⟩ := mem_getD_of_mem hip
        have := hWwr lv hlv
        rw [hgd] at this
        rw [this, G2 lv, map_getD_bucket st.tree p hlv, hgd]
      · rw [hWun i hip]
    · -- live blocks preserved
      show ((writeBuckets stR p r.1).stash ++
        treeNE (writeBuckets stR p r.1).tree).Perm (allBlocks st)
      rw [W1]
      apply (List.perm_append_right_iff (pathNE st p)).mp
      have hWperm' : (treeNE (writeBuckets stR p r.1).tree ++ pathNE st p).Perm
          (treeNE st.tree ++ treeNE r.1) := hWperm
      have u1 : ((r.2 ++ treeNE (writeBuckets stR p r.1).tree) ++ pathNE st p).Perm
          (r.2 ++ (treeNE (writeBuckets stR p r.1).tree ++ pathNE st p)) := by
        rw [List.append_assoc]
      have u2 : (r.2 ++ (treeNE (writeBuckets stR p r.1).tree ++ pathNE st p)).Perm
          (r.2 ++ (treeNE st.tree ++ treeNE r.1)) := List.Perm.append_left _ hWperm'
      have u3 : (r.2 ++ (treeNE st.tree ++ treeNE r.1)).Perm
          ((treeNE r.1 ++ r.2) ++ treeNE st.tree) := by
        rw [← Multiset.coe_eq_coe]
        simp only [← Multiset.coe_add]
        abel
      have u4 : ((treeNE r.1 ++ r.2) ++ treeNE st.tree).Perm
          ((treeNE (p.map (fun i => st.tree.getD i [])) ++ st.stash) ++ treeNE st.tree) :=
        List.Perm.append_right _ G3
      have u5 : ((treeNE (p.map (fun i => st.tree.getD i [])) ++ st.stash) ++
          treeNE st.tree).Perm ((st.stash ++ treeNE st.tree) ++ pathNE st p) := by
        show ((pathNE st p ++ st.stash) ++ treeNE st.tree).Perm _
        rw [← Multiset.coe_eq_coe]
        simp only [← Multiset.coe_add]
        abel
      exact (((u1.trans u2).trans u3).trans u4).trans u5
    · intro b hb
      rw [W1] at hb
      exact List.mem_append_left _ (G4 b hb)
    · intro i b hb
      by_cases hip : i ∈ p
      · obtain ⟨lv, hlv, hgd⟩ := mem_getD_of_mem hip
        have hwr := hWwr lv hlv
        rw [hgd] at hwr
        rw [hwr] at hb
        rcases G5 lv b hb with hold | ⟨hmem, hcp⟩
        · rw [map_getD_bucket st.tree p hlv, hgd] at hold
          exact Or.inl hold
        · rw [hgd] at hcp
          exact Or.inr ⟨List.mem_append_left _ hmem, hcp⟩
      · rw [hWun i hip] at hb
        exact Or.inl hb
  by_cases hov : (writeBuckets stR p r.1).stash.length > (writeBuckets stR p r.1).stashLimit
  · rw [if_pos hov]
    exact hstepOK
  · rw [if_neg hov]
    exact hstepOK

theorem evictGreedy_err (st : ORAM) (p : List Nat) {e : Err}
    (h : (evictGreedy st p).1 = some e) :
    e = .stashOverflow ∧ (evictGreedy st p).2.stash.length > st.stashLimit := by
  unfold evictGreedy at h ⊢
  rw [readBuckets_eq] at h ⊢
  simp only at h ⊢
  generalize hr : greedyLoop st.numLeaves p (st.stash.length + 1)
    (p.map (fun i => st.tree.getD i [])) st.stash 0 = r at h ⊢
  set stR : ORAM := { st with
    events := st.events ++ p.map Ev.readB, stash := r.2 } with hstR
  have hlim : (writeBuckets stR p r.1).stashLimit = st.stashLimit :=
    (writeBuckets_stash p stR r.1).2.2.2.2.2.1
  by_cases hov : (writeBuckets stR p r.1).stash.length > (writeBuckets stR p r.1).stashLimit
  · rw [if_pos hov] at h ⊢
    simp only at h
    rw [hlim] at hov
    exact ⟨(Option.some_inj.mp h).symm, hov⟩
  · rw [if_neg hov] at h
    simp at h

/-! ## Constant-time eviction -/

theorem tryPlaceCT_spec {nl h : Nat} {leaf : Int} {path : List Nat}
    {buckets : List (List Blk)} {level slot : Nat}
    (hsp : tryPlaceCT nl h leaf path buckets = some (level, slot)) :
    level < path.length ∧ canPlaceAtCT nl h leaf (path.getD level 0) = true ∧
    slot < (buckets.getD level []).length ∧
    ((buckets.getD level []).getD slot default).id = -1 := by
  unfold tryPlaceCT at hsp
  obtain ⟨level', hmem, hsome⟩ := List.exists_of_findSome?_eq_some hsp
  rcases hcp : canPlaceAtCT nl h leaf (path.getD level' 0) with _ | _
  · rw [hcp] at hsome
    simp at hsome
  · rw [hcp] at hsome
    simp only [if_true] at hsome
    rcases hfind : (buckets.getD level' []).findIdx? (fun b => b.id = -1) with _ | slot'
    · rw [hfind] at hsome
      simp at hsome
    · rw [hfind] at hsome
      simp only [Option.some_inj, Prod.mk.injEq] at hsome
      obtain ⟨rfl, rfl⟩ := hsome
      obtain ⟨hlt, hp⟩ := findIdx?_spec hfind
      exact ⟨List.mem_range.mp hmem, hcp, hlt, by simpa using hp⟩

theorem ctLoop_cons (nl h : Nat) (path : List Nat) (b : Blk) (rest : List Blk)
    (buckets : List (List Blk)) (acc : List Blk) :
    ctLoop nl h path (b :: rest) buckets acc =
      match tryPlaceCT nl h b.leaf path buckets with
      | some (level, slot) => ctLoop nl h path rest
          (buckets.set level ((buckets.getD level []).set slot b)) acc
      | none => ctLoop nl h path rest buckets (acc ++ [b]) := rfl

theorem ctLoop_facts (nl h : Nat) (path : List Nat) :
    ∀ (stash : List Blk) (buckets : List (List Blk)) (acc : List Blk),
    buckets.length = path.length →
    (∀ b ∈ stash, b.id ≠ -1) →
    (let r := ctLoop nl h path stash buckets acc
     r.1.length = buckets.length ∧
     (∀ level, (r.1.getD level []).length = (buckets.getD level []).length) ∧
     (treeNE r.1 ++ r.2).Perm (treeNE buckets ++ (acc ++ stash)) ∧
     (∀ b ∈ r.2, b ∈ acc ∨ b ∈ stash) ∧
     (∀ level, ∀ b ∈ bucketNE (r.1.getD level []),
       b ∈ bucketNE (buckets.getD level []) ∨
         (b ∈ stash ∧ canPlaceAtCT nl h b.leaf (path.getD level 0) = true))) := by
  intro stash
  induction stash with
  | nil =>
    intro buckets acc _ _
    refine ⟨rfl, fun _ => rfl, ?_, fun b hb => Or.inl hb, fun _ b hb => Or.inl hb⟩
    show (treeNE buckets ++ acc).Perm (treeNE buckets ++ (acc ++ []))
    rw [List.append_nil]
  | cons b rest ih =>
    intro buckets acc hbl hst
    show (let r := ctLoop nl h path (b :: rest) buckets acc
          _ ∧ _ ∧ _ ∧ _ ∧ _)
    have hbid : b.id ≠ -1 := hst b (List.mem_cons_self _ _)
    rcases htp : tryPlaceCT nl h b.leaf path buckets with _ | ⟨level, slot⟩
    · -- not placed: the block joins the new stash
      rw [ctLoop_cons, htp]
      obtain ⟨ih1, ih2, ih3, ih4, ih5⟩ := ih buckets (acc ++ [b]) hbl
        (fun x hx => hst x (List.mem_cons_of_mem _ hx))
      refine ⟨ih1, ih2, ?_, ?_, ?_⟩
      · refine ih3.trans ?_
        rw [List.append_assoc, List.singleton_append]
      · intro x hx
        rcases ih4 x hx with hin | hr
        · rcases List.mem_append.mp hin with h1 | h1
          · exact Or.inl h1
          · exact Or.inr (List.mem_singleton.mp h1 ▸ List.mem_cons_self _ _)
        · exact Or.inr (List.mem_cons_of_mem _ hr)
      · intro lv x hx
        rcases ih5 lv x hx with hin | ⟨hmem, hcp⟩
        · exact Or.inl hin
        · exact Or.inr ⟨List.mem_cons_of_mem _ hmem, hcp⟩
    · obtain ⟨hlev, hcp, hslot, hempty⟩ := tryPlaceCT_spec htp
      set bkt := buckets.getD level [] with hbkt
      set bkt' := bkt.set slot b with hbkt'
      set buckets' := buckets.set level bkt' with hbks'
      have hred : ctLoop nl h path (b :: rest) buckets acc =
          ctLoop nl h path rest buckets' acc := by
        rw [ctLoop_cons, htp]
      rw [hred]
      have hlevb : level < buckets.length := by rw [hbl]; exact hlev
      have hNEset : (bucketNE bkt').Perm (b :: bucketNE bkt) :=
        bucketNE_set hslot hempty hbid
      have hTset : (treeNE buckets' ++ bucketNE bkt).Perm
          (treeNE buckets ++ bucketNE bkt') := treeNE_set buckets level hlevb bkt'
      have hbl' : buckets'.length = path.length := by
        rw [hbks', List.length_set, hbl]
      obtain ⟨ih1, ih2, ih3, ih4, ih5⟩ := ih buckets' acc hbl'
        (fun x hx => hst x (List.mem_cons_of_mem _ hx))
      refine ⟨?_, ?_, ?_, ?_, ?_⟩
      · rw [ih1, hbks', List.length_set]
      · intro lv
        rw [ih2 lv]
        by_cases hlv : level = lv
        · subst hlv
          rw [hbks', List.getD_eq_getElem?_getD, List.getElem?_set, if_pos rfl,
            if_pos hlevb, Option.getD_some, hbkt', List.length_set, hbkt]
        · rw [hbks', List.getD_eq_getElem?_getD, List.getElem?_set, if_neg hlv,
            ← List.getD_eq_getElem?_getD]
      · -- live blocks: the placed block moves from the stash into the buckets
        refine ih3.trans ?_
        apply (List.perm_append_right_iff (bucketNE bkt)).mp
        have t1 : ((treeNE buckets' ++ (acc ++ rest)) ++ bucketNE bkt).Perm
            ((treeNE buckets' ++ bucketNE bkt) ++ (acc ++ rest)) := by
          rw [← Multiset.coe_eq_coe]
          simp only [← Multiset.coe_add]
          abel
        have t2 : ((treeNE buckets' ++ bucketNE bkt) ++ (acc ++ rest)).Perm
            ((treeNE buckets ++ bucketNE bkt') ++ (acc ++ rest)) :=
          List.Perm.append_right _ hTset
        have t3 : ((treeNE buckets ++ bucketNE bkt') ++ (acc ++ rest)).Perm
            ((treeNE buckets ++ ([b] ++ bucketNE bkt)) ++ (acc ++ rest)) := by
          refine List.Perm.append_right _ (List.Perm.append_left _ ?_)
          rw [List.singleton_append]
          exact hNEset
        have t4 : ((treeNE buckets ++ ([b] ++ bucketNE bkt)) ++ (acc ++ rest)).Perm
            ((treeNE buckets ++ (acc ++ ([b] ++ rest))) ++ bucketNE bkt) := by
          rw [← Multiset.coe_eq_coe]
          simp only [← Multiset.coe_add]
          abel
        have t5 : ((treeNE buckets ++ (acc ++ ([b] ++ rest))) ++ bucketNE bkt).Perm
            ((treeNE buckets ++ (acc ++ b :: rest)) ++ bucketNE bkt) := by
          rw [List.singleton_append]
        exact ((t1.trans t2).trans t3).trans (t4.trans t5)
      · intro x hx
        rcases ih4 x hx with hin | hr
        · exact Or.inl hin
        · exact Or.inr (List.mem_cons_of_mem _ hr)
      · intro lv x hx
        rcases ih5 lv x hx with hin | ⟨hmem, hcpx⟩
        · by_cases hlv : level = lv
          · subst hlv
            rw [hbks', List.getD_eq_getElem?_getD, List.getElem?_set, if_pos rfl,
              if_pos hlevb, Option.getD_some] at hin
            rcases List.mem_cons.mp (hNEset.mem_iff.mp hin) with rfl | hold
            · exact Or.inr ⟨List.mem_cons_self _ _, hcp⟩
            · exact Or.inl (hbkt ▸ hold)
          · rw [hbks', List.getD_eq_getElem?_getD, List.getElem?_set, if_neg hlv,
              ← List.getD_eq_getElem?_getD] at hin
            exact Or.inl hin
        · exact Or.inr ⟨List.mem_cons_of_mem _ hmem, hcpx⟩

theorem evictCT_StepOK (st : ORAM) (p : List Nat) (hnd : p.Nodup)
    (hp : ∀ j ∈ p, j < st.tree.length)
    (hst : ∀ b ∈ st.stash, b.id ≠ -1)
    (hh : 1 ≤ st.height) (hnl : st.numLeaves = 2 ^ (st.height - 1))
    (hlr : ∀ b ∈ st.stash, 0 ≤ b.leaf ∧ b.leaf < (st.numLeaves : Int)) :
    StepOK st (evictCT st p).2 := by
  unfold evictCT
  rw [readBuckets_eq]
  simp only
  obtain ⟨G1, G2, G3, G4, G5⟩ := ctLoop_facts st.numLeaves st.height p
    st.stash (p.map (fun i => st.tree.getD i [])) []
    (List.length_map _ _) hst
  generalize hr : ctLoop st.numLeaves st.height p st.stash
    (p.map (fun i => st.tree.getD i [])) [] = r
  rw [hr] at G1 G2 G3 G4 G5
  simp only [List.nil_append] at G3
  have hlen1 : r.1.length = p.length := by rw [G1, List.length_map]
  set stR : ORAM := { st with
    events := st.events ++ p.map Ev.readB, stash := r.2 } with hstR
  obtain ⟨W1, W2, W3, W4, W5, W6, W7, W8, W9, W10, W11, W12, W13⟩ :=
    writeBuckets_stash p stR r.1
  have hWperm := writeBuckets_perm p stR r.1 hnd (fun j hj => hp j hj) hlen1
  have hWwr := writeBuckets_written p stR r.1 hnd (fun j hj => hp j hj) hlen1
  have hWun := writeBuckets_untouched p stR r.1
  have hstepOK : StepOK st (writeBuckets stR p r.1) := by
    constructor
    · exact ⟨W3, W4, W5, W6, W7, W8, W9, W10⟩
    · exact W2
    · exact W11
    · intro i
      by_cases hip : i ∈ p
      · obtain ⟨lv, hlv, hgd⟩ := mem_getD_of_mem hip
        have := hWwr lv hlv
        rw [hgd] at this
        rw [this, G2 lv, map_getD_bucket st.tree p hlv, hgd]
      · rw [hWun i hip]
    · show ((writeBuckets stR p r.1).stash ++
        treeNE (writeBuckets stR p r.1).tree).Perm (allBlocks st)
      rw [W1]
      apply (List.perm_append_right_iff (pathNE st p)).mp
      have hWperm' : (treeNE (writeBuckets stR p r.1).tree ++ pathNE st p).Perm
          (treeNE st.tree ++ treeNE r.1) := hWperm
      have u1 : ((r.2 ++ treeNE (writeBuckets stR p r.1).tree) ++ pathNE st p).Perm
          (r.2 ++ (treeNE (writeBuckets stR p r.1).tree ++ pathNE st p)) := by
        rw [List.append_assoc]
      have u2 : (r.2 ++ (treeNE (writeBuckets stR p r.1).tree ++ pathNE st p)).Perm
          (r.2 ++ (treeNE st.tree ++ treeNE r.1)) := List.Perm.append_left _ hWperm'
      have u3 : (r.2 ++ (treeNE st.tree ++ treeNE r.1)).Perm
          ((treeNE r.1 ++ r.2) ++ treeNE st.tree) := by
        rw [← Multiset.coe_eq_coe]
        simp only [← Multiset.coe_add]
        abel
      have u4 : ((treeNE r.1 ++ r.2) ++ treeNE st.tree).Perm
          ((treeNE (p.map (fun i => st.tree.getD i [])) ++ st.stash) ++ treeNE st.tree) :=
        List.Perm.append_right _ G3
      have u5 : ((treeNE (p.map (fun i => st.tree.getD i [])) ++ st.stash) ++
          treeNE st.tree).Perm ((st.stash ++ treeNE st.tree) ++ pathNE st p) := by
        show ((pathNE st p ++ st.stash) ++ treeNE st.tree).Perm _
        rw [← Multiset.coe_eq_coe]
        simp only [← Multiset.coe_add]
        abel
      exact (((u1.trans u2).trans u3).trans u4).trans u5
    · intro b hb
      rw [W1] at hb
      rcases G4 b hb with hacc | hmem
      · simp at hacc
      · exact List.mem_append_left _ hmem
    · intro i b hb
      by_cases hip : i ∈ p
      · obtain ⟨lv, hlv, hgd⟩ := mem_getD_of_mem hip
        have hwr := hWwr lv hlv
        rw [hgd] at hwr
        rw [hwr] at hb
        rcases G5 lv b hb with hold | ⟨hmem, hcp⟩
        · rw [map_getD_bucket st.tree p hlv, hgd] at hold
          exact Or.inl hold
        · rw [hgd] at hcp
          obtain ⟨hge, hlt⟩ := hlr b hmem
          rw [canPlaceAtCT_eq hh hnl b.leaf hge hlt i] at hcp
          exact Or.inr ⟨List.mem_append_left _ hmem, hcp⟩
      · rw [hWun i hip] at hb
        exact Or.inl hb
  by_cases hov : (writeBuckets stR p r.1).stash.length > (writeBuckets stR p r.1).stashLimit
  · rw [if_pos hov]
    exact hstepOK
  · rw [if_neg hov]
    exact hstepOK

theorem evictCT_err (st : ORAM) (p : List Nat) {e : Err}
    (h : (evictCT st p).1 = some e) :
    e = .stashOverflow ∧ (evictCT st p).2.stash.length > st.stashLimit := by
  unfold evictCT at h ⊢
  rw [readBuckets_eq] at h ⊢
  simp only at h ⊢
  generalize hr : ctLoop st.numLeaves st.height p st.stash
    (p.map (fun i => st.tree.getD i [])) [] = r at h ⊢
  set stR : ORAM := { st with
    events := st.events ++ p.map Ev.readB, stash := r.2 } with hstR
  have hlim : (writeBuckets stR p r.1).stashLimit = st.stashLimit :=
    (writeBuckets_stash p stR r.1).2.2.2.2.2.1
  by_cases hov : (writeBuckets stR p r.1).stash.length > (writeBuckets stR p r.1).stashLimit
  · rw [if_pos hov] at h ⊢
    simp only at h
    rw [hlim] at hov
    exact ⟨(Option.some_inj.mp h).symm, hov⟩
  · rw [if_neg hov] at h
    simp at h

/-! ## Strategy dispatch -/

theorem randomLeaf_StepOK (st : ORAM) : StepOK st (randomLeaf st).2 where
  cfg := ⟨rfl, rfl, rfl, rfl, rfl, rfl, rfl, rfl⟩
  pm := rfl
  treeLen := rfl
  bktLen := fun _ => rfl
  blocksPerm := List.Perm.refl _
  stashMem := fun _ hb => List.mem_append_left _ hb
  plc := fun _ _ hb => Or.inl hb

theorem randomLeaf_lt (st : ORAM) (hnl : 1 ≤ st.numLeaves) :
    (randomLeaf st).1 < st.numLeaves := by
  unfold randomLeaf
  exact Nat.mod_lt _ hnl

/-- Geometry hypotheses carried through the eviction dispatch. -/
structure Geom (st : ORAM) : Prop where
  hh : 1 ≤ st.height
  hnl : st.numLeaves = 2 ^ (st.height - 1)
  htree : st.tree.length = 2 ^ st.height - 1
  hZ : ∀ i, i < st.tree.length → (st.tree.getD i []).length = st.bucketSize

theorem Geom.transfer {st st' : ORAM} (g : Geom st) (h : StepOK st st') : Geom st' where
  hh := by rw [h.cfg.2.2.2.2.2.2.1]; exact g.hh
  hnl := by rw [h.cfg.2.2.2.2.2.2.1, h.cfg.2.2.2.2.2.2.2]; exact g.hnl
  htree := by rw [h.treeLen, h.cfg.2.2.2.2.2.2.1]; exact g.htree
  hZ := fun i hi => by
    rw [h.bktLen i, h.cfg.2.2.1]
    exact g.hZ i (by rw [← h.treeLen]; exact hi)

/-- The path of an in-range leaf is duplicate-free and stays within the
bucket store. -/
theorem pathOf_ok (st : ORAM) (g : Geom st) {leaf : Nat} (hleaf : leaf < st.numLeaves) :
    (pathOf st leaf).Nodup ∧ ∀ j ∈ pathOf st leaf, j < st.tree.length := by
  constructor
  · exact pathAux_leaf_nodup g.hh g.hnl hleaf
  · intro j hj
    rw [g.htree]
    exact pathAux_mem_lt g.hh g.hnl hleaf j hj

theorem evictWithStrategy_StepOK (st : ORAM) (p : List Nat) (hnd : p.Nodup)
    (hp : ∀ j ∈ p, j < st.tree.length)
    (hst : ∀ b ∈ st.stash, b.id ≠ -1) (g : Geom st) :
    StepOK st (evictWithStrategy st p).2 := by
  unfold evictWithStrategy
  rcases hstrat : st.strategy
  case levelByLevel => exact evictLevel_StepOK st p hp g.hZ hst
  case greedyByDepth => exact evictGreedy_StepOK st p hnd hp hst
  case deterministicTwoPath =>
    have h1 := evictGreedy_StepOK st p hnd hp hst
    rcases hg : evictGreedy st p with ⟨eOpt, st1⟩
    rw [hg] at h1
    rcases eOpt with _ | e
    · -- second path: draw a leaf, drain, greedy again
      simp only
      have h2 : StepOK st1 (randomLeaf st1).2 := randomLeaf_StepOK st1
      set st2 := (randomLeaf st1).2 with hst2
      set aux := (randomLeaf st1).1 with haux
      have h12 := h1.trans h2
      have g2 : Geom st2 := g.transfer h12
      have hnl2 : 1 ≤ st1.numLeaves := by
        rw [(g.transfer h1).hnl]
        exact Nat.one_le_two_pow
      have hauxlt : aux < st2.numLeaves :=
        randomLeaf_lt st1 hnl2
      obtain ⟨hnd2, hp2⟩ := pathOf_ok st2 g2 hauxlt
      have h3 : StepOK st2 (readPathIntoStash st2 (pathOf st2 aux)) :=
        readPathIntoStash_StepOK (pathOf st2 aux) st2 hp2
      set st3 := readPathIntoStash st2 (pathOf st2 aux) with hst3
      have h123 := h12.trans h3
      have hpath_eq : pathOf st3 aux = pathOf st2 aux := by
        unfold pathOf
        rw [h3.cfg.2.2.2.2.2.2.1, h3.cfg.2.2.2.2.2.2.2]
      have h4 : StepOK st3 (evictGreedy st3 (pathOf st2 aux)).2 := by
        apply evictGreedy_StepOK st3 (pathOf st2 aux) hnd2
        · intro j hj
          rw [h3.treeLen]
          exact hp2 j hj
        · exact h123.stashNE hst
      exact h123.trans h4
    · exact h1

theorem evictWithStrategy_err (st : ORAM) (p : List Nat) (hnd : p.Nodup)
    (hp : ∀ j ∈ p, j < st.tree.length)
    (hst : ∀ b ∈ st.stash, b.id ≠ -1) (g : Geom st) {e : Err}
    (h : (evictWithStrategy st p).1 = some e) :
    e = .stashOverflow ∧
    (evictWithStrategy st p).2.stash.length > st.stashLimit := by
  unfold evictWithStrategy at h ⊢
  rcases hstrat : st.strategy
  case levelByLevel =>
    rw [hstrat] at h
    exact evictLevel_err st p hp g.hZ hst h
  case greedyByDepth =>
    rw [hstrat] at h
    exact evictGreedy_err st p h
  case deterministicTwoPath =>
    rw [hstrat] at h
    have h1 := evictGreedy_StepOK st p hnd hp hst
    rcases hg : evictGreedy st p with ⟨eOpt, st1⟩
    rw [hg] at h1 h
    rcases eOpt with _ | e1
    · simp only at h ⊢
      have h2 : StepOK st1 (randomLeaf st1).2 := randomLeaf_StepOK st1
      set st2 := (randomLeaf st1).2 with hst2
      set aux := (randomLeaf st1).1 with haux
      have h12 := h1.trans h2
      have g2 : Geom st2 := g.transfer h12
      have hnl2 : 1 ≤ st1.numLeaves := by
        rw [(g.transfer h1).hnl]
        exact Nat.one_le_two_pow
      have hauxlt : aux < st2.numLeaves := randomLeaf_lt st1 hnl2
      obtain ⟨hnd2, hp2⟩ := pathOf_ok st2 g2 hauxlt
      have h3 : StepOK st2 (readPathIntoStash st2 (pathOf st2 aux)) :=
        readPathIntoStash_StepOK (pathOf st2 aux) st2 hp2
      set st3 := readPathIntoStash st2 (pathOf st2 aux) with hst3
      have h123 := h12.trans h3
      have herr := evictGreedy_err st3 (pathOf st2 aux) h
      refine ⟨herr.1, ?_⟩
      have hlim : st3.stashLimit = st.stashLimit := h123.cfg.2.2.2.1
      rw [← hlim]
      exact herr.2
    · simp only [Option.some_inj] at h
      obtain ⟨he, hstp⟩ := evictGreedy_err st p (e := e1) (by rw [hg])
      rw [hg] at hstp
      subst h
      exact ⟨he, hstp⟩

/-! ## The engine well-formedness invariant -/

/-- The well-formedness invariant of a reachable engine state: tree
geometry, stash discipline, key uniqueness, one live block per
position-map entry, consistency of each block leaf with the position
map, leaf ranges, payload sizes, and the placement invariant. -/
structure WF (st : ORAM) : Prop where
  geom : Geom st
  stNE : ∀ b ∈ st.stash, b.id ≠ -1
  keysNodup : (pmKeys st.posMap).Nodup
  idsPerm : (pmKeys st.posMap).Perm ((allBlocks st).map Blk.id)
  leafCons : ∀ b ∈ allBlocks st, pmGet st.posMap b.id = some b.leaf
  leafRange : ∀ b ∈ allBlocks st, 0 ≤ b.leaf ∧ b.leaf < (st.numLeaves : Int)
  dataLen : ∀ b ∈ allBlocks st, b.data.length = st.blockSize
  placement : ∀ i, ∀ b ∈ bucketNE (st.tree.getD i []),
    canPlaceAt st.numLeaves b.leaf i = true

theorem WF.idsNodup {st : ORAM} (h : WF st) :
    ((allBlocks st).map Blk.id).Nodup :=
  h.keysNodup.perm h.idsPerm

theorem WF.count {st : ORAM} (h : WF st) :
    st.posMap.length = (allBlocks st).length := by
  have := h.idsPerm.length_eq
  rw [List.length_map] at this
  unfold pmKeys at this
  rw [List.length_map] at this
  exact this

theorem WF.step {st st' : ORAM} (hwf : WF st) (h : StepOK st st') : WF st' where
  geom := hwf.geom.transfer h
  stNE := h.stashNE hwf.stNE
  keysNodup := by rw [h.pm]; exact hwf.keysNodup
  idsPerm := by
    rw [h.pm]
    exact hwf.idsPerm.trans (h.blocksPerm.map Blk.id).symm
  leafCons := fun b hb => by
    rw [h.pm]
    exact hwf.leafCons b (h.blocksPerm.mem_iff.mp hb)
  leafRange := fun b hb => by
    rw [h.cfg.2.2.2.2.2.2.2]
    exact hwf.leafRange b (h.blocksPerm.mem_iff.mp hb)
  dataLen := fun b hb => by
    rw [h.cfg.2.1]
    exact hwf.dataLen b (h.blocksPerm.mem_iff.mp hb)
  placement := fun i b hb => by
    rw [h.cfg.2.2.2.2.2.2.2]
    rcases h.plc i b hb with hold | ⟨_, hcp⟩
    · exact hwf.placement i b hold
    · exact hcp

/-! ## Locating a block in the stash -/

theorem findIdx?_keyed {stash : List Blk} {tid : Int}
    (hnd : (stash.map Blk.id).Nodup) {b : Blk} (hb : b ∈ stash)
    (hid : b.id = tid) :
    ∃ k : Nat, stash.findIdx? (fun x => x.id = tid) = some k ∧ k < stash.length ∧
      stash.getD k default = b := by
  induction stash with
  | nil => simp at hb
  | cons a rest ih =>
    rw [List.map_cons, List.nodup_cons] at hnd
    by_cases ha : a.id = tid
    · refine ⟨0, ?_, Nat.succ_pos _, ?_⟩
      · rw [List.findIdx?_cons]
        simp [ha]
      · rcases List.mem_cons.mp hb with rfl | hbr
        · rfl
        · exfalso
          apply hnd.1
          rw [ha, ← hid]
          exact List.mem_map.mpr ⟨b, hbr, rfl⟩
    · have hbr : b ∈ rest := by
        rcases List.mem_cons.mp hb with rfl | hbr
        · exact absurd hid ha
        · exact hbr
      obtain ⟨k, hk, hklt, hkb⟩ := ih hnd.2 hbr
      refine ⟨k + 1, ?_, Nat.succ_lt_succ hklt, hkb⟩
      rw [List.findIdx?_cons]
      have hdec : (decide (a.id = tid)) = false := by simpa using ha
      rw [hdec]
      simp only [Bool.false_eq_true, if_false]
      rw [List.findIdx?_succ, hk]
      rfl

theorem findIdx?_keyed_none {stash : List Blk} {tid : Int}
    (h : ∀ b ∈ stash, b.id ≠ tid) :
    stash.findIdx? (fun x => x.id = tid) = none := by
  rw [List.findIdx?_eq_none_iff]
  intro x hx
  simpa using h x hx

theorem findInStash_found {stash : List Blk} {tid : Int}
    (hnd : (stash.map Blk.id).Nodup) {b : Blk} (hb : b ∈ stash)
    (hid : b.id = tid) :
    ∃ k : Nat, findInStash stash tid = ((k : Int), b.data) ∧ k < stash.length ∧
      stash.getD k default = b := by
  obtain ⟨k, hk, hklt, hkb⟩ := findIdx?_keyed hnd hb hid
  refine ⟨k, ?_, hklt, hkb⟩
  unfold findInStash
  rw [hk]
  show ((k : Int), (stash.getD k default).data) = ((k : Int), b.data)
  rw [hkb]

theorem findInStash_not_found {stash : List Blk} {tid : Int}
    (h : ∀ b ∈ stash, b.id ≠ tid) : findInStash stash tid = (-1, []) := by
  unfold findInStash
  rw [findIdx?_keyed_none h]

theorem findCTAux_skip {tid : Int} :
    ∀ (stash : List Blk) (j : Nat) (acc : Int × List Nat),
    (∀ b ∈ stash, b.id ≠ tid) → findCTAux tid stash j acc = acc := by
  intro stash
  induction stash with
  | nil => intro j acc _; rfl
  | cons y ys ihy =>
    intro j acc hy
    show findCTAux tid ys (j + 1)
      (if y.id = tid then ((j : Int), y.data) else acc) = acc
    rw [if_neg (hy y (List.mem_cons_self _ _))]
    exact ihy (j + 1) acc (fun x hx => hy x (List.mem_cons_of_mem _ hx))

theorem findCTAux_found {tid : Int} :
    ∀ (stash : List Blk) (i0 : Nat) (acc : Int × List Nat),
    (stash.map Blk.id).Nodup → ∀ {b : Blk}, b ∈ stash → b.id = tid →
    ∃ k : Nat, findCTAux tid stash i0 acc = (((i0 + k : Nat) : Int), b.data) ∧
      k < stash.length ∧ stash.getD k default = b := by
  intro stash
  induction stash with
  | nil => intro i0 acc _ b hb; simp at hb
  | cons a rest ih =>
    intro i0 acc hnd b hb hid
    rw [List.map_cons, List.nodup_cons] at hnd
    by_cases ha : a.id = tid
    · -- the head matches; by uniqueness no later block matches, so the
      -- selected pair survives the rest of the scan
      have hba : b = a := by
        rcases List.mem_cons.mp hb with rfl | hbr
        · rfl
        · exfalso
          apply hnd.1
          rw [ha, ← hid]
          exact List.mem_map.mpr ⟨b, hbr, rfl⟩
      have hnone : ∀ x ∈ rest, x.id ≠ tid := by
        intro x hx hc
        apply hnd.1
        rw [ha, ← hc]
        exact List.mem_map.mpr ⟨x, hx, rfl⟩
      refine ⟨0, ?_, Nat.succ_pos _, ?_⟩
      · show findCTAux tid rest (i0 + 1)
          (if a.id = tid then ((i0 : Int), a.data) else acc) = _
        rw [if_pos ha, findCTAux_skip rest (i0 + 1) _ hnone, hba]
        norm_num
      · rw [hba]
        rfl
    · have hbr : b ∈ rest := by
        rcases List.mem_cons.mp hb with rfl | hbr
        · exact absurd hid ha
        · exact hbr
      obtain ⟨k, hk, hklt, hkb⟩ := ih (i0 + 1)
        (if a.id = tid then ((i0 : Int), a.data) else acc) hnd.2 hbr hid
      refine ⟨k + 1, ?_, Nat.succ_lt_succ hklt, hkb⟩
      show findCTAux tid rest (i0 + 1)
        (if a.id = tid then ((i0 : Int), a.data) else acc) = _
      rw [hk]
      have : i0 + 1 + k = i0 + (k + 1) := by omega
      rw [this]

theorem findCTAux_not_found {tid : Int} :
    ∀ (stash : List Blk) (i0 : Nat) (acc : Int × List Nat),
    (∀ b ∈ stash, b.id ≠ tid) → findCTAux tid stash i0 acc = acc := by
  intro stash
  induction stash with
  | nil => intro j acc' _; rfl
  | cons y ys ihy =>
    intro j acc' hy
    show findCTAux tid ys (j + 1)
      (if y.id = tid then ((j : Int), y.data) else acc') = acc'
    rw [if_neg (hy y (List.mem_cons_self _ _))]
    exact ihy (j + 1) acc' (fun x hx => hy x (List.mem_cons_of_mem _ hx))


/-! ## Live-data lookup lemmas -/

theorem find?_keyed {l : List Blk} {tid : Int}
    (hnd : (l.map Blk.id).Nodup) {b : Blk} (hb : b ∈ l) (hid : b.id = tid) :
    l.find? (fun x => x.id = tid) = some b := by
  induction l with
  | nil => simp at hb
  | cons a rest ih =>
    rw [List.map_cons, List.nodup_cons] at hnd
    rw [List.find?_cons]
    by_cases ha : a.id = tid
    · have hd : decide (a.id = tid) = true := by simpa using ha
      rw [hd]
      show some a = some b
      rcases List.mem_cons.mp hb with rfl | hbr
      · rfl
      · exfalso
        apply hnd.1
        rw [ha, ← hid]
        exact List.mem_map.mpr ⟨b, hbr, rfl⟩
    · have hd : decide (a.id = tid) = false := by simpa using ha
      rw [hd]
      show List.find? (fun x => decide (x.id = tid)) rest = some b
      have hbr : b ∈ rest := by
        rcases List.mem_cons.mp hb with rfl | hbr
        · exact absurd hid ha
        · exact hbr
      exact ih hnd.2 hbr

theorem dataOf_eq_some {st : ORAM} {j : Int}
    (hnd : ((allBlocks st).map Blk.id).Nodup) {b : Blk}
    (hb : b ∈ allBlocks st) (hid : b.id = j) :
    dataOf st j = some b.data := by
  unfold dataOf
  rw [find?_keyed hnd hb hid]
  rfl

theorem dataOf_none_iff {st : ORAM} {j : Int} :
    dataOf st j = none ↔ ∀ b ∈ allBlocks st, b.id ≠ j := by
  unfold dataOf
  rw [Option.map_eq_none', List.find?_eq_none]
  constructor
  · intro h b hb
    simpa using h b hb
  · intro h b hb
    simpa using h b hb

theorem dataOf_some_elim {st : ORAM} {j : Int} {v : List Nat}
    (h : dataOf st j = some v) :
    ∃ b ∈ allBlocks st, b.id = j ∧ b.data = v := by
  unfold dataOf at h
  rw [Option.map_eq_some'] at h
  obtain ⟨b, hb, hbv⟩ := h
  exact ⟨b, List.mem_of_find?_eq_some hb, by simpa using List.find?_some hb, hbv⟩

theorem getD_eq_getElem {s : List Blk} {k : Nat} (hk : k < s.length) :
    s.getD k default = s[k] := by
  rw [List.getD_eq_getElem?_getD, List.getElem?_eq_getElem hk]
  rfl

/-- Split a list around index `k`, before and after `List.modify` at `k`. -/
theorem modify_decomp {s : List Blk} {k : Nat} (hk : k < s.length) (f : Blk → Blk) :
    ∃ pre post, s = pre ++ s.getD k default :: post ∧
      List.modify f k s = pre ++ f (s.getD k default) :: post ∧ pre.length = k := by
  have hgd : s.getD k default = s[k] := getD_eq_getElem hk
  refine ⟨s.take k, s.drop (k + 1), ?_, ?_, List.length_take_of_le (Nat.le_of_lt hk)⟩
  · conv_lhs => rw [← List.take_append_drop k s]
    rw [List.drop_eq_getElem_cons hk, hgd]
  · rw [List.modify_eq_set, List.set_eq_take_append_cons_drop, if_pos hk,
      List.getD_eq_getElem?_getD]

/-- In a list of blocks with duplicate-free ids, no id occurs outside
its own position. -/
theorem nodup_decomp_ids {pre post tr : List Blk} {b0 : Blk}
    (h : (((pre ++ b0 :: post) ++ tr).map Blk.id).Nodup) :
    (∀ b ∈ pre, b.id ≠ b0.id) ∧ (∀ b ∈ post, b.id ≠ b0.id) ∧
      (∀ b ∈ tr, b.id ≠ b0.id) := by
  have hperm : ((pre ++ b0 :: post) ++ tr).Perm (b0 :: (pre ++ (post ++ tr))) := by
    rw [List.append_assoc, List.cons_append]
    exact List.perm_middle
  have h2 : ((b0 :: (pre ++ (post ++ tr))).map Blk.id).Nodup :=
    h.perm (hperm.map Blk.id)
  rw [List.map_cons, List.nodup_cons] at h2
  have hnmem := h2.1
  refine ⟨?_, ?_, ?_⟩
  · intro b hb hc
    exact hnmem (by
      rw [← hc]
      exact List.mem_map.mpr ⟨b, by simp [hb], rfl⟩)
  · intro b hb hc
    exact hnmem (by
      rw [← hc]
      exact List.mem_map.mpr ⟨b, by simp [hb], rfl⟩)
  · intro b hb hc
    exact hnmem (by
      rw [← hc]
      exact List.mem_map.mpr ⟨b, by simp [hb], rfl⟩)

/-! ## Unfolding equations for `access` -/

theorem access_eq_some (st : ORAM) (bid : Nat) (nd : Option (List Nat)) {l : Int}
    (hpm : pmGet st.posMap (bid : Int) = some l) :
    access st bid nd =
      (let st3 : ORAM := { st with
         ctr := st.ctr + 1,
         posMap := pmSet st.posMap (bid : Int)
           ((st.tape st.ctr % st.numLeaves : Nat) : Int) }
       let path := pathOf st3 l.toNat
       let st4 := readPathIntoStash st3 path
       let found := if st4.constantTime then findInStashCT st4 (bid : Int)
                    else findInStash st4.stash (bid : Int)
       match (if found.1 = -1 then
           (List.replicate st4.blockSize 0,
             { st4 with stash := st4.stash ++
               [⟨(bid : Int), (pmGet st4.posMap (bid : Int)).getD 0,
                 match nd with
                 | some d => copyBytes (List.replicate st4.blockSize 0) d
                 | none => List.replicate st4.blockSize 0⟩] })
         else
           (found.2, { st4 with stash := List.modify (fun b => { b with
               leaf := (pmGet st4.posMap (bid : Int)).getD 0,
               data := match nd with
                 | some d => copyBytes b.data d
                 | none => b.data }) found.1.toNat st4.stash })) with
       | (result, st5) =>
         match (if st5.constantTime then evictCT st5 path
                else evictWithStrategy st5 path) with
         | (some e, stF) => (.error e, stF)
         | (none, stF) => (.ok result, stF)) := by
  unfold access
  rw [hpm]
  rfl

theorem access_eq_none (st : ORAM) (bid : Nat) (nd : Option (List Nat))
    (hpm : pmGet st.posMap (bid : Int) = none) :
    access st bid nd =
      (let st3 : ORAM := { st with
         ctr := st.ctr + 1 + 1,
         posMap := pmSet st.posMap (bid : Int)
           ((st.tape (st.ctr + 1) % st.numLeaves : Nat) : Int) }
       let path := pathOf st3 (st.tape st.ctr % st.numLeaves)
       let st4 := readPathIntoStash st3 path
       let found := if st4.constantTime then findInStashCT st4 (bid : Int)
                    else findInStash st4.stash (bid : Int)
       match (if found.1 = -1 then
           (List.replicate st4.blockSize 0,
             { st4 with stash := st4.stash ++
               [⟨(bid : Int), (pmGet st4.posMap (bid : Int)).getD 0,
                 match nd with
                 | some d => copyBytes (List.replicate st4.blockSize 0) d
                 | none => List.replicate st4.blockSize 0⟩] })
         else
           (found.2, { st4 with stash := List.modify (fun b => { b with
               leaf := (pmGet st4.posMap (bid : Int)).getD 0,
               data := match nd with
                 | some d => copyBytes b.data d
                 | none => b.data }) found.1.toNat st4.stash })) with
       | (result, st5) =>
         match (if st5.constantTime then evictCT st5 path
                else evictWithStrategy st5 path) with
         | (some e, stF) => (.error e, stF)
         | (none, stF) => (.ok result, stF)) := by
  unfold access
  rw [hpm]
  rfl

/-! ## The mid-access invariant -/

/-- The invariant holding between the position-map update (step 2) and
the stash update (step 5) of `access`: the position map already holds
`leafNew` for `bid`, while the live blocks still carry their old
leaves.  `extra` is `[]` when a live block with id `bid` exists and
`[bid]` when the access will append a fresh block. -/
structure PreWF (st : ORAM) (bid leafNew : Int) (extra : List Int) : Prop where
  geom : Geom st
  stNE : ∀ b ∈ st.stash, b.id ≠ -1
  keysNodup : (pmKeys st.posMap).Nodup
  idsPerm : (pmKeys st.posMap).Perm (extra ++ (allBlocks st).map Blk.id)
  pmself : pmGet st.posMap bid = some leafNew
  leafCons : ∀ b ∈ allBlocks st, b.id ≠ bid → pmGet st.posMap b.id = some b.leaf
  leafRange : ∀ b ∈ allBlocks st, 0 ≤ b.leaf ∧ b.leaf < (st.numLeaves : Int)
  leafNewRange : 0 ≤ leafNew ∧ leafNew < (st.numLeaves : Int)
  dataLen : ∀ b ∈ allBlocks st, b.data.length = st.blockSize
  placement : ∀ i, ∀ b ∈ bucketNE (st.tree.getD i []),
    canPlaceAt st.numLeaves b.leaf i = true

theorem PreWF.evolve {st st' : ORAM} {bid leafNew : Int} {extra : List Int}
    (hp : PreWF st bid leafNew extra) (h : StepOK st st') :
    PreWF st' bid leafNew extra where
  geom := hp.geom.transfer h
  stNE := h.stashNE hp.stNE
  keysNodup := by rw [h.pm]; exact hp.keysNodup
  idsPerm := by
    rw [h.pm]
    exact hp.idsPerm.trans (List.Perm.append_left extra (h.blocksPerm.map Blk.id).symm)
  pmself := by rw [h.pm]; exact hp.pmself
  leafCons := fun b hb hne => by
    rw [h.pm]
    exact hp.leafCons b (h.blocksPerm.mem_iff.mp hb) hne
  leafRange := fun b hb => by
    rw [h.cfg.2.2.2.2.2.2.2]
    exact hp.leafRange b (h.blocksPerm.mem_iff.mp hb)
  leafNewRange := by
    rw [h.cfg.2.2.2.2.2.2.2]
    exact hp.leafNewRange
  dataLen := fun b hb => by
    rw [h.cfg.2.1]
    exact hp.dataLen b (h.blocksPerm.mem_iff.mp hb)
  placement := fun i b hb => by
    rw [h.cfg.2.2.2.2.2.2.2]
    rcases h.plc i b hb with hold | ⟨_, hcp⟩
    · exact hp.placement i b hold
    · exact hcp

theorem PreWF.intro_present (st : ORAM) (hwf : WF st) (bid leafNew : Int) (c : Nat)
    (hmem : (pmGet st.posMap bid).isSome = true)
    (hlN : 0 ≤ leafNew ∧ leafNew < (st.numLeaves : Int)) :
    PreWF { st with ctr := c, posMap := pmSet st.posMap bid leafNew }
      bid leafNew [] where
  geom := ⟨hwf.geom.hh, hwf.geom.hnl, hwf.geom.htree, hwf.geom.hZ⟩
  stNE := hwf.stNE
  keysNodup := by
    show (pmKeys (pmSet st.posMap bid leafNew)).Nodup
    exact pmSet_keys_nodup _ _ _ hwf.keysNodup
  idsPerm := by
    show (pmKeys (pmSet st.posMap bid leafNew)).Perm ([] ++ (allBlocks st).map Blk.id)
    rw [pmSet_keys_of_mem leafNew hmem, List.nil_append]
    exact hwf.keysNodup.perm hwf.idsPerm |> fun _ => hwf.idsPerm
  pmself := pmSet_get_self st.posMap bid leafNew
  leafCons := fun b hb hne => by
    show pmGet (pmSet st.posMap bid leafNew) b.id = some b.leaf
    rw [pmSet_get_other _ _ _ _ hne]
    exact hwf.leafCons b hb
  leafRange := hwf.leafRange
  leafNewRange := hlN
  dataLen := hwf.dataLen
  placement := hwf.placement

theorem PreWF.intro_absent (st : ORAM) (hwf : WF st) (bid leafNew : Int) (c : Nat)
    (hnone : pmGet st.posMap bid = none)
    (hlN : 0 ≤ leafNew ∧ leafNew < (st.numLeaves : Int)) :
    PreWF { st with ctr := c, posMap := pmSet st.posMap bid leafNew }
      bid leafNew [bid] where
  geom := ⟨hwf.geom.hh, hwf.geom.hnl, hwf.geom.htree, hwf.geom.hZ⟩
  stNE := hwf.stNE
  keysNodup := by
    show (pmKeys (pmSet st.posMap bid leafNew)).Nodup
    exact pmSet_keys_nodup _ _ _ hwf.keysNodup
  idsPerm := by
    show (pmKeys (pmSet st.posMap bid leafNew)).Perm ([bid] ++ (allBlocks st).map Blk.id)
    rw [pmSet_keys_of_not_mem leafNew hnone]
    exact List.perm_append_comm.trans (hwf.idsPerm.cons bid)
  pmself := pmSet_get_self st.posMap bid leafNew
  leafCons := fun b hb hne => by
    show pmGet (pmSet st.posMap bid leafNew) b.id = some b.leaf
    rw [pmSet_get_other _ _ _ _ hne]
    exact hwf.leafCons b hb
  leafRange := hwf.leafRange
  leafNewRange := hlN
  dataLen := hwf.dataLen
  placement := hwf.placement

/-- Serving a found block (step 5, else-branch): modifying the found
stash slot re-establishes the full invariant and splits the stash
around the modified block. -/
theorem serveFound (t : ORAM) (bid leafNew : Int)
    (h : PreWF t bid leafNew []) {k : Nat} {b0 : Blk}
    (hk : k < t.stash.length) (hkb : t.stash.getD k default = b0)
    (hb0 : b0.id = bid) (f : Blk → Blk)
    (hfid : (f b0).id = b0.id) (hfleaf : (f b0).leaf = leafNew)
    (hflen : (f b0).data.length = b0.data.length) :
    ∃ pre post, t.stash = pre ++ b0 :: post ∧
      List.modify f k t.stash = pre ++ f b0 :: post ∧
      (∀ b ∈ pre, b.id ≠ bid) ∧ (∀ b ∈ post, b.id ≠ bid) ∧
      (∀ b ∈ treeNE t.tree, b.id ≠ bid) ∧
      WF { t with stash := List.modify f k t.stash } := by
  obtain ⟨pre, post, hs, hm, hplen⟩ := modify_decomp hk f
  rw [hkb] at hs hm
  have hidsN : ((allBlocks t).map Blk.id).Nodup := by
    have hx := h.keysNodup.perm h.idsPerm
    simpa using hx
  have h0 : allBlocks t = (pre ++ b0 :: post) ++ treeNE t.tree := by
    unfold allBlocks
    rw [hs]
  have hnd0 : (((pre ++ b0 :: post) ++ treeNE t.tree).map Blk.id).Nodup := by
    rw [← h0]
    exact hidsN
  obtain ⟨hpre, hpost, htr⟩ := nodup_decomp_ids hnd0
  rw [hb0] at hpre hpost htr
  have hb0mem : b0 ∈ allBlocks t := by
    rw [h0]
    exact List.mem_append_left _ (List.mem_append_right _ (List.mem_cons_self _ _))
  have hb0st : b0 ∈ t.stash := by
    rw [hs]
    exact List.mem_append_right _ (List.mem_cons_self _ _)
  have h5 : allBlocks { t with stash := List.modify f k t.stash } =
      (pre ++ f b0 :: post) ++ treeNE t.tree := by
    show List.modify f k t.stash ++ treeNE t.tree = _
    rw [hm]
  have hmem5 : ∀ b ∈ allBlocks { t with stash := List.modify f k t.stash },
      b = f b0 ∨ (b ∈ allBlocks t ∧ b.id ≠ bid) := by
    intro b hb
    rw [h5] at hb
    rcases List.mem_append.mp hb with hb1 | hb2
    · rcases List.mem_append.mp hb1 with hbp | hbm
      · refine Or.inr ⟨?_, hpre b hbp⟩
        rw [h0]
        exact List.mem_append_left _ (List.mem_append_left _ hbp)
      · rcases List.mem_cons.mp hbm with rfl | hbq
        · exact Or.inl rfl
        · refine Or.inr ⟨?_, hpost b hbq⟩
          rw [h0]
          exact List.mem_append_left _
            (List.mem_append_right _ (List.mem_cons_of_mem _ hbq))
    · exact Or.inr ⟨by rw [h0]; exact List.mem_append_right _ hb2, htr b hb2⟩
  have hids5 : (allBlocks { t with stash := List.modify f k t.stash }).map Blk.id =
      (allBlocks t).map Blk.id := by
    rw [h5, h0]
    simp [hfid]
  refine ⟨pre, post, hs, hm, hpre, hpost, htr, ?_⟩
  constructor
  · exact ⟨h.geom.hh, h.geom.hnl, h.geom.htree, h.geom.hZ⟩
  · intro b hb
    have hb' : b ∈ allBlocks { t with stash := List.modify f k t.stash } :=
      List.mem_append_left _ hb
    rcases hmem5 b hb' with rfl | ⟨hbt, _⟩
    · rw [hfid]
      exact h.stNE b0 hb0st
    · exact allBlocks_id_ne h.stNE b hbt
  · exact h.keysNodup
  · show (pmKeys t.posMap).Perm _
    rw [hids5]
    have hx := h.idsPerm
    simpa using hx
  · intro b hb
    rcases hmem5 b hb with rfl | ⟨hbt, hne⟩
    · show pmGet t.posMap (f b0).id = some (f b0).leaf
      rw [hfid, hb0, hfleaf]
      exact h.pmself
    · exact h.leafCons b hbt hne
  · intro b hb
    rcases hmem5 b hb with rfl | ⟨hbt, _⟩
    · rw [hfleaf]
      exact h.leafNewRange
    · exact h.leafRange b hbt
  · intro b hb
    rcases hmem5 b hb with rfl | ⟨hbt, _⟩
    · rw [hflen]
      exact h.dataLen b0 hb0mem
    · exact h.dataLen b hbt
  · exact h.placement

/-- Serving an absent block (step 5, then-branch): appending the fresh
block re-establishes the full invariant. -/
theorem serveAbsent (t : ORAM) (bid leafNew : Int)
    (h : PreWF t bid leafNew [bid])
    (habs : ∀ b ∈ allBlocks t, b.id ≠ bid) (hbid : bid ≠ -1)
    (d : List Nat) (hd : d.length = t.blockSize) :
    WF { t with stash := t.stash ++ [⟨bid, leafNew, d⟩] } := by
  have h5 : allBlocks { t with stash := t.stash ++ [(⟨bid, leafNew, d⟩ : Blk)] } =
      (t.stash ++ [(⟨bid, leafNew, d⟩ : Blk)]) ++ treeNE t.tree := rfl
  have hmem5 : ∀ b ∈ allBlocks { t with
      stash := t.stash ++ [(⟨bid, leafNew, d⟩ : Blk)] },
      b = (⟨bid, leafNew, d⟩ : Blk) ∨ b ∈ allBlocks t := by
    intro b hb
    rw [h5] at hb
    rcases List.mem_append.mp hb with hb1 | hb2
    · rcases List.mem_append.mp hb1 with hbp | hbm
      · exact Or.inr (List.mem_append_left _ hbp)
      · exact Or.inl (List.mem_singleton.mp hbm)
    · exact Or.inr (List.mem_append_right _ hb2)
  have hA : (allBlocks t).map Blk.id =
      t.stash.map Blk.id ++ (treeNE t.tree).map Blk.id := by
    unfold allBlocks
    rw [List.map_append]
  constructor
  · exact ⟨h.geom.hh, h.geom.hnl, h.geom.htree, h.geom.hZ⟩
  · intro b hb
    rcases List.mem_append.mp hb with hb1 | hb2
    · exact h.stNE b hb1
    · rw [List.mem_singleton.mp hb2]
      exact hbid
  · exact h.keysNodup
  · show (pmKeys t.posMap).Perm _
    have hgoal : (allBlocks { t with
        stash := t.stash ++ [(⟨bid, leafNew, d⟩ : Blk)] }).map Blk.id =
        t.stash.map Blk.id ++ bid :: (treeNE t.tree).map Blk.id := by
      rw [h5]
      simp
    rw [hgoal]
    have hpm := h.idsPerm
    rw [hA] at hpm
    exact hpm.trans (@List.perm_middle _ bid (t.stash.map Blk.id)
      ((treeNE t.tree).map Blk.id)).symm
  · intro b hb
    rcases hmem5 b hb with rfl | hbt
    · exact h.pmself
    · exact h.leafCons b hbt (habs b hbt)
  · intro b hb
    rcases hmem5 b hb with rfl | hbt
    · exact h.leafNewRange
    · exact h.leafRange b hbt
  · intro b hb
    rcases hmem5 b hb with rfl | hbt
    · exact hd
    · exact h.dataLen b hbt
  · exact h.placement

/-- Dispatch of step 6 of `access`: both the constant-time and the
strategy-based eviction preserve the step contract, and an error is
always a stash overflow with the stash over the limit. -/
theorem evict_dispatch (st5 : ORAM) (path : List Nat) (ct : Bool) (hw : WF st5)
    (hnd : path.Nodup) (hplt : ∀ j ∈ path, j < st5.tree.length) :
    StepOK st5 (if ct = true then evictCT st5 path
      else evictWithStrategy st5 path).2 ∧
    (∀ e, (if ct = true then evictCT st5 path
        else evictWithStrategy st5 path).1 = some e →
      e = .stashOverflow ∧
      (if ct = true then evictCT st5 path
        else evictWithStrategy st5 path).2.stash.length > st5.stashLimit) := by
  cases ct with
  | false =>
    rw [if_neg Bool.false_ne_true]
    refine ⟨evictWithStrategy_StepOK st5 path hnd hplt hw.stNE hw.geom, ?_⟩
    intro e he
    exact evictWithStrategy_err st5 path hnd hplt hw.stNE hw.geom he
  | true =>
    rw [if_pos rfl]
    refine ⟨evictCT_StepOK st5 path hnd hplt hw.stNE hw.geom.hh hw.geom.hnl
      (fun b hb => hw.leafRange b (List.mem_append_left _ hb)), ?_⟩
    intro e he
    exact evictCT_err st5 path he

/-- Full behaviour of one post-validation `access` from a well-formed
state: the invariant and the configuration are preserved, the result is
the previous payload unless the stash overflows (and the mutations
persist even then), the target id now holds the new payload under a
freshly drawn in-range leaf, and every other id keeps its payload and
its position-map entry.  The position map grows by one entry exactly
when the id was unseen. -/
theorem access_spec (st : ORAM) (bid : Nat) (nd : Option (List Nat))
    (hwf : WF st) (hlen : ∀ d, nd = some d → d.length = st.blockSize) :
    WF (access st bid nd).2 ∧
    ((access st bid nd).2.numBlocks = st.numBlocks ∧
      (access st bid nd).2.blockSize = st.blockSize ∧
      (access st bid nd).2.bucketSize = st.bucketSize ∧
      (access st bid nd).2.stashLimit = st.stashLimit ∧
      (access st bid nd).2.strategy = st.strategy ∧
      (access st bid nd).2.constantTime = st.constantTime ∧
      (access st bid nd).2.height = st.height ∧
      (access st bid nd).2.numLeaves = st.numLeaves) ∧
    ((access st bid nd).1 = .ok (prevOf st (bid : Int)) ∨
      ((access st bid nd).1 = .error .stashOverflow ∧
        (access st bid nd).2.stash.length > st.stashLimit)) ∧
    dataOf (access st bid nd).2 (bid : Int) =
      some (match nd with
            | some d => d
            | none => prevOf st (bid : Int)) ∧
    (∀ j : Int, j ≠ (bid : Int) →
      dataOf (access st bid nd).2 j = dataOf st j) ∧
    (∃ lf : Nat, lf < st.numLeaves ∧
      pmGet (access st bid nd).2.posMap (bid : Int) = some ((lf : Nat) : Int)) ∧
    (∀ j : Int, j ≠ (bid : Int) →
      pmGet (access st bid nd).2.posMap j = pmGet st.posMap j) ∧
    (access st bid nd).2.posMap.length =
      (if (pmGet st.posMap (bid : Int)).isSome then st.posMap.length
       else st.posMap.length + 1) := by
  have hnl1 : 1 ≤ st.numLeaves := by
    rw [hwf.geom.hnl]
    exact Nat.one_le_two_pow
  rcases hpm0 : pmGet st.posMap (bid : Int) with _ | leafO
  · -- the id holds no live block: a fresh block is appended
    have habs : ∀ b ∈ allBlocks st, b.id ≠ (bid : Int) := by
      intro b hb hc
      have hkeys : (bid : Int) ∉ pmKeys st.posMap := pmGet_eq_none_iff.mp hpm0
      apply hkeys
      apply hwf.idsPerm.mem_iff.mpr
      rw [← hc]
      exact List.mem_map.mpr ⟨b, hb, rfl⟩
    rw [access_eq_none st bid nd hpm0]
    simp only []
    set leafOld := st.tape st.ctr % st.numLeaves with hLO
    set leafNew := st.tape (st.ctr + 1) % st.numLeaves with hLN
    have hlOlt : leafOld < st.numLeaves := Nat.mod_lt _ hnl1
    have hlNlt : leafNew < st.numLeaves := Nat.mod_lt _ hnl1
    set st3 : ORAM := { st with
      ctr := st.ctr + 1 + 1,
      posMap := pmSet st.posMap (bid : Int) ((leafNew : Nat) : Int) } with hst3
    have h3pm : st3.posMap = pmSet st.posMap (bid : Int) ((leafNew : Nat) : Int) := rfl
    have h3all : allBlocks st3 = allBlocks st := rfl
    have hg3 : Geom st3 := ⟨hwf.geom.hh, hwf.geom.hnl, hwf.geom.htree, hwf.geom.hZ⟩
    set path := pathOf st3 leafOld with hpathd
    obtain ⟨hpnd, hplt⟩ := pathOf_ok st3 hg3 (show leafOld < st3.numLeaves from hlOlt)
    set st4 := readPathIntoStash st3 path with hst4
    have h34 : StepOK st3 st4 := readPathIntoStash_StepOK path st3 hplt
    have hpre3 : PreWF st3 (bid : Int) ((leafNew : Nat) : Int) [(bid : Int)] :=
      PreWF.intro_absent st hwf _ _ (st.ctr + 1 + 1) hpm0
        ⟨by exact_mod_cast Nat.zero_le leafNew, by exact_mod_cast hlNlt⟩
    have hpre4 : PreWF st4 (bid : Int) ((leafNew : Nat) : Int) [(bid : Int)] :=
      hpre3.evolve h34
    have habs4 : ∀ b ∈ allBlocks st4, b.id ≠ (bid : Int) := by
      intro b hb
      exact habs b (by
        rw [← h3all]
        exact h34.blocksPerm.mem_iff.mp hb)
    have habs4s : ∀ b ∈ st4.stash, b.id ≠ (bid : Int) := fun b hb =>
      habs4 b (List.mem_append_left _ hb)
    set found := (if st4.constantTime then findInStashCT st4 (bid : Int)
      else findInStash st4.stash (bid : Int)) with hfd
    have hf1 : found.1 = -1 := by
      rw [hfd]
      cases hct : st4.constantTime with
      | false =>
        rw [if_neg Bool.false_ne_true]
        rw [findInStash_not_found habs4s]
      | true =>
        rw [if_pos rfl]
        show (findCTAux (bid : Int) st4.stash 0
          (-1, List.replicate st4.blockSize 0)).1 = -1
        rw [findCTAux_skip st4.stash 0 _ habs4s]
    rw [if_pos hf1]
    simp only []
    have hnew4 : (pmGet st4.posMap (bid : Int)).getD 0 = ((leafNew : Nat) : Int) := by
      rw [h34.pm, h3pm, pmSet_get_self]
      rfl
    have h4bs : st4.blockSize = st.blockSize := h34.cfg.2.1
    rw [hnew4]
    rcases nd with _ | d
    · -- read: the fresh block holds zero bytes
      simp only []
      set st5 : ORAM := { st4 with stash := st4.stash ++
        [⟨(bid : Int), ((leafNew : Nat) : Int), List.replicate st4.blockSize 0⟩] } with hst5
      have hwf5 : WF st5 := serveAbsent st4 _ _ hpre4 habs4 (by omega)
        (List.replicate st4.blockSize 0) (by rw [List.length_replicate])
      have hplt5 : ∀ j ∈ path, j < st5.tree.length := by
        intro j hj
        have hx : st5.tree.length = st3.tree.length := h34.treeLen
        rw [hx]
        exact hplt j hj
      obtain ⟨hstepEV, herrEV⟩ := evict_dispatch st5 path st4.constantTime hwf5 hpnd hplt5
      rcases hEV : (if st4.constantTime = true then evictCT st5 path
        else evictWithStrategy st5 path) with ⟨eo, st6⟩
      rw [hEV] at hstepEV herrEV
      have h56 : StepOK st5 st6 := hstepEV
      have hwf6 : WF st6 := hwf5.step h56
      have h6pm : st6.posMap = pmSet st.posMap (bid : Int) ((leafNew : Nat) : Int) := by
        rw [h56.pm]
        show st4.posMap = _
        rw [h34.pm]
      have hcfg6 : st6.numBlocks = st.numBlocks ∧ st6.blockSize = st.blockSize ∧
          st6.bucketSize = st.bucketSize ∧ st6.stashLimit = st.stashLimit ∧
          st6.strategy = st.strategy ∧ st6.constantTime = st.constantTime ∧
          st6.height = st.height ∧ st6.numLeaves = st.numLeaves :=
        ⟨h56.cfg.1.trans h34.cfg.1,
         h56.cfg.2.1.trans h34.cfg.2.1,
         h56.cfg.2.2.1.trans h34.cfg.2.2.1,
         h56.cfg.2.2.2.1.trans h34.cfg.2.2.2.1,
         h56.cfg.2.2.2.2.1.trans h34.cfg.2.2.2.2.1,
         h56.cfg.2.2.2.2.2.1.trans h34.cfg.2.2.2.2.2.1,
         h56.cfg.2.2.2.2.2.2.1.trans h34.cfg.2.2.2.2.2.2.1,
         h56.cfg.2.2.2.2.2.2.2.trans h34.cfg.2.2.2.2.2.2.2⟩
      have hpmself6 : pmGet st6.posMap (bid : Int) = some ((leafNew : Nat) : Int) := by
        rw [h6pm, pmSet_get_self]
      have hpmothers : ∀ j : Int, j ≠ (bid : Int) →
          pmGet st6.posMap j = pmGet st.posMap j := by
        intro j hj
        rw [h6pm]
        exact pmSet_get_other _ _ _ _ hj
      have hnewmem6 : (⟨(bid : Int), ((leafNew : Nat) : Int),
          List.replicate st4.blockSize 0⟩ : Blk) ∈ allBlocks st6 := by
        apply h56.blocksPerm.mem_iff.mpr
        apply List.mem_append_left
        exact List.mem_append_right _ (List.mem_singleton.mpr rfl)
      have hdata6 : dataOf st6 (bid : Int) = some (List.replicate st4.blockSize 0) :=
        dataOf_eq_some hwf6.idsNodup hnewmem6 rfl
      have hprev : prevOf st (bid : Int) = List.replicate st.blockSize 0 := by
        unfold prevOf
        rw [dataOf_none_iff.mpr habs]
        rfl
      have hpmlen : st6.posMap.length = st.posMap.length + 1 := by
        rw [h6pm]
        exact pmSet_length_of_not_mem _ hpm0
      have hothers : ∀ j : Int, j ≠ (bid : Int) → dataOf st6 j = dataOf st j := by
        intro j hj
        rcases hdj : dataOf st j with _ | v
        · rw [dataOf_none_iff]
          intro b hb
          have hb5 : b ∈ allBlocks st5 := h56.blocksPerm.mem_iff.mp hb
          rcases List.mem_append.mp hb5 with hbs | hbt
          · rcases List.mem_append.mp hbs with hbs4 | hbnew
            · have hbst : b ∈ allBlocks st := by
                rw [← h3all]
                exact h34.blocksPerm.mem_iff.mp (List.mem_append_left _ hbs4)
              exact (dataOf_none_iff.mp hdj) b hbst
            · have hbe := List.mem_singleton.mp hbnew
              have hbidv : b.id = (bid : Int) := by
                rw [hbe]
              intro hc
              rw [hbidv] at hc
              exact hj hc.symm
          · have hbst : b ∈ allBlocks st := by
              rw [← h3all]
              exact h34.blocksPerm.mem_iff.mp (List.mem_append_right _ hbt)
            exact (dataOf_none_iff.mp hdj) b hbst
        · obtain ⟨bj, hbjmem, hbjid, hbjdata⟩ := dataOf_some_elim hdj
          have hbj4 : bj ∈ allBlocks st4 := h34.blocksPerm.mem_iff.mpr (by
            rw [h3all]
            exact hbjmem)
          have hbj5 : bj ∈ allBlocks st5 := by
            rcases List.mem_append.mp hbj4 with hbs | hbt
            · exact List.mem_append_left _ (List.mem_append_left _ hbs)
            · exact List.mem_append_right _ hbt
          have hbj6 : bj ∈ allBlocks st6 := h56.blocksPerm.mem_iff.mpr hbj5
          rw [dataOf_eq_some hwf6.idsNodup hbj6 hbjid, hbjdata]
      rcases eo with _ | e
      · simp only []
        exact ⟨hwf6, hcfg6, Or.inl (by rw [hprev, ← h4bs]), (by
            rw [hprev, ← h4bs]
            exact hdata6), hothers,
          ⟨leafNew, hlNlt, hpmself6⟩, hpmothers, (by
            rw [if_neg (by simp)]
            exact hpmlen)⟩
      · simp only []
        obtain ⟨hesh, hov⟩ := herrEV e rfl
        have hsl : st5.stashLimit = st.stashLimit := h34.cfg.2.2.2.1
        refine ⟨hwf6, hcfg6, Or.inr ⟨?_, ?_⟩, (by
            rw [hprev, ← h4bs]
            exact hdata6), hothers,
          ⟨leafNew, hlNlt, hpmself6⟩, hpmothers, (by
            rw [if_neg (by simp)]
            exact hpmlen)⟩
        · rw [hesh]
        · rw [← hsl]
          exact hov
    · -- write: the fresh block holds the given payload
      simp only []
      have hcb : copyBytes (List.replicate st4.blockSize 0) d = d :=
        copyBytes_eq_of_length_eq _ _ (by rw [List.length_replicate, h4bs, hlen d rfl])
      rw [hcb]
      set st5 : ORAM := { st4 with stash := st4.stash ++
        [⟨(bid : Int), ((leafNew : Nat) : Int), d⟩] } with hst5
      have hwf5 : WF st5 := serveAbsent st4 _ _ hpre4 habs4 (by omega)
        d (by rw [hlen d rfl, ← h4bs])
      have hplt5 : ∀ j ∈ path, j < st5.tree.length := by
        intro j hj
        have hx : st5.tree.length = st3.tree.length := h34.treeLen
        rw [hx]
        exact hplt j hj
      obtain ⟨hstepEV, herrEV⟩ := evict_dispatch st5 path st4.constantTime hwf5 hpnd hplt5
      rcases hEV : (if st4.constantTime = true then evictCT st5 path
        else evictWithStrategy st5 path) with ⟨eo, st6⟩
      rw [hEV] at hstepEV herrEV
      have h56 : StepOK st5 st6 := hstepEV
      have hwf6 : WF st6 := hwf5.step h56
      have h6pm : st6.posMap = pmSet st.posMap (bid : Int) ((leafNew : Nat) : Int) := by
        rw [h56.pm]
        show st4.posMap = _
        rw [h34.pm]
      have hcfg6 : st6.numBlocks = st.numBlocks ∧ st6.blockSize = st.blockSize ∧
          st6.bucketSize = st.bucketSize ∧ st6.stashLimit = st.stashLimit ∧
          st6.strategy = st.strategy ∧ st6.constantTime = st.constantTime ∧
          st6.height = st.height ∧ st6.numLeaves = st.numLeaves :=
        ⟨h56.cfg.1.trans h34.cfg.1,
         h56.cfg.2.1.trans h34.cfg.2.1,
         h56.cfg.2.2.1.trans h34.cfg.2.2.1,
         h56.cfg.2.2.2.1.trans h34.cfg.2.2.2.1,
         h56.cfg.2.2.2.2.1.trans h34.cfg.2.2.2.2.1,
         h56.cfg.2.2.2.2.2.1.trans h34.cfg.2.2.2.2.2.1,
         h56.cfg.2.2.2.2.2.2.1.trans h34.cfg.2.2.2.2.2.2.1,
         h56.cfg.2.2.2.2.2.2.2.trans h34.cfg.2.2.2.2.2.2.2⟩
      have hpmself6 : pmGet st6.posMap (bid : Int) = some ((leafNew : Nat) : Int) := by
        rw [h6pm, pmSet_get_self]
      have hpmothers : ∀ j : Int, j ≠ (bid : Int) →
          pmGet st6.posMap j = pmGet st.posMap j := by
        intro j hj
        rw [h6pm]
        exact pmSet_get_other _ _ _ _ hj
      have hnewmem6 : (⟨(bid : Int), ((leafNew : Nat) : Int), d⟩ : Blk) ∈ allBlocks st6 := by
        apply h56.blocksPerm.mem_iff.mpr
        apply List.mem_append_left
        exact List.mem_append_right _ (List.mem_singleton.mpr rfl)
      have hdata6 : dataOf st6 (bid : Int) = some d :=
        dataOf_eq_some hwf6.idsNodup hnewmem6 rfl
      have hprev : prevOf st (bid : Int) = List.replicate st.blockSize 0 := by
        unfold prevOf
        rw [dataOf_none_iff.mpr habs]
        rfl
      have hpmlen : st6.posMap.length = st.posMap.length + 1 := by
        rw [h6pm]
        exact pmSet_length_of_not_mem _ hpm0
      have hothers : ∀ j : Int, j ≠ (bid : Int) → dataOf st6 j = dataOf st j := by
        intro j hj
        rcases hdj : dataOf st j with _ | v
        · rw [dataOf_none_iff]
          intro b hb
          have hb5 : b ∈ allBlocks st5 := h56.blocksPerm.mem_iff.mp hb
          rcases List.mem_append.mp hb5 with hbs | hbt
          · rcases List.mem_append.mp hbs with hbs4 | hbnew
            · have hbst : b ∈ allBlocks st := by
                rw [← h3all]
                exact h34.blocksPerm.mem_iff.mp (List.mem_append_left _ hbs4)
              exact (dataOf_none_iff.mp hdj) b hbst
            · have hbe := List.mem_singleton.mp hbnew
              have hbidv : b.id = (bid : Int) := by
                rw [hbe]
              intro hc
              rw [hbidv] at hc
              exact hj hc.symm
          · have hbst : b ∈ allBlocks st := by
              rw [← h3all]
              exact h34.blocksPerm.mem_iff.mp (List.mem_append_right _ hbt)
            exact (dataOf_none_iff.mp hdj) b hbst
        · obtain ⟨bj, hbjmem, hbjid, hbjdata⟩ := dataOf_some_elim hdj
          have hbj4 : bj ∈ allBlocks st4 := h34.blocksPerm.mem_iff.mpr (by
            rw [h3all]
            exact hbjmem)
          have hbj5 : bj ∈ allBlocks st5 := by
            rcases List.mem_append.mp hbj4 with hbs | hbt
            · exact List.mem_append_left _ (List.mem_append_left _ hbs)
            · exact List.mem_append_right _ hbt
          have hbj6 : bj ∈ allBlocks st6 := h56.blocksPerm.mem_iff.mpr hbj5
          rw [dataOf_eq_some hwf6.idsNodup hbj6 hbjid, hbjdata]
      rcases eo with _ | e
      · simp only []
        exact ⟨hwf6, hcfg6, Or.inl (by rw [hprev, ← h4bs]), hdata6, hothers,
          ⟨leafNew, hlNlt, hpmself6⟩, hpmothers, (by
            rw [if_neg (by simp)]
            exact hpmlen)⟩
      · simp only []
        obtain ⟨hesh, hov⟩ := herrEV e rfl
        have hsl : st5.stashLimit = st.stashLimit := h34.cfg.2.2.2.1
        refine ⟨hwf6, hcfg6, Or.inr ⟨?_, ?_⟩, hdata6, hothers,
          ⟨leafNew, hlNlt, hpmself6⟩, hpmothers, (by
            rw [if_neg (by simp)]
            exact hpmlen)⟩
        · rw [hesh]
        · rw [← hsl]
          exact hov
  · -- a live block holds the id: it is found and updated in place
    have hkeys : (bid : Int) ∈ pmKeys st.posMap := by
      rw [← pmGet_isSome_iff, hpm0]
      rfl
    obtain ⟨b0, hb0mem, hb0id⟩ := List.mem_map.mp (hwf.idsPerm.mem_iff.mp hkeys)
    have hleafO : leafO = b0.leaf := by
      have hx := hwf.leafCons b0 hb0mem
      rw [hb0id, hpm0] at hx
      exact Option.some_inj.mp hx
    have hr0 := hwf.leafRange b0 hb0mem
    have hlOlt : leafO.toNat < st.numLeaves := by
      rw [hleafO]
      omega
    rw [access_eq_some st bid nd hpm0]
    simp only []
    set leafNew := st.tape st.ctr % st.numLeaves with hLN
    have hlNlt : leafNew < st.numLeaves := Nat.mod_lt _ hnl1
    set st3 : ORAM := { st with
      ctr := st.ctr + 1,
      posMap := pmSet st.posMap (bid : Int) ((leafNew : Nat) : Int) } with hst3
    have h3pm : st3.posMap = pmSet st.posMap (bid : Int) ((leafNew : Nat) : Int) := rfl
    have h3all : allBlocks st3 = allBlocks st := rfl
    have hg3 : Geom st3 := ⟨hwf.geom.hh, hwf.geom.hnl, hwf.geom.htree, hwf.geom.hZ⟩
    set path := pathOf st3 leafO.toNat with hpathd
    obtain ⟨hpnd, hplt⟩ := pathOf_ok st3 hg3 (show leafO.toNat < st3.numLeaves from hlOlt)
    set st4 := readPathIntoStash st3 path with hst4
    have h34 : StepOK st3 st4 := readPathIntoStash_StepOK path st3 hplt
    have hpre3 : PreWF st3 (bid : Int) ((leafNew : Nat) : Int) [] :=
      PreWF.intro_present st hwf _ _ (st.ctr + 1) (by rw [hpm0]; rfl)
        ⟨by exact_mod_cast Nat.zero_le leafNew, by exact_mod_cast hlNlt⟩
    have hpre4 : PreWF st4 (bid : Int) ((leafNew : Nat) : Int) [] :=
      hpre3.evolve h34
    have hb04 : b0 ∈ st4.stash := by
      rcases List.mem_append.mp hb0mem with hbs | hbt
      · obtain ⟨t, ht⟩ := readPathIntoStash_stash_ext path st3
        show b0 ∈ (readPathIntoStash st3 path).stash
        rw [ht]
        exact List.mem_append_left _ hbs
      · obtain ⟨i, hilt, hib⟩ := treeNE_mem_bucket hbt
        have hplace := hwf.placement i b0 hib
        have hmem := (canPlaceAt_iff_mem hwf.geom.hh hwf.geom.hnl b0.leaf
          hr0.1 hr0.2 i).mp hplace
        have hipath : i ∈ path := by
          show i ∈ pathOf st3 leafO.toNat
          unfold pathOf
          rw [hleafO]
          exact hmem
        exact readPathIntoStash_collects path st3 i hipath b0 hib
    have hnodup4 : ((allBlocks st4).map Blk.id).Nodup := by
      have hx := hpre4.keysNodup.perm hpre4.idsPerm
      simpa using hx
    have hnd4 : (st4.stash.map Blk.id).Nodup := by
      have hx : (st4.stash.map Blk.id ++ (treeNE st4.tree).map Blk.id).Nodup := by
        rw [← List.map_append]
        exact hnodup4
      exact hx.of_append_left
    set found := (if st4.constantTime then findInStashCT st4 (bid : Int)
      else findInStash st4.stash (bid : Int)) with hfd
    obtain ⟨k, hfk, hklt, hkb⟩ : ∃ k : Nat, found = (((k : Nat) : Int), b0.data) ∧
        k < st4.stash.length ∧ st4.stash.getD k default = b0 := by
      rw [hfd]
      cases hct : st4.constantTime with
      | false =>
        rw [if_neg Bool.false_ne_true]
        exact findInStash_found hnd4 hb04 hb0id
      | true =>
        rw [if_pos rfl]
        obtain ⟨k, hk, hklt, hkb⟩ := findCTAux_found st4.stash 0
          (-1, List.replicate st4.blockSize 0) hnd4 hb04 hb0id
        rw [Nat.zero_add] at hk
        exact ⟨k, hk, hklt, hkb⟩
    rw [hfk]
    have hkne : ¬((((k : Nat) : Int), b0.data).1 = -1) := by
      show ¬(((k : Nat) : Int) = -1)
      omega
    rw [if_neg hkne]
    simp only []
    rw [Int.toNat_ofNat]
    have hnew4 : (pmGet st4.posMap (bid : Int)).getD 0 = ((leafNew : Nat) : Int) := by
      rw [h34.pm, h3pm, pmSet_get_self]
      rfl
    rw [hnew4]
    rcases nd with _ | d
    · -- read: leaf refreshed, payload untouched
      simp only []
      obtain ⟨pre, post, hsdec, hmdec, hpreid, hpostid, htrid, hwf5⟩ :=
        serveFound st4 (bid : Int) ((leafNew : Nat) : Int) hpre4 hklt hkb hb0id
          (fun b => { b with leaf := ((leafNew : Nat) : Int), data := b.data }) rfl rfl rfl
      set st5 : ORAM := { st4 with
        stash := List.modify (fun b => { b with leaf := ((leafNew : Nat) : Int), data := b.data }) k st4.stash } with hst5
      have hplt5 : ∀ j ∈ path, j < st5.tree.length := by
        intro j hj
        have hx : st5.tree.length = st3.tree.length := h34.treeLen
        rw [hx]
        exact hplt j hj
      obtain ⟨hstepEV, herrEV⟩ := evict_dispatch st5 path st4.constantTime hwf5 hpnd hplt5
      rcases hEV : (if st4.constantTime = true then evictCT st5 path
        else evictWithStrategy st5 path) with ⟨eo, st6⟩
      rw [hEV] at hstepEV herrEV
      have h56 : StepOK st5 st6 := hstepEV
      have hwf6 : WF st6 := hwf5.step h56
      have h6pm : st6.posMap = pmSet st.posMap (bid : Int) ((leafNew : Nat) : Int) := by
        rw [h56.pm]
        show st4.posMap = _
        rw [h34.pm]
      have hcfg6 : st6.numBlocks = st.numBlocks ∧ st6.blockSize = st.blockSize ∧
          st6.bucketSize = st.bucketSize ∧ st6.stashLimit = st.stashLimit ∧
          st6.strategy = st.strategy ∧ st6.constantTime = st.constantTime ∧
          st6.height = st.height ∧ st6.numLeaves = st.numLeaves :=
        ⟨h56.cfg.1.trans h34.cfg.1,
         h56.cfg.2.1.trans h34.cfg.2.1,
         h56.cfg.2.2.1.trans h34.cfg.2.2.1,
         h56.cfg.2.2.2.1.trans h34.cfg.2.2.2.1,
         h56.cfg.2.2.2.2.1.trans h34.cfg.2.2.2.2.1,
         h56.cfg.2.2.2.2.2.1.trans h34.cfg.2.2.2.2.2.1,
         h56.cfg.2.2.2.2.2.2.1.trans h34.cfg.2.2.2.2.2.2.1,
         h56.cfg.2.2.2.2.2.2.2.trans h34.cfg.2.2.2.2.2.2.2⟩
      have hpmself6 : pmGet st6.posMap (bid : Int) = some ((leafNew : Nat) : Int) := by
        rw [h6pm, pmSet_get_self]
      have hpmothers : ∀ j : Int, j ≠ (bid : Int) →
          pmGet st6.posMap j = pmGet st.posMap j := by
        intro j hj
        rw [h6pm]
        exact pmSet_get_other _ _ _ _ hj
      have hU5 : (fun b => { b with leaf := ((leafNew : Nat) : Int), data := b.data }) b0 ∈ st5.stash := by
        show (fun b => { b with leaf := ((leafNew : Nat) : Int), data := b.data }) b0 ∈ List.modify (fun b => { b with leaf := ((leafNew : Nat) : Int), data := b.data }) k st4.stash
        rw [hmdec]
        exact List.mem_append_right _ (List.mem_cons_self _ _)
      have hU6 : (fun b => { b with leaf := ((leafNew : Nat) : Int), data := b.data }) b0 ∈ allBlocks st6 :=
        h56.blocksPerm.mem_iff.mpr (List.mem_append_left _ hU5)
      have hdata6 : dataOf st6 (bid : Int) = some b0.data := by
        have hx := dataOf_eq_some hwf6.idsNodup hU6 hb0id
        exact hx
      have hprev : prevOf st (bid : Int) = b0.data := by
        unfold prevOf
        rw [dataOf_eq_some hwf.idsNodup hb0mem hb0id]
        rfl
      have hpmlen : st6.posMap.length = st.posMap.length := by
        rw [h6pm]
        exact pmSet_length_of_mem _ (by rw [hpm0]; rfl)
      have hothers : ∀ j : Int, j ≠ (bid : Int) → dataOf st6 j = dataOf st j := by
        intro j hj
        rcases hdj : dataOf st j with _ | v
        · rw [dataOf_none_iff]
          intro b hb
          have hb5 : b ∈ allBlocks st5 := h56.blocksPerm.mem_iff.mp hb
          rcases List.mem_append.mp hb5 with hbs | hbt
          · have hbs2 : b ∈ pre ++ (fun b => { b with leaf := ((leafNew : Nat) : Int), data := b.data }) b0 :: post := by
              rw [← hmdec]
              exact hbs
            rcases List.mem_append.mp hbs2 with hbp | hbm
            · have hbst : b ∈ allBlocks st := by
                rw [← h3all]
                apply h34.blocksPerm.mem_iff.mp
                apply List.mem_append_left
                rw [hsdec]
                exact List.mem_append_left _ hbp
              exact (dataOf_none_iff.mp hdj) b hbst
            · rcases List.mem_cons.mp hbm with hbe | hbq
              · have hbidv : b.id = (bid : Int) := by
                  rw [hbe]
                  exact hb0id
                intro hc
                rw [hbidv] at hc
                exact hj hc.symm
              · have hbst : b ∈ allBlocks st := by
                  rw [← h3all]
                  apply h34.blocksPerm.mem_iff.mp
                  apply List.mem_append_left
                  rw [hsdec]
                  exact List.mem_append_right _ (List.mem_cons_of_mem _ hbq)
                exact (dataOf_none_iff.mp hdj) b hbst
          · have hbst : b ∈ allBlocks st := by
              rw [← h3all]
              apply h34.blocksPerm.mem_iff.mp
              exact List.mem_append_right _ hbt
            exact (dataOf_none_iff.mp hdj) b hbst
        · obtain ⟨bj, hbjmem, hbjid, hbjdata⟩ := dataOf_some_elim hdj
          have hbj4 : bj ∈ allBlocks st4 := h34.blocksPerm.mem_iff.mpr (by
            rw [h3all]
            exact hbjmem)
          have hbj5 : bj ∈ allBlocks st5 := by
            rcases List.mem_append.mp hbj4 with hbs | hbt
            · have hbs2 : bj ∈ pre ++ b0 :: post := by
                rw [← hsdec]
                exact hbs
              have hbj55 : bj ∈ List.modify (fun b => { b with leaf := ((leafNew : Nat) : Int), data := b.data }) k st4.stash := by
                rw [hmdec]
                rcases List.mem_append.mp hbs2 with hbp | hbm
                · exact List.mem_append_left _ hbp
                · rcases List.mem_cons.mp hbm with hbe | hbq
                  · exfalso
                    apply hj
                    rw [← hbjid, hbe, hb0id]
                  · exact List.mem_append_right _ (List.mem_cons_of_mem _ hbq)
              exact List.mem_append_left _ hbj55
            · exact List.mem_append_right _ hbt
          have hbj6 : bj ∈ allBlocks st6 := h56.blocksPerm.mem_iff.mpr hbj5
          rw [dataOf_eq_some hwf6.idsNodup hbj6 hbjid, hbjdata]
      rcases eo with _ | e
      · simp only []
        exact ⟨hwf6, hcfg6, Or.inl (by rw [hprev]), (by
            rw [hprev]
            exact hdata6), hothers,
          ⟨leafNew, hlNlt, hpmself6⟩, hpmothers, (by
            rw [if_pos (show (some leafO).isSome = true from rfl)]
            exact hpmlen)⟩
      · simp only []
        obtain ⟨hesh, hov⟩ := herrEV e rfl
        have hsl : st5.stashLimit = st.stashLimit := h34.cfg.2.2.2.1
        refine ⟨hwf6, hcfg6, Or.inr ⟨?_, ?_⟩, (by
            rw [hprev]
            exact hdata6), hothers,
          ⟨leafNew, hlNlt, hpmself6⟩, hpmothers, (by
            rw [if_pos (show (some leafO).isSome = true from rfl)]
            exact hpmlen)⟩
        · rw [hesh]
        · rw [← hsl]
          exact hov
    · -- write: leaf refreshed, payload overwritten
      simp only []
      obtain ⟨pre, post, hsdec, hmdec, hpreid, hpostid, htrid, hwf5⟩ :=
        serveFound st4 (bid : Int) ((leafNew : Nat) : Int) hpre4 hklt hkb hb0id
          (fun b => { b with leaf := ((leafNew : Nat) : Int), data := copyBytes b.data d }) rfl rfl (copyBytes_length _ _)
      set st5 : ORAM := { st4 with
        stash := List.modify (fun b => { b with leaf := ((leafNew : Nat) : Int), data := copyBytes b.data d }) k st4.stash } with hst5
      have hplt5 : ∀ j ∈ path, j < st5.tree.length := by
        intro j hj
        have hx : st5.tree.length = st3.tree.length := h34.treeLen
        rw [hx]
        exact hplt j hj
      obtain ⟨hstepEV, herrEV⟩ := evict_dispatch st5 path st4.constantTime hwf5 hpnd hplt5
      rcases hEV : (if st4.constantTime = true then evictCT st5 path
        else evictWithStrategy st5 path) with ⟨eo, st6⟩
      rw [hEV] at hstepEV herrEV
      have h56 : StepOK st5 st6 := hstepEV
      have hwf6 : WF st6 := hwf5.step h56
      have h6pm : st6.posMap = pmSet st.posMap (bid : Int) ((leafNew : Nat) : Int) := by
        rw [h56.pm]
        show st4.posMap = _
        rw [h34.pm]
      have hcfg6 : st6.numBlocks = st.numBlocks ∧ st6.blockSize = st.blockSize ∧
          st6.bucketSize = st.bucketSize ∧ st6.stashLimit = st.stashLimit ∧
          st6.strategy = st.strategy ∧ st6.constantTime = st.constantTime ∧
          st6.height = st.height ∧ st6.numLeaves = st.numLeaves :=
        ⟨h56.cfg.1.trans h34.cfg.1,
         h56.cfg.2.1.trans h34.cfg.2.1,
         h56.cfg.2.2.1.trans h34.cfg.2.2.1,
         h56.cfg.2.2.2.1.trans h34.cfg.2.2.2.1,
         h56.cfg.2.2.2.2.1.trans h34.cfg.2.2.2.2.1,
         h56.cfg.2.2.2.2.2.1.trans h34.cfg.2.2.2.2.2.1,
         h56.cfg.2.2.2.2.2.2.1.trans h34.cfg.2.2.2.2.2.2.1,
         h56.cfg.2.2.2.2.2.2.2.trans h34.cfg.2.2.2.2.2.2.2⟩
      have hpmself6 : pmGet st6.posMap (bid : Int) = some ((leafNew : Nat) : Int) := by
        rw [h6pm, pmSet_get_self]
      have hpmothers : ∀ j : Int, j ≠ (bid : Int) →
          pmGet st6.posMap j = pmGet st.posMap j := by
        intro j hj
        rw [h6pm]
        exact pmSet_get_other _ _ _ _ hj
      have hU5 : (fun b => { b with leaf := ((leafNew : Nat) : Int), data := copyBytes b.data d }) b0 ∈ st5.stash := by
        show (fun b => { b with leaf := ((leafNew : Nat) : Int), data := copyBytes b.data d }) b0 ∈ List.modify (fun b => { b with leaf := ((leafNew : Nat) : Int), data := copyBytes b.data d }) k st4.stash
        rw [hmdec]
        exact List.mem_append_right _ (List.mem_cons_self _ _)
      have hU6 : (fun b => { b with leaf := ((leafNew : Nat) : Int), data := copyBytes b.data d }) b0 ∈ allBlocks st6 :=
        h56.blocksPerm.mem_iff.mpr (List.mem_append_left _ hU5)
      have hdata6 : dataOf st6 (bid : Int) = some d := by
        have hx0 := dataOf_eq_some hwf6.idsNodup hU6 hb0id
        have hx : dataOf st6 (bid : Int) = some (copyBytes b0.data d) := hx0
        rw [hx, copyBytes_eq_of_length_eq b0.data d (by
          rw [hwf.dataLen b0 hb0mem, hlen d rfl])]
      have hprev : prevOf st (bid : Int) = b0.data := by
        unfold prevOf
        rw [dataOf_eq_some hwf.idsNodup hb0mem hb0id]
        rfl
      have hpmlen : st6.posMap.length = st.posMap.length := by
        rw [h6pm]
        exact pmSet_length_of_mem _ (by rw [hpm0]; rfl)
      have hothers : ∀ j : Int, j ≠ (bid : Int) → dataOf st6 j = dataOf st j := by
        intro j hj
        rcases hdj : dataOf st j with _ | v
        · rw [dataOf_none_iff]
          intro b hb
          have hb5 : b ∈ allBlocks st5 := h56.blocksPerm.mem_iff.mp hb
          rcases List.mem_append.mp hb5 with hbs | hbt
          · have hbs2 : b ∈ pre ++ (fun b => { b with leaf := ((leafNew : Nat) : Int), data := copyBytes b.data d }) b0 :: post := by
              rw [← hmdec]
              exact hbs
            rcases List.mem_append.mp hbs2 with hbp | hbm
            · have hbst : b ∈ allBlocks st := by
                rw [← h3all]
                apply h34.blocksPerm.mem_iff.mp
                apply List.mem_append_left
                rw [hsdec]
                exact List.mem_append_left _ hbp
              exact (dataOf_none_iff.mp hdj) b hbst
            · rcases List.mem_cons.mp hbm with hbe | hbq
              · have hbidv : b.id = (bid : Int) := by
                  rw [hbe]
                  exact hb0id
                intro hc
                rw [hbidv] at hc
                exact hj hc.symm
              · have hbst : b ∈ allBlocks st := by
                  rw [← h3all]
                  apply h34.blocksPerm.mem_iff.mp
                  apply List.mem_append_left
                  rw [hsdec]
                  exact List.mem_append_right _ (List.mem_cons_of_mem _ hbq)
                exact (dataOf_none_iff.mp hdj) b hbst
          · have hbst : b ∈ allBlocks st := by
              rw [← h3all]
              apply h34.blocksPerm.mem_iff.mp
              exact List.mem_append_right _ hbt
            exact (dataOf_none_iff.mp hdj) b hbst
        · obtain ⟨bj, hbjmem, hbjid, hbjdata⟩ := dataOf_some_elim hdj
          have hbj4 : bj ∈ allBlocks st4 := h34.blocksPerm.mem_iff.mpr (by
            rw [h3all]
            exact hbjmem)
          have hbj5 : bj ∈ allBlocks st5 := by
            rcases List.mem_append.mp hbj4 with hbs | hbt
            · have hbs2 : bj ∈ pre ++ b0 :: post := by
                rw [← hsdec]
                exact hbs
              have hbj55 : bj ∈ List.modify (fun b => { b with leaf := ((leafNew : Nat) : Int), data := copyBytes b.data d }) k st4.stash := by
                rw [hmdec]
                rcases List.mem_append.mp hbs2 with hbp | hbm
                · exact List.mem_append_left _ hbp
                · rcases List.mem_cons.mp hbm with hbe | hbq
                  · exfalso
                    apply hj
                    rw [← hbjid, hbe, hb0id]
                  · exact List.mem_append_right _ (List.mem_cons_of_mem _ hbq)
              exact List.mem_append_left _ hbj55
            · exact List.mem_append_right _ hbt
          have hbj6 : bj ∈ allBlocks st6 := h56.blocksPerm.mem_iff.mpr hbj5
          rw [dataOf_eq_some hwf6.idsNodup hbj6 hbjid, hbjdata]
      rcases eo with _ | e
      · simp only []
        exact ⟨hwf6, hcfg6, Or.inl (by rw [hprev]), hdata6, hothers,
          ⟨leafNew, hlNlt, hpmself6⟩, hpmothers, (by
            rw [if_pos (show (some leafO).isSome = true from rfl)]
            exact hpmlen)⟩
      · simp only []
        obtain ⟨hesh, hov⟩ := herrEV e rfl
        have hsl : st5.stashLimit = st.stashLimit := h34.cfg.2.2.2.1
        refine ⟨hwf6, hcfg6, Or.inr ⟨?_, ?_⟩, hdata6, hothers,
          ⟨leafNew, hlNlt, hpmself6⟩, hpmothers, (by
            rw [if_pos (show (some leafO).isSome = true from rfl)]
            exact hpmlen)⟩
        · rw [hesh]
        · rw [← hsl]
          exact hov

/-! ## Engine construction -/

theorem heightLoop_correct (nb : Nat) : ∀ (fuel h : Nat), nb ≤ 2 ^ (h + fuel) - 1 →
    h ≤ heightLoop nb fuel h ∧ nb ≤ 2 ^ heightLoop nb fuel h - 1 ∧
    ∀ g, h ≤ g → nb ≤ 2 ^ g - 1 → heightLoop nb fuel h ≤ g := by
  intro fuel
  induction fuel with
  | zero =>
    intro h hb
    refine ⟨Nat.le_refl _, ?_, ?_⟩
    · simpa using hb
    · intro g hg _
      exact hg
  | succ fuel ih =>
    intro h hb
    have heq : heightLoop nb (fuel + 1) h =
        if 2 ^ h - 1 < nb then heightLoop nb fuel (h + 1) else h := rfl
    rw [heq]
    by_cases hc : 2 ^ h - 1 < nb
    · rw [if_pos hc]
      have hb' : nb ≤ 2 ^ (h + 1 + fuel) - 1 := by
        have hx : h + 1 + fuel = h + (fuel + 1) := by omega
        rw [hx]
        exact hb
      obtain ⟨ih1, ih2, ih3⟩ := ih (h + 1) hb'
      refine ⟨by omega, ih2, ?_⟩
      intro g hg hgb
      have hgne : g ≠ h := by
        intro hc2
        subst hc2
        omega
      exact ih3 g (by omega) hgb
    · rw [if_neg hc]
      exact ⟨Nat.le_refl _, by omega, fun g hg _ => hg⟩

theorem replicate_getD {α : Type} (t : Nat) (x d : α) (i : Nat) :
    (List.replicate t x).getD i d = if i < t then x else d := by
  rw [List.getD_eq_getElem?_getD, List.getElem?_replicate]
  by_cases h : i < t
  · rw [if_pos h, if_pos h]
    rfl
  · rw [if_neg h, if_neg h]
    rfl

theorem bucketNE_replicate (z : Nat) {blk : Blk} (hid : blk.id = -1) :
    bucketNE (List.replicate z blk) = [] := by
  induction z with
  | zero => rfl
  | succ z ih =>
    rw [List.replicate_succ]
    unfold bucketNE at ih ⊢
    rw [List.filter_cons]
    have hf : (blk.id != -1) = false := by simp [hid]
    rw [hf]
    simpa using ih

theorem treeNE_replicate (t : Nat) {bkt : List Blk} (hb : bucketNE bkt = []) :
    treeNE (List.replicate t bkt) = [] := by
  induction t with
  | zero => rfl
  | succ t ih =>
    rw [List.replicate_succ]
    unfold treeNE at ih ⊢
    rw [List.flatMap_cons, hb, List.nil_append]
    exact ih

/-- A freshly constructed engine is well-formed. -/
theorem newInMemory_WF {cfg : Config} {tape : Nat → Nat} {st : ORAM}
    (h : newInMemory cfg tape = .ok st) : WF st := by
  unfold newInMemory at h
  rcases hv : cfg.validate with e | cfg'
  · rw [hv] at h
    have h' : (Except.error e : Except Err ORAM) = Except.ok st := h
    exact Except.noConfusion h'
  · rw [hv] at h
    have h2 : (match cfg'.computeTreeParams with
      | (hh, nl, total) => (Except.ok ({
          numBlocks := cfg'.numBlocks, blockSize := cfg'.blockSize,
          bucketSize := cfg'.bucketSize, stashLimit := cfg'.stashLimit,
          strategy := cfg'.strategy, constantTime := cfg'.constantTime,
          height := hh, numLeaves := nl, posMap := [], stash := [],
          tree := List.replicate total (List.replicate cfg'.bucketSize
            ⟨-1, -1, List.replicate cfg'.blockSize 0⟩),
          events := [], tape := tape, ctr := 0 } : ORAM) : Except Err ORAM)) =
        Except.ok st := h
    rcases htp : cfg'.computeTreeParams with ⟨hh, nl, total⟩
    rw [htp] at h2
    have hst : ({
        numBlocks := cfg'.numBlocks, blockSize := cfg'.blockSize,
        bucketSize := cfg'.bucketSize, stashLimit := cfg'.stashLimit,
        strategy := cfg'.strategy, constantTime := cfg'.constantTime,
        height := hh, numLeaves := nl, posMap := [], stash := [],
        tree := List.replicate total (List.replicate cfg'.bucketSize
          ⟨-1, -1, List.replicate cfg'.blockSize 0⟩),
        events := [], tape := tape, ctr := 0 } : ORAM) = st := Except.ok.inj h2
    subst hst
    unfold Config.computeTreeParams at htp
    simp only [Prod.mk.injEq] at htp
    obtain ⟨hph, hpnl, hptot⟩ := htp
    have hfuel : (cfg'.numBlocks + cfg'.bucketSize - 1) / cfg'.bucketSize ≤
        2 ^ (1 + (cfg'.numBlocks + cfg'.bucketSize - 1) / cfg'.bucketSize) - 1 := by
      have h1 := Nat.lt_two_pow ((cfg'.numBlocks + cfg'.bucketSize - 1) / cfg'.bucketSize)
      have h2 : 2 ^ ((cfg'.numBlocks + cfg'.bucketSize - 1) / cfg'.bucketSize) ≤
          2 ^ (1 + (cfg'.numBlocks + cfg'.bucketSize - 1) / cfg'.bucketSize) :=
        Nat.pow_le_pow_right (by omega) (by omega)
      omega
    obtain ⟨hge0, hbound0, hmin0⟩ := heightLoop_correct _ _ 1 hfuel
    have hge : 1 ≤ hh := by
      rw [← hph]
      exact hge0
    have hnl2 : nl = 2 ^ (hh - 1) := by
      rw [← hpnl, ← hph]
    have htot2 : total = 2 ^ hh - 1 := by
      rw [← hptot, ← hph]
    have hbne : bucketNE (List.replicate cfg'.bucketSize
        (⟨-1, -1, List.replicate cfg'.blockSize 0⟩ : Blk)) = [] :=
      bucketNE_replicate _ rfl
    have htne : treeNE (List.replicate total (List.replicate cfg'.bucketSize
        (⟨-1, -1, List.replicate cfg'.blockSize 0⟩ : Blk))) = [] :=
      treeNE_replicate _ hbne
    constructor
    · constructor
      · exact hge
      · exact hnl2
      · show (List.replicate total _).length = 2 ^ hh - 1
        rw [List.length_replicate]
        exact htot2
      · intro i hi
        rw [List.length_replicate] at hi
        show ((List.replicate total _).getD i []).length = cfg'.bucketSize
        rw [replicate_getD, if_pos hi, List.length_replicate]
    · intro b hb
      exact absurd hb (by simp)
    · exact List.nodup_nil
    · show List.Perm [] _
      show List.Perm [] (List.map Blk.id ([] ++ treeNE _))
      rw [List.nil_append, htne]
      exact List.Perm.refl _
    · intro b hb
      have hb' : b ∈ [] ++ treeNE (List.replicate total (List.replicate cfg'.bucketSize
          (⟨-1, -1, List.replicate cfg'.blockSize 0⟩ : Blk))) := hb
      rw [List.nil_append, htne] at hb'
      exact absurd hb' (by simp)
    · intro b hb
      have hb' : b ∈ [] ++ treeNE (List.replicate total (List.replicate cfg'.bucketSize
          (⟨-1, -1, List.replicate cfg'.blockSize 0⟩ : Blk))) := hb
      rw [List.nil_append, htne] at hb'
      exact absurd hb' (by simp)
    · intro b hb
      have hb' : b ∈ [] ++ treeNE (List.replicate total (List.replicate cfg'.bucketSize
          (⟨-1, -1, List.replicate cfg'.blockSize 0⟩ : Blk))) := hb
      rw [List.nil_append, htne] at hb'
      exact absurd hb' (by simp)
    · intro i b hb
      have hgd : (List.replicate total (List.replicate cfg'.bucketSize
          (⟨-1, -1, List.replicate cfg'.blockSize 0⟩ : Blk))).getD i [] =
          if i < total then List.replicate cfg'.bucketSize
            (⟨-1, -1, List.replicate cfg'.blockSize 0⟩ : Blk) else [] :=
        replicate_getD _ _ _ _
      by_cases hi : i < total
      · rw [if_pos hi] at hgd
        rw [hgd, hbne] at hb
        exact absurd hb (by simp)
      · rw [if_neg hi] at hgd
        rw [hgd] at hb
        exact absurd hb (by simp [bucketNE])

/-! ## Validation wrappers -/

theorem Read_eq (st : ORAM) (id : Int) (h0 : 0 ≤ id)
    (hN : id < (st.numBlocks : Int)) :
    Read st id = access st id.toNat none := by
  unfold Read
  rw [if_neg (by omega)]

theorem Write_eq (st : ORAM) (id : Int) (d : List Nat) (h0 : 0 ≤ id)
    (hN : id < (st.numBlocks : Int)) (hd : d.length = st.blockSize) :
    Write st id d = access st id.toNat (some d) := by
  unfold Write
  rw [if_neg (by omega), if_neg (fun hc => hc hd)]

theorem Access_eq (st : ORAM) (id : Int) (nd : Option (List Nat)) (h0 : 0 ≤ id)
    (hN : id < (st.numBlocks : Int))
    (hlen : ∀ d, nd = some d → d.length = st.blockSize) :
    Access st id nd = access st id.toNat nd := by
  unfold Access
  rw [if_neg (by omega), if_neg (by
    rintro ⟨d, hdd, hne⟩
    exact hne (hlen d hdd))]

theorem Access_WF (st : ORAM) (id : Int) (nd : Option (List Nat))
    (hwf : WF st) : WF (Access st id nd).2 := by
  unfold Access
  by_cases h1 : id < 0 ∨ (st.numBlocks : Int) ≤ id
  · rw [if_pos h1]
    exact hwf
  · rw [if_neg h1]
    by_cases h2 : ∃ d, nd = some d ∧ d.length ≠ st.blockSize
    · rw [if_pos h2]
      exact hwf
    · rw [if_neg h2]
      refine (access_spec st id.toNat nd hwf ?_).1
      intro d hd
      by_contra hne
      exact h2 ⟨d, hd, hne⟩

theorem runOps_WF (ops : List (Int × Option (List Nat))) :
    ∀ st, WF st → WF (runOps st ops) := by
  induction ops with
  | nil =>
    intro st h
    exact h
  | cons op rest ih =>
    intro st h
    rcases op with ⟨id, nd⟩
    show WF (runOps (Access st id nd).2 rest)
    exact ih _ (Access_WF st id nd h)

theorem WF.stash_le {st : ORAM} (h : WF st) :
    st.stash.length ≤ st.posMap.length := by
  rw [h.count]
  show st.stash.length ≤ (st.stash ++ treeNE st.tree).length
  rw [List.length_append]
  omega

/-! ## Bucket-store traces -/

theorem readPathIntoStash_events (p : List Nat) :
    ∀ st : ORAM, (readPathIntoStash st p).events =
      st.events ++ p.flatMap (fun i => [Ev.readB i, Ev.writeB i]) := by
  induction p with
  | nil =>
    intro st
    simp [readPathIntoStash]
  | cons j rest ih =>
    intro st
    show (readPathIntoStash (readBucketIntoStash st j) rest).events = _
    rw [ih, readBucketIntoStash_def]
    simp [List.append_assoc]

theorem greedyLoop_len (nl : Nat) (path : List Nat) :
    ∀ (fuel : Nat) (buckets : List (List Blk)) (stash : List Blk) (i : Nat),
    (greedyLoop nl path fuel buckets stash i).1.length = buckets.length := by
  intro fuel
  induction fuel with
  | zero =>
    intro buckets stash i
    rfl
  | succ fuel ih =>
    intro buckets stash i
    rw [greedyLoop_succ]
    by_cases hi : i < stash.length
    · rw [if_pos hi]
      rcases htp : tryPlace nl (stash.getD i default).leaf path buckets with _ | lv
      · exact ih buckets stash (i + 1)
      · rcases lv with ⟨level, slot⟩
        rw [ih]
        exact List.length_set _ _ _
    · rw [if_neg hi]

theorem evictGreedy_events (st : ORAM) (p : List Nat) :
    (evictGreedy st p).2.events = st.events ++ p.map Ev.readB ++ p.map Ev.writeB := by
  unfold evictGreedy
  rw [readBuckets_eq]
  simp only []
  generalize hr : greedyLoop st.numLeaves p (st.stash.length + 1)
    (p.map (fun i => st.tree.getD i [])) st.stash 0 = r
  have hrlen : r.1.length = p.length := by
    rw [← hr, greedyLoop_len, List.length_map]
  set stR : ORAM := { st with
    events := st.events ++ p.map Ev.readB, stash := r.2 } with hstR
  have hev : (writeBuckets stR p r.1).events = stR.events ++ p.map Ev.writeB :=
    writeBuckets_events p stR r.1 hrlen
  by_cases hov : (writeBuckets stR p r.1).stash.length > (writeBuckets stR p r.1).stashLimit
  · rw [if_pos hov]
    simp only []
    rw [hev]
  · rw [if_neg hov]
    simp only []
    rw [hev]

theorem readPathIntoStash_cfg (p : List Nat) : ∀ st : ORAM,
    (readPathIntoStash st p).constantTime = st.constantTime ∧
    (readPathIntoStash st p).strategy = st.strategy := by
  induction p with
  | nil =>
    intro st
    exact ⟨rfl, rfl⟩
  | cons j rest ih =>
    intro st
    obtain ⟨h1, h2⟩ := ih (readBucketIntoStash st j)
    constructor
    · show (readPathIntoStash (readBucketIntoStash st j) rest).constantTime = _
      rw [h1]
      simp [readBucketIntoStash_def]
    · show (readPathIntoStash (readBucketIntoStash st j) rest).strategy = _
      rw [h2]
      simp [readBucketIntoStash_def]

/-- The bucket-store trace of one post-validation `access` under the
greedy-by-depth strategy (constant-time off): the drained path gets a
read and a write-back per bucket leaf-first, then the eviction reads
every path bucket leaf-first and writes every path bucket back
leaf-first — two reads and two writes per path bucket in total. -/
theorem access_events_greedy (st : ORAM) (bid : Nat) (nd : Option (List Nat))
    (hwf : WF st) (hstrat : st.strategy = .greedyByDepth)
    (hct : st.constantTime = false) :
    ∃ leaf : Nat, leaf < st.numLeaves ∧
      (access st bid nd).2.events = st.events
        ++ (pathOf st leaf).flatMap (fun i => [Ev.readB i, Ev.writeB i])
        ++ (pathOf st leaf).map Ev.readB ++ (pathOf st leaf).map Ev.writeB := by
  have hnl1 : 1 ≤ st.numLeaves := by
    rw [hwf.geom.hnl]
    exact Nat.one_le_two_pow
  rcases hpm0 : pmGet st.posMap (bid : Int) with _ | leafO
  · rw [access_eq_none st bid nd hpm0]
    simp only []
    set leafOld := st.tape st.ctr % st.numLeaves with hLO
    set leafNew := st.tape (st.ctr + 1) % st.numLeaves with hLN
    have hlOlt : leafOld < st.numLeaves := Nat.mod_lt _ hnl1
    set st3 : ORAM := { st with
      ctr := st.ctr + 1 + 1,
      posMap := pmSet st.posMap (bid : Int) ((leafNew : Nat) : Int) } with hst3
    set path := pathOf st3 leafOld with hpathd
    set st4 := readPathIntoStash st3 path with hst4
    refine ⟨leafOld, hlOlt, ?_⟩
    obtain ⟨hctc, hstc⟩ := readPathIntoStash_cfg path st3
    have hct4 : st4.constantTime = false := by
      have hx : st4.constantTime = st3.constantTime := hctc
      rw [hx]
      exact hct
    have hs4 : st4.strategy = Strategy.greedyByDepth := by
      have hx : st4.strategy = st3.strategy := hstc
      rw [hx]
      exact hstrat
    have hev4 : st4.events = st3.events ++
        path.flatMap (fun i => [Ev.readB i, Ev.writeB i]) :=
      readPathIntoStash_events path st3
    by_cases hf : (if st4.constantTime then findInStashCT st4 (bid : Int)
        else findInStash st4.stash (bid : Int)).1 = -1
    · rw [if_pos hf]
      simp only []
      rw [hct4, if_neg Bool.false_ne_true]
      unfold evictWithStrategy
      simp only []
      rw [hs4]
      simp only []
      split
      next e stF heq =>
        have h3 := congrArg Prod.snd heq
        dsimp only [] at h3 ⊢
        rw [← h3, evictGreedy_events]
        dsimp only []
        rw [hev4]
        rfl
      next stF heq =>
        have h3 := congrArg Prod.snd heq
        dsimp only [] at h3 ⊢
        rw [← h3, evictGreedy_events]
        dsimp only []
        rw [hev4]
        rfl
    · rw [if_neg hf]
      simp only []
      rw [hct4, if_neg Bool.false_ne_true]
      unfold evictWithStrategy
      simp only []
      rw [hs4]
      simp only []
      split
      next e stF heq =>
        have h3 := congrArg Prod.snd heq
        dsimp only [] at h3 ⊢
        rw [← h3, evictGreedy_events]
        dsimp only []
        rw [hev4]
        rfl
      next stF heq =>
        have h3 := congrArg Prod.snd heq
        dsimp only [] at h3 ⊢
        rw [← h3, evictGreedy_events]
        dsimp only []
        rw [hev4]
        rfl
  · have hkeys : (bid : Int) ∈ pmKeys st.posMap := by
      rw [← pmGet_isSome_iff, hpm0]
      rfl
    obtain ⟨b0, hb0mem, hb0id⟩ := List.mem_map.mp (hwf.idsPerm.mem_iff.mp hkeys)
    have hleafO : leafO = b0.leaf := by
      have hx := hwf.leafCons b0 hb0mem
      rw [hb0id, hpm0] at hx
      exact Option.some_inj.mp hx
    have hr0 := hwf.leafRange b0 hb0mem
    have hlOlt : leafO.toNat < st.numLeaves := by
      rw [hleafO]
      omega
    rw [access_eq_some st bid nd hpm0]
    simp only []
    set leafNew := st.tape st.ctr % st.numLeaves with hLN
    set st3 : ORAM := { st with
      ctr := st.ctr + 1,
      posMap := pmSet st.posMap (bid : Int) ((leafNew : Nat) : Int) } with hst3
    set path := pathOf st3 leafO.toNat with hpathd
    set st4 := readPathIntoStash st3 path with hst4
    refine ⟨leafO.toNat, hlOlt, ?_⟩
    obtain ⟨hctc, hstc⟩ := readPathIntoStash_cfg path st3
    have hct4 : st4.constantTime = false := by
      have hx : st4.constantTime = st3.constantTime := hctc
      rw [hx]
      exact hct
    have hs4 : st4.strategy = Strategy.greedyByDepth := by
      have hx : st4.strategy = st3.strategy := hstc
      rw [hx]
      exact hstrat
    have hev4 : st4.events = st3.events ++
        path.flatMap (fun i => [Ev.readB i, Ev.writeB i]) :=
      readPathIntoStash_events path st3
    by_cases hf : (if st4.constantTime then findInStashCT st4 (bid : Int)
        else findInStash st4.stash (bid : Int)).1 = -1
    · rw [if_pos hf]
      simp only []
      rw [hct4, if_neg Bool.false_ne_true]
      unfold evictWithStrategy
      simp only []
      rw [hs4]
      simp only []
      split
      next e stF heq =>
        have h3 := congrArg Prod.snd heq
        dsimp only [] at h3 ⊢
        rw [← h3, evictGreedy_events]
        dsimp only []
        rw [hev4]
        rfl
      next stF heq =>
        have h3 := congrArg Prod.snd heq
        dsimp only [] at h3 ⊢
        rw [← h3, evictGreedy_events]
        dsimp only []
        rw [hev4]
        rfl
    · rw [if_neg hf]
      simp only []
      rw [hct4, if_neg Bool.false_ne_true]
      unfold evictWithStrategy
      simp only []
      rw [hs4]
      simp only []
      split
      next e stF heq =>
        have h3 := congrArg Prod.snd heq
        dsimp only [] at h3 ⊢
        rw [← h3, evictGreedy_events]
        dsimp only []
        rw [hev4]
        rfl
      next stF heq =>
        have h3 := congrArg Prod.snd heq
        dsimp only [] at h3 ⊢
        rw [← h3, evictGreedy_events]
        dsimp only []
        rw [hev4]
        rfl

theorem readPathIntoStash_geom (p : List Nat) : ∀ st : ORAM,
    (readPathIntoStash st p).numLeaves = st.numLeaves ∧
    (readPathIntoStash st p).height = st.height := by
  induction p with
  | nil =>
    intro st
    exact ⟨rfl, rfl⟩
  | cons j rest ih =>
    intro st
    obtain ⟨h1, h2⟩ := ih (readBucketIntoStash st j)
    constructor
    · show (readPathIntoStash (readBucketIntoStash st j) rest).numLeaves = _
      rw [h1]
      simp [readBucketIntoStash_def]
    · show (readPathIntoStash (readBucketIntoStash st j) rest).height = _
      rw [h2]
      simp [readBucketIntoStash_def]

theorem evictGreedy_cfg (st : ORAM) (p : List Nat) :
    (evictGreedy st p).2.numLeaves = st.numLeaves ∧
    (evictGreedy st p).2.height = st.height := by
  unfold evictGreedy
  rw [readBuckets_eq]
  simp only []
  generalize hr : greedyLoop st.numLeaves p (st.stash.length + 1)
    (p.map (fun i => st.tree.getD i [])) st.stash 0 = r
  set stR : ORAM := { st with
    events := st.events ++ p.map Ev.readB, stash := r.2 } with hstR
  have hw := writeBuckets_stash p stR r.1
  by_cases hov : (writeBuckets stR p r.1).stash.length > (writeBuckets stR p r.1).stashLimit
  · rw [if_pos hov]
    exact ⟨hw.2.2.2.2.2.2.2.2.2.1, hw.2.2.2.2.2.2.2.2.1⟩
  · rw [if_neg hov]
    exact ⟨hw.2.2.2.2.2.2.2.2.2.1, hw.2.2.2.2.2.2.2.2.1⟩

/-- One bucket of the level-by-level eviction, seen by the bucket
store: always a read, then a write-back exactly when the bucket was
modified. -/
theorem evictLevelBucket_events (st : ORAM) (bIdx : Nat) :
    ∃ m : Bool, (evictLevelBucket st bIdx).events =
      st.events ++ (Ev.readB bIdx :: if m then [Ev.writeB bIdx] else []) := by
  unfold evictLevelBucket readBucket
  simp only
  generalize hr : (List.range st.bucketSize).foldl (levelStep st.numLeaves bIdx)
    (st.tree.getD bIdx [], st.stash, false) = r
  rcases hmod : r.2.2 with _ | _
  · refine ⟨false, ?_⟩
    rw [if_neg (by simp)]
    simp
  · refine ⟨true, ?_⟩
    rw [if_pos rfl]
    unfold writeBucket
    simp

/-- The level-by-level eviction pass, seen by the bucket store: one
read per path bucket in path order, each followed by an optional
write-back of that same bucket. -/
theorem evictLevelFold_events (p : List Nat) :
    ∀ st : ORAM, ∃ flags : List Bool, flags.length = p.length ∧
    (p.foldl evictLevelBucket st).events = st.events ++
      (p.zip flags).flatMap
        (fun q => Ev.readB q.1 :: if q.2 then [Ev.writeB q.1] else []) := by
  induction p with
  | nil =>
    intro st
    exact ⟨[], rfl, by simp⟩
  | cons j rest ih =>
    intro st
    obtain ⟨m, hm⟩ := evictLevelBucket_events st j
    obtain ⟨flags, hflen, hfev⟩ := ih (evictLevelBucket st j)
    refine ⟨m :: flags, by simp [hflen], ?_⟩
    show (rest.foldl evictLevelBucket (evictLevelBucket st j)).events = _
    rw [hfev, hm]
    simp [List.append_assoc]

theorem evictLevel_events (st : ORAM) (p : List Nat) :
    ∃ flags : List Bool, flags.length = p.length ∧
    (evictLevel st p).2.events = st.events ++
      (p.zip flags).flatMap
        (fun q => Ev.readB q.1 :: if q.2 then [Ev.writeB q.1] else []) := by
  obtain ⟨flags, h1, h2⟩ := evictLevelFold_events p st
  refine ⟨flags, h1, ?_⟩
  unfold evictLevel
  simp only
  by_cases hov : (p.foldl evictLevelBucket st).stash.length >
      (p.foldl evictLevelBucket st).stashLimit
  · rw [if_pos hov]
    exact h2
  · rw [if_neg hov]
    exact h2

/-- The two branches of the deterministic two-path dispatch: a failing
first greedy eviction aborts; a successful one is followed by a drain
and a greedy eviction of a freshly drawn second path. -/
theorem evictWithStrategy_twoPath (st : ORAM) (p : List Nat)
    (hs : st.strategy = .deterministicTwoPath) :
    (∀ e stA, evictGreedy st p = (some e, stA) →
      evictWithStrategy st p = (some e, stA)) ∧
    (∀ stA, evictGreedy st p = (none, stA) →
      evictWithStrategy st p =
        evictGreedy
          (readPathIntoStash { stA with ctr := stA.ctr + 1 }
            (pathOf stA (stA.tape stA.ctr % stA.numLeaves)))
          (pathOf stA (stA.tape stA.ctr % stA.numLeaves))) := by
  constructor
  · intro e stA h
    unfold evictWithStrategy
    rw [hs]
    simp only []
    rw [h]
  · intro stA h
    unfold evictWithStrategy
    rw [hs]
    simp only []
    rw [h]
    rfl

/-- Reduction of one post-validation `access` to its eviction step: a
path (of a leaf below `numLeaves`) is drained, and the final result and
state are exactly those of the configured eviction (constant-time or
strategy dispatch) run from the post-serve state `st5`, whose event
trace extends the input's by the drain trace of that path and whose
configuration matches the input's. -/
theorem access_evict_reduce (st : ORAM) (bid : Nat) (nd : Option (List Nat))
    (hwf : WF st) (hlen : ∀ d, nd = some d → d.length = st.blockSize) :
    ∃ (leaf : Nat) (st5 : ORAM) (res : List Nat),
      leaf < st.numLeaves ∧
      st5.events = st.events
        ++ (pathOf st leaf).flatMap (fun i => [Ev.readB i, Ev.writeB i]) ∧
      st5.strategy = st.strategy ∧
      st5.constantTime = st.constantTime ∧
      st5.numLeaves = st.numLeaves ∧
      st5.height = st.height ∧
      (∀ e st6, (if st5.constantTime = true then evictCT st5 (pathOf st leaf)
          else evictWithStrategy st5 (pathOf st leaf)) = (some e, st6) →
        access st bid nd = (Except.error e, st6)) ∧
      (∀ st6, (if st5.constantTime = true then evictCT st5 (pathOf st leaf)
          else evictWithStrategy st5 (pathOf st leaf)) = (none, st6) →
        access st bid nd = (Except.ok res, st6)) := by
  have hnl1 : 1 ≤ st.numLeaves := by
    rw [hwf.geom.hnl]
    exact Nat.one_le_two_pow
  rcases hpm0 : pmGet st.posMap (bid : Int) with _ | leafO
  · -- the id holds no live block: a fresh block is appended
    have habs : ∀ b ∈ allBlocks st, b.id ≠ (bid : Int) := by
      intro b hb hc
      have hkeys : (bid : Int) ∉ pmKeys st.posMap := pmGet_eq_none_iff.mp hpm0
      apply hkeys
      apply hwf.idsPerm.mem_iff.mpr
      rw [← hc]
      exact List.mem_map.mpr ⟨b, hb, rfl⟩
    rw [access_eq_none st bid nd hpm0]
    simp only []
    set leafOld := st.tape st.ctr % st.numLeaves with hLO
    set leafNew := st.tape (st.ctr + 1) % st.numLeaves with hLN
    have hlOlt : leafOld < st.numLeaves := Nat.mod_lt _ hnl1
    set st3 : ORAM := { st with
      ctr := st.ctr + 1 + 1,
      posMap := pmSet st.posMap (bid : Int) ((leafNew : Nat) : Int) } with hst3
    have h3pm : st3.posMap = pmSet st.posMap (bid : Int) ((leafNew : Nat) : Int) := rfl
    have h3all : allBlocks st3 = allBlocks st := rfl
    have hg3 : Geom st3 := ⟨hwf.geom.hh, hwf.geom.hnl, hwf.geom.htree, hwf.geom.hZ⟩
    set path := pathOf st3 leafOld with hpathd
    obtain ⟨hpnd, hplt⟩ := pathOf_ok st3 hg3 (show leafOld < st3.numLeaves from hlOlt)
    set st4 := readPathIntoStash st3 path with hst4
    have h34 : StepOK st3 st4 := readPathIntoStash_StepOK path st3 hplt
    obtain ⟨hctc, hstc⟩ := readPathIntoStash_cfg path st3
    obtain ⟨hnlc, hhtc⟩ := readPathIntoStash_geom path st3
    have hev4 : st4.events = st3.events ++
        path.flatMap (fun i => [Ev.readB i, Ev.writeB i]) :=
      readPathIntoStash_events path st3
    have habs4 : ∀ b ∈ allBlocks st4, b.id ≠ (bid : Int) := by
      intro b hb
      exact habs b (by
        rw [← h3all]
        exact h34.blocksPerm.mem_iff.mp hb)
    have habs4s : ∀ b ∈ st4.stash, b.id ≠ (bid : Int) := fun b hb =>
      habs4 b (List.mem_append_left _ hb)
    set found := (if st4.constantTime then findInStashCT st4 (bid : Int)
      else findInStash st4.stash (bid : Int)) with hfd
    have hf1 : found.1 = -1 := by
      rw [hfd]
      cases hct : st4.constantTime with
      | false =>
        rw [if_neg Bool.false_ne_true]
        rw [findInStash_not_found habs4s]
      | true =>
        rw [if_pos rfl]
        show (findCTAux (bid : Int) st4.stash 0
          (-1, List.replicate st4.blockSize 0)).1 = -1
        rw [findCTAux_skip st4.stash 0 _ habs4s]
    rw [if_pos hf1]
    simp only []
    have hnew4 : (pmGet st4.posMap (bid : Int)).getD 0 = ((leafNew : Nat) : Int) := by
      rw [h34.pm, h3pm, pmSet_get_self]
      rfl
    have h4bs : st4.blockSize = st.blockSize := h34.cfg.2.1
    rw [hnew4]
    rcases nd with _ | d
    · -- read: the fresh block holds zero bytes
      simp only []
      set st5 : ORAM := { st4 with stash := st4.stash ++
        [⟨(bid : Int), ((leafNew : Nat) : Int), List.replicate st4.blockSize 0⟩] } with hst5
      rcases hEV : (if st4.constantTime = true then evictCT st5 path
        else evictWithStrategy st5 path) with ⟨eo, st6⟩
      refine ⟨leafOld, st5, (List.replicate st4.blockSize 0), hlOlt, hev4, hstc, hctc, hnlc, hhtc, ?_, ?_⟩
      · intro e' st6' hE'
        have hE2 : (if st4.constantTime = true then evictCT st5 path
            else evictWithStrategy st5 path) = (some e', st6') := hE'
        rw [hEV] at hE2
        injection hE2 with h1 h2
        subst h2
        rw [h1]
      · intro st6' hE'
        have hE2 : (if st4.constantTime = true then evictCT st5 path
            else evictWithStrategy st5 path) = (none, st6') := hE'
        rw [hEV] at hE2
        injection hE2 with h1 h2
        subst h2
        rw [h1]
    · -- write: the fresh block holds the given payload
      simp only []
      have hcb : copyBytes (List.replicate st4.blockSize 0) d = d :=
        copyBytes_eq_of_length_eq _ _ (by rw [List.length_replicate, h4bs, hlen d rfl])
      rw [hcb]
      set st5 : ORAM := { st4 with stash := st4.stash ++
        [⟨(bid : Int), ((leafNew : Nat) : Int), d⟩] } with hst5
      rcases hEV : (if st4.constantTime = true then evictCT st5 path
        else evictWithStrategy st5 path) with ⟨eo, st6⟩
      refine ⟨leafOld, st5, (List.replicate st4.blockSize 0), hlOlt, hev4, hstc, hctc, hnlc, hhtc, ?_, ?_⟩
      · intro e' st6' hE'
        have hE2 : (if st4.constantTime = true then evictCT st5 path
            else evictWithStrategy st5 path) = (some e', st6') := hE'
        rw [hEV] at hE2
        injection hE2 with h1 h2
        subst h2
        rw [h1]
      · intro st6' hE'
        have hE2 : (if st4.constantTime = true then evictCT st5 path
            else evictWithStrategy st5 path) = (none, st6') := hE'
        rw [hEV] at hE2
        injection hE2 with h1 h2
        subst h2
        rw [h1]
  · -- the id holds a live block: it is found in the stash and updated
    have hkeys : (bid : Int) ∈ pmKeys st.posMap := by
      rw [← pmGet_isSome_iff, hpm0]
      rfl
    obtain ⟨b0, hb0mem, hb0id⟩ := List.mem_map.mp (hwf.idsPerm.mem_iff.mp hkeys)
    have hleafO : leafO = b0.leaf := by
      have hx := hwf.leafCons b0 hb0mem
      rw [hb0id, hpm0] at hx
      exact Option.some_inj.mp hx
    have hr0 := hwf.leafRange b0 hb0mem
    have hlOlt : leafO.toNat < st.numLeaves := by
      rw [hleafO]
      omega
    rw [access_eq_some st bid nd hpm0]
    simp only []
    set leafNew := st.tape st.ctr % st.numLeaves with hLN
    have hlNlt : leafNew < st.numLeaves := Nat.mod_lt _ hnl1
    set st3 : ORAM := { st with
      ctr := st.ctr + 1,
      posMap := pmSet st.posMap (bid : Int) ((leafNew : Nat) : Int) } with hst3
    have h3pm : st3.posMap = pmSet st.posMap (bid : Int) ((leafNew : Nat) : Int) := rfl
    have h3all : allBlocks st3 = allBlocks st := rfl
    have hg3 : Geom st3 := ⟨hwf.geom.hh, hwf.geom.hnl, hwf.geom.htree, hwf.geom.hZ⟩
    set path := pathOf st3 leafO.toNat with hpathd
    obtain ⟨hpnd, hplt⟩ := pathOf_ok st3 hg3 (show leafO.toNat < st3.numLeaves from hlOlt)
    set st4 := readPathIntoStash st3 path with hst4
    have h34 : StepOK st3 st4 := readPathIntoStash_StepOK path st3 hplt
    obtain ⟨hctc, hstc⟩ := readPathIntoStash_cfg path st3
    obtain ⟨hnlc, hhtc⟩ := readPathIntoStash_geom path st3
    have hev4 : st4.events = st3.events ++
        path.flatMap (fun i => [Ev.readB i, Ev.writeB i]) :=
      readPathIntoStash_events path st3
    have hpre3 : PreWF st3 (bid : Int) ((leafNew : Nat) : Int) [] :=
      PreWF.intro_present st hwf _ _ (st.ctr + 1) (by rw [hpm0]; rfl)
        ⟨by exact_mod_cast Nat.zero_le leafNew, by exact_mod_cast hlNlt⟩
    have hpre4 : PreWF st4 (bid : Int) ((leafNew : Nat) : Int) [] :=
      hpre3.evolve h34
    have hb04 : b0 ∈ st4.stash := by
      rcases List.mem_append.mp hb0mem with hbs | hbt
      · obtain ⟨t, ht⟩ := readPathIntoStash_stash_ext path st3
        show b0 ∈ (readPathIntoStash st3 path).stash
        rw [ht]
        exact List.mem_append_left _ hbs
      · obtain ⟨i, hilt, hib⟩ := treeNE_mem_bucket hbt
        have hplace := hwf.placement i b0 hib
        have hmem := (canPlaceAt_iff_mem hwf.geom.hh hwf.geom.hnl b0.leaf
          hr0.1 hr0.2 i).mp hplace
        have hipath : i ∈ path := by
          show i ∈ pathOf st3 leafO.toNat
          unfold pathOf
          rw [hleafO]
          exact hmem
        exact readPathIntoStash_collects path st3 i hipath b0 hib
    have hnodup4 : ((allBlocks st4).map Blk.id).Nodup := by
      have hx := hpre4.keysNodup.perm hpre4.idsPerm
      simpa using hx
    have hnd4 : (st4.stash.map Blk.id).Nodup := by
      have hx : (st4.stash.map Blk.id ++ (treeNE st4.tree).map Blk.id).Nodup := by
        rw [← List.map_append]
        exact hnodup4
      exact hx.of_append_left
    set found := (if st4.constantTime then findInStashCT st4 (bid : Int)
      else findInStash st4.stash (bid : Int)) with hfd
    obtain ⟨k, hfk, hklt, hkb⟩ : ∃ k : Nat, found = (((k : Nat) : Int), b0.data) ∧
        k < st4.stash.length ∧ st4.stash.getD k default = b0 := by
      rw [hfd]
      cases hct : st4.constantTime with
      | false =>
        rw [if_neg Bool.false_ne_true]
        exact findInStash_found hnd4 hb04 hb0id
      | true =>
        rw [if_pos rfl]
        obtain ⟨k, hk, hklt, hkb⟩ := findCTAux_found st4.stash 0
          (-1, List.replicate st4.blockSize 0) hnd4 hb04 hb0id
        rw [Nat.zero_add] at hk
        exact ⟨k, hk, hklt, hkb⟩
    rw [hfk]
    have hkne : ¬((((k : Nat) : Int), b0.data).1 = -1) := by
      show ¬(((k : Nat) : Int) = -1)
      omega
    rw [if_neg hkne]
    simp only []
    rw [Int.toNat_ofNat]
    have hnew4 : (pmGet st4.posMap (bid : Int)).getD 0 = ((leafNew : Nat) : Int) := by
      rw [h34.pm, h3pm, pmSet_get_self]
      rfl
    rw [hnew4]
    rcases nd with _ | d
    · -- read: leaf refreshed, payload untouched
      simp only []
      set st5 : ORAM := { st4 with
        stash := List.modify (fun b => { b with leaf := ((leafNew : Nat) : Int), data := b.data }) k st4.stash } with hst5
      rcases hEV : (if st4.constantTime = true then evictCT st5 path
        else evictWithStrategy st5 path) with ⟨eo, st6⟩
      refine ⟨leafO.toNat, st5, b0.data, hlOlt, hev4, hstc, hctc, hnlc, hhtc, ?_, ?_⟩
      · intro e' st6' hE'
        have hE2 : (if st4.constantTime = true then evictCT st5 path
            else evictWithStrategy st5 path) = (some e', st6') := hE'
        rw [hEV] at hE2
        injection hE2 with h1 h2
        subst h2
        rw [h1]
      · intro st6' hE'
        have hE2 : (if st4.constantTime = true then evictCT st5 path
            else evictWithStrategy st5 path) = (none, st6') := hE'
        rw [hEV] at hE2
        injection hE2 with h1 h2
        subst h2
        rw [h1]
    · -- write: leaf refreshed, payload overwritten
      simp only []
      set st5 : ORAM := { st4 with
        stash := List.modify (fun b => { b with leaf := ((leafNew : Nat) : Int), data := copyBytes b.data d }) k st4.stash } with hst5
      rcases hEV : (if st4.constantTime = true then evictCT st5 path
        else evictWithStrategy st5 path) with ⟨eo, st6⟩
      refine ⟨leafO.toNat, st5, b0.data, hlOlt, hev4, hstc, hctc, hnlc, hhtc, ?_, ?_⟩
      · intro e' st6' hE'
        have hE2 : (if st4.constantTime = true then evictCT st5 path
            else evictWithStrategy st5 path) = (some e', st6') := hE'
        rw [hEV] at hE2
        injection hE2 with h1 h2
        subst h2
        rw [h1]
      · intro st6' hE'
        have hE2 : (if st4.constantTime = true then evictCT st5 path
            else evictWithStrategy st5 path) = (none, st6') := hE'
        rw [hEV] at hE2
        injection hE2 with h1 h2
        subst h2
        rw [h1]

/-- The bucket-store trace of one post-validation `access` under the
level-by-level strategy (constant-time off): the drained path gets a
read and a write-back per bucket leaf-first, then the eviction reads
every path bucket leaf-first, each read followed by a write-back of
that bucket exactly when it was modified. -/
theorem access_events_level (st : ORAM) (bid : Nat) (nd : Option (List Nat))
    (hwf : WF st) (hlen : ∀ d, nd = some d → d.length = st.blockSize)
    (hstrat : st.strategy = .levelByLevel) (hct : st.constantTime = false) :
    ∃ leaf : Nat, leaf < st.numLeaves ∧ ∃ flags : List Bool,
      flags.length = (pathOf st leaf).length ∧
      (access st bid nd).2.events = st.events
        ++ (pathOf st leaf).flatMap (fun i => [Ev.readB i, Ev.writeB i])
        ++ ((pathOf st leaf).zip flags).flatMap
            (fun q => Ev.readB q.1 :: if q.2 then [Ev.writeB q.1] else []) := by
  obtain ⟨leaf, st5, res, hlt, hev5, hstg, hctg, hnlg, hhtg, himpE, himpO⟩ :=
    access_evict_reduce st bid nd hwf hlen
  have hct5 : st5.constantTime = false := by
    rw [hctg]
    exact hct
  have hst5 : st5.strategy = Strategy.levelByLevel := by
    rw [hstg]
    exact hstrat
  have hEW : evictWithStrategy st5 (pathOf st leaf) =
      evictLevel st5 (pathOf st leaf) := by
    unfold evictWithStrategy
    rw [hst5]
  rcases hEV : evictLevel st5 (pathOf st leaf) with ⟨eo, st6⟩
  have hif : (if st5.constantTime = true then evictCT st5 (pathOf st leaf)
      else evictWithStrategy st5 (pathOf st leaf)) = (eo, st6) := by
    rw [hct5, if_neg Bool.false_ne_true, hEW]
    exact hEV
  have hacc2 : (access st bid nd).2 = st6 := by
    rcases eo with _ | e
    · exact congrArg Prod.snd (himpO st6 hif)
    · exact congrArg Prod.snd (himpE e st6 hif)
  obtain ⟨flags, hflen, hfev⟩ := evictLevel_events st5 (pathOf st leaf)
  rw [hEV] at hfev
  have hfev2 : st6.events = st5.events
      ++ ((pathOf st leaf).zip flags).flatMap
          (fun q => Ev.readB q.1 :: if q.2 then [Ev.writeB q.1] else []) := hfev
  refine ⟨leaf, hlt, flags, hflen, ?_⟩
  rw [hacc2, hfev2, hev5]

/-- The bucket-store trace of one post-validation `access` under the
deterministic two-path strategy (constant-time off): the accessed path
gets the drain trace and then the greedy trace (reads leaf-first, then
writes leaf-first); unless that first eviction already reported a stash
overflow, a second random path then gets its own drain trace and greedy
trace. -/
theorem access_events_twoPath (st : ORAM) (bid : Nat) (nd : Option (List Nat))
    (hwf : WF st) (hlen : ∀ d, nd = some d → d.length = st.blockSize)
    (hstrat : st.strategy = .deterministicTwoPath) (hct : st.constantTime = false) :
    ∃ leaf : Nat, leaf < st.numLeaves ∧
      (((access st bid nd).1 = .error .stashOverflow ∧
        (access st bid nd).2.events = st.events
          ++ (pathOf st leaf).flatMap (fun i => [Ev.readB i, Ev.writeB i])
          ++ (pathOf st leaf).map Ev.readB ++ (pathOf st leaf).map Ev.writeB) ∨
      (∃ leaf2 : Nat, leaf2 < st.numLeaves ∧
        (access st bid nd).2.events = st.events
          ++ (pathOf st leaf).flatMap (fun i => [Ev.readB i, Ev.writeB i])
          ++ (pathOf st leaf).map Ev.readB ++ (pathOf st leaf).map Ev.writeB
          ++ (pathOf st leaf2).flatMap (fun i => [Ev.readB i, Ev.writeB i])
          ++ (pathOf st leaf2).map Ev.readB ++ (pathOf st leaf2).map Ev.writeB)) := by
  have hnl1 : 1 ≤ st.numLeaves := by
    rw [hwf.geom.hnl]
    exact Nat.one_le_two_pow
  obtain ⟨leaf, st5, res, hlt, hev5, hstg, hctg, hnlg, hhtg, himpE, himpO⟩ :=
    access_evict_reduce st bid nd hwf hlen
  have hct5 : st5.constantTime = false := by
    rw [hctg]
    exact hct
  have hst5 : st5.strategy = Strategy.deterministicTwoPath := by
    rw [hstg]
    exact hstrat
  obtain ⟨himpA, himpB⟩ := evictWithStrategy_twoPath st5 (pathOf st leaf) hst5
  refine ⟨leaf, hlt, ?_⟩
  rcases hG1 : evictGreedy st5 (pathOf st leaf) with ⟨eo1, stA⟩
  obtain ⟨hnlA0, hhA0⟩ := evictGreedy_cfg st5 (pathOf st leaf)
  rw [hG1] at hnlA0 hhA0
  have hstAnl : stA.numLeaves = st.numLeaves := by
    have hx : stA.numLeaves = st5.numLeaves := hnlA0
    rw [hx]
    exact hnlg
  have hstAht : stA.height = st.height := by
    have hx : stA.height = st5.height := hhA0
    rw [hx]
    exact hhtg
  have hevA0 := evictGreedy_events st5 (pathOf st leaf)
  rw [hG1] at hevA0
  have hevA : stA.events = st5.events ++ (pathOf st leaf).map Ev.readB
      ++ (pathOf st leaf).map Ev.writeB := hevA0
  rcases eo1 with _ | e1
  · -- first eviction succeeded: drain and evict a second path
    right
    have hEW := himpB stA hG1
    have hauxlt : stA.tape stA.ctr % stA.numLeaves < st.numLeaves := by
      rw [← hstAnl]
      exact Nat.mod_lt _ (by omega)
    have hp2 : pathOf stA (stA.tape stA.ctr % stA.numLeaves) =
        pathOf st (stA.tape stA.ctr % stA.numLeaves) := by
      unfold pathOf
      rw [hstAnl, hstAht]
    have hC : (readPathIntoStash { stA with ctr := stA.ctr + 1 }
        (pathOf stA (stA.tape stA.ctr % stA.numLeaves))).events =
        stA.events ++ (pathOf stA (stA.tape stA.ctr % stA.numLeaves)).flatMap
          (fun i => [Ev.readB i, Ev.writeB i]) :=
      readPathIntoStash_events _ _
    rcases hG2 : evictGreedy (readPathIntoStash { stA with ctr := stA.ctr + 1 }
        (pathOf stA (stA.tape stA.ctr % stA.numLeaves)))
        (pathOf stA (stA.tape stA.ctr % stA.numLeaves)) with ⟨eo2, stD⟩
    have hevD0 := evictGreedy_events (readPathIntoStash { stA with ctr := stA.ctr + 1 }
        (pathOf stA (stA.tape stA.ctr % stA.numLeaves)))
        (pathOf stA (stA.tape stA.ctr % stA.numLeaves))
    rw [hG2] at hevD0
    have hevD : stD.events = (readPathIntoStash { stA with ctr := stA.ctr + 1 }
        (pathOf stA (stA.tape stA.ctr % stA.numLeaves))).events
        ++ (pathOf stA (stA.tape stA.ctr % stA.numLeaves)).map Ev.readB
        ++ (pathOf stA (stA.tape stA.ctr % stA.numLeaves)).map Ev.writeB := hevD0
    have hif : (if st5.constantTime = true then evictCT st5 (pathOf st leaf)
        else evictWithStrategy st5 (pathOf st leaf)) = (eo2, stD) := by
      rw [hct5, if_neg Bool.false_ne_true, hEW]
      exact hG2
    have hacc2 : (access st bid nd).2 = stD := by
      rcases eo2 with _ | e2
      · exact congrArg Prod.snd (himpO stD hif)
      · exact congrArg Prod.snd (himpE e2 stD hif)
    refine ⟨stA.tape stA.ctr % stA.numLeaves, hauxlt, ?_⟩
    rw [hacc2, hevD, hC, hevA, hev5, hp2]
  · -- first eviction overflowed: the access aborts with that error
    left
    have hEW := himpA e1 stA hG1
    have hif : (if st5.constantTime = true then evictCT st5 (pathOf st leaf)
        else evictWithStrategy st5 (pathOf st leaf)) = (some e1, stA) := by
      rw [hct5, if_neg Bool.false_ne_true]
      exact hEW
    have hacc := himpE e1 stA hif
    obtain ⟨hesh, _⟩ := evictGreedy_err st5 (pathOf st leaf)
      (show (evictGreedy st5 (pathOf st leaf)).1 = some e1 by rw [hG1])
    constructor
    · rw [hacc, hesh]
    · have hacc2 : (access st bid nd).2 = stA := congrArg Prod.snd hacc
      rw [hacc2, hevA, hev5]

/-! ## The claims -/

/-- A successful access is guaranteed whenever the position map (one
entry per live block) fits under the stash limit with one entry to
spare: the stash can never outgrow the live-block count. -/
theorem access_no_overflow (st : ORAM) (bid : Nat) (nd : Option (List Nat))
    (hwf : WF st) (hlen : ∀ d, nd = some d → d.length = st.blockSize)
    (hcap : st.posMap.length + 1 ≤ st.stashLimit) :
    (access st bid nd).1 = .ok (prevOf st (bid : Int)) := by
  obtain ⟨hwf1, hcfg, hres, _, _, _, _, hlen1⟩ := access_spec st bid nd hwf hlen
  rcases hres with hok | ⟨herr, hov⟩
  · exact hok
  · exfalso
    have h1 : (access st bid nd).2.stash.length ≤ (access st bid nd).2.posMap.length :=
      hwf1.stash_le
    have h2 : (access st bid nd).2.posMap.length ≤ st.posMap.length + 1 := by
      rw [hlen1]
      by_cases hc : (pmGet st.posMap (bid : Int)).isSome = true
      · rw [if_pos hc]
        omega
      · rw [if_neg hc]
    omega

/-- C1: write-then-read round trip.  From any well-formed state — any
eviction strategy, constant-time mode on or off — writing a valid
payload to a valid id and reading the id back returns that payload,
provided the stash limit leaves room for one more live block (so that
neither access reports a stash overflow). -/
theorem C1_round_trip (st : ORAM) (id : Int) (d : List Nat) (hwf : WF st)
    (h0 : 0 ≤ id) (hN : id < (st.numBlocks : Int)) (hd : d.length = st.blockSize)
    (hcap : st.posMap.length + 1 ≤ st.stashLimit) :
    (Read (Write st id d).2 id).1 = .ok d := by
  rw [Write_eq st id d h0 hN hd]
  have hlenW : ∀ d', (some d : Option (List Nat)) = some d' → d'.length = st.blockSize := by
    intro d' hd'
    injection hd' with h
    rw [← h]
    exact hd
  obtain ⟨hwf1, hcfg1, _, hdata1, _, hpm1, _, hlen1⟩ :=
    access_spec st id.toNat (some d) hwf hlenW
  have hidc : ((id.toNat : Nat) : Int) = id := Int.toNat_of_nonneg h0
  have hdata1' : dataOf (access st id.toNat (some d)).2 id = some d := by
    rw [← hidc]
    exact hdata1
  have hN1 : id < ((access st id.toNat (some d)).2.numBlocks : Int) := by
    rw [hcfg1.1]
    exact hN
  rw [Read_eq _ id h0 hN1]
  set st1 := (access st id.toNat (some d)).2 with hst1
  have hlenR : ∀ d', (none : Option (List Nat)) = some d' → d'.length = st1.blockSize := by
    intro d' hd'
    exact Option.noConfusion hd'
  obtain ⟨hwf2, hcfg2, hres2, _, _, _, _, hlen2⟩ := access_spec st1 id.toNat none hwf1 hlenR
  rcases hres2 with hok | ⟨herr, hov⟩
  · rw [hok]
    have hpv : prevOf st1 ((id.toNat : Nat) : Int) = d := by
      unfold prevOf
      rw [hidc, hdata1']
      rfl
    rw [hpv]
  · exfalso
    have hsome1 : (pmGet st1.posMap ((id.toNat : Nat) : Int)).isSome = true := by
      obtain ⟨lf, _, hlf⟩ := hpm1
      rw [hlf]
      rfl
    have hstle : (access st1 id.toNat none).2.stash.length ≤
        (access st1 id.toNat none).2.posMap.length := hwf2.stash_le
    have hpm2 : (access st1 id.toNat none).2.posMap.length = st1.posMap.length := by
      rw [hlen2, if_pos hsome1]
    have hpm1b : st1.posMap.length ≤ st.posMap.length + 1 := by
      rw [hlen1]
      by_cases hc : (pmGet st.posMap ((id.toNat : Nat) : Int)).isSome = true
      · rw [if_pos hc]
        omega
      · rw [if_neg hc]
    have hsl : st1.stashLimit = st.stashLimit := hcfg1.2.2.2.1
    omega

/-- C1 witness: the round trip at id 0 with payload `[5]` on a fresh
two-block engine, one instance per eviction strategy. -/
theorem C1_round_trip_witness :
    (Read (Write (⟨2, 1, 1, 100, Strategy.levelByLevel, false, 2, 2, [], [], List.replicate 3 (List.replicate 1 ⟨-1, -1, [0]⟩), [], mkTape [], 0⟩ : ORAM) 0 [5]).2 0).1 = .ok [5] ∧
    (Read (Write (⟨2, 1, 1, 100, Strategy.greedyByDepth, false, 2, 2, [], [], List.replicate 3 (List.replicate 1 ⟨-1, -1, [0]⟩), [], mkTape [], 0⟩ : ORAM) 0 [5]).2 0).1 = .ok [5] ∧
    (Read (Write (⟨2, 1, 1, 100, Strategy.deterministicTwoPath, false, 2, 2, [], [], List.replicate 3 (List.replicate 1 ⟨-1, -1, [0]⟩), [], mkTape [], 0⟩ : ORAM) 0 [5]).2 0).1 = .ok [5] := by
  refine ⟨?_, ?_, ?_⟩
  · exact C1_round_trip _ 0 [5]
      (@newInMemory_WF ⟨2, 1, 1, 100, Strategy.levelByLevel, false⟩ (mkTape []) _ rfl)
      (by decide) (by decide) (by decide) (by decide)
  · exact C1_round_trip _ 0 [5]
      (@newInMemory_WF ⟨2, 1, 1, 100, Strategy.greedyByDepth, false⟩ (mkTape []) _ rfl)
      (by decide) (by decide) (by decide) (by decide)
  · exact C1_round_trip _ 0 [5]
      (@newInMemory_WF ⟨2, 1, 1, 100, Strategy.deterministicTwoPath, false⟩ (mkTape []) _ rfl)
      (by decide) (by decide) (by decide) (by decide)

/-- C2: previous-value semantics of write.  A valid write returns the
payload the id held when the access began (`prevOf`: the stored bytes,
or all zeros for an id never seen), and only after that snapshot stores
the supplied payload; the capacity hypothesis rules the overflow error
out. -/
theorem C2_previous_value (st : ORAM) (id : Int) (d : List Nat) (hwf : WF st)
    (h0 : 0 ≤ id) (hN : id < (st.numBlocks : Int)) (hd : d.length = st.blockSize)
    (hcap : st.posMap.length + 1 ≤ st.stashLimit) :
    (Write st id d).1 = .ok (prevOf st id) ∧
    dataOf (Write st id d).2 id = some d := by
  rw [Write_eq st id d h0 hN hd]
  have hidc : ((id.toNat : Nat) : Int) = id := Int.toNat_of_nonneg h0
  have hlenW : ∀ d', (some d : Option (List Nat)) = some d' → d'.length = st.blockSize := by
    intro d' hd'
    injection hd' with h
    rw [← h]
    exact hd
  constructor
  · have hok := access_no_overflow st id.toNat (some d) hwf hlenW hcap
    rw [hok, hidc]
  · obtain ⟨_, _, _, hdata1, _, _, _, _⟩ := access_spec st id.toNat (some d) hwf hlenW
    rw [← hidc]
    exact hdata1

/-- C2 witness: on a fresh engine the first write of `[5]` to id 0
returns the zero block and stores `[5]`. -/
theorem C2_previous_value_witness :
    (Write (⟨2, 1, 1, 100, Strategy.levelByLevel, false, 2, 2, [], [], List.replicate 3 (List.replicate 1 ⟨-1, -1, [0]⟩), [], mkTape [], 0⟩ : ORAM) 0 [5]).1 = .ok (prevOf (⟨2, 1, 1, 100, Strategy.levelByLevel, false, 2, 2, [], [], List.replicate 3 (List.replicate 1 ⟨-1, -1, [0]⟩), [], mkTape [], 0⟩ : ORAM) 0) ∧
    dataOf (Write (⟨2, 1, 1, 100, Strategy.levelByLevel, false, 2, 2, [], [], List.replicate 3 (List.replicate 1 ⟨-1, -1, [0]⟩), [], mkTape [], 0⟩ : ORAM) 0 [5]).2 0 = some [5] :=
  C2_previous_value _ 0 [5]
    (@newInMemory_WF ⟨2, 1, 1, 100, Strategy.levelByLevel, false⟩ (mkTape []) _ rfl)
    (by decide) (by decide) (by decide) (by decide)

/-- C7: fresh read.  Reading a valid id the position map has never
seen succeeds (under the capacity hypothesis), returns exactly
`blockSize` zero bytes, and creates a position-map entry: `Size` grows
by one. -/
theorem C7_fresh_read (st : ORAM) (id : Int) (hwf : WF st)
    (h0 : 0 ≤ id) (hN : id < (st.numBlocks : Int))
    (hfresh : pmGet st.posMap id = none)
    (hcap : st.posMap.length + 1 ≤ st.stashLimit) :
    (Read st id).1 = .ok (List.replicate st.blockSize 0) ∧
    (pmGet (Read st id).2.posMap id).isSome = true ∧
    size (Read st id).2 = size st + 1 := by
  rw [Read_eq st id h0 hN]
  have hidc : ((id.toNat : Nat) : Int) = id := Int.toNat_of_nonneg h0
  have hfresh' : pmGet st.posMap ((id.toNat : Nat) : Int) = none := by
    rw [hidc]
    exact hfresh
  have hdnone : dataOf st id = none := by
    rw [dataOf_none_iff]
    intro b hb hc
    have hkeys : (id : Int) ∉ pmKeys st.posMap := pmGet_eq_none_iff.mp hfresh
    apply hkeys
    apply hwf.idsPerm.mem_iff.mpr
    rw [← hc]
    exact List.mem_map.mpr ⟨b, hb, rfl⟩
  have hlenR : ∀ d', (none : Option (List Nat)) = some d' → d'.length = st.blockSize := by
    intro d' hd'
    exact Option.noConfusion hd'
  refine ⟨?_, ?_, ?_⟩
  · have hok := access_no_overflow st id.toNat none hwf hlenR hcap
    rw [hok]
    have hpv : prevOf st ((id.toNat : Nat) : Int) = List.replicate st.blockSize 0 := by
      unfold prevOf
      rw [hidc, hdnone]
      rfl
    rw [hpv]
  · obtain ⟨_, _, _, _, _, hpm6, _, _⟩ := access_spec st id.toNat none hwf hlenR
    obtain ⟨lf, _, hlf⟩ := hpm6
    rw [hidc] at hlf
    rw [hlf]
    rfl
  · obtain ⟨_, _, _, _, _, _, _, hlen8⟩ := access_spec st id.toNat none hwf hlenR
    show (access st id.toNat none).2.posMap.length = st.posMap.length + 1
    rw [hlen8, if_neg (by rw [hfresh']; simp)]

/-- C7 witness: reading the never-seen id 1 on a fresh one-byte-block
engine returns `[0]` and grows the position map from 0 to 1 entries. -/
theorem C7_fresh_read_witness :
    (Read (⟨2, 1, 1, 100, Strategy.greedyByDepth, false, 2, 2, [], [], List.replicate 3 (List.replicate 1 ⟨-1, -1, [0]⟩), [], mkTape [], 0⟩ : ORAM) 1).1 = .ok [0] ∧
    (pmGet (Read (⟨2, 1, 1, 100, Strategy.greedyByDepth, false, 2, 2, [], [], List.replicate 3 (List.replicate 1 ⟨-1, -1, [0]⟩), [], mkTape [], 0⟩ : ORAM) 1).2.posMap 1).isSome = true ∧
    size (Read (⟨2, 1, 1, 100, Strategy.greedyByDepth, false, 2, 2, [], [], List.replicate 3 (List.replicate 1 ⟨-1, -1, [0]⟩), [], mkTape [], 0⟩ : ORAM) 1).2 = 1 :=
  C7_fresh_read _ 1
    (@newInMemory_WF ⟨2, 1, 1, 100, Strategy.greedyByDepth, false⟩ (mkTape []) _ rfl)
    (by decide) (by decide) rfl (by decide)

/-- C10: a stash-overflow error from a write does not roll the access
back — the position map already holds the freshly drawn leaf for the
id and the stash already holds the new payload, so any later successful
read of the id returns the payload whose write failed. -/
theorem C10_overflow_write_applies (st : ORAM) (id : Int) (d : List Nat)
    (hwf : WF st) (h0 : 0 ≤ id) (hN : id < (st.numBlocks : Int))
    (hd : d.length = st.blockSize)
    (herr : (Write st id d).1 = .error .stashOverflow) :
    (pmGet (Write st id d).2.posMap id).isSome = true ∧
    dataOf (Write st id d).2 id = some d ∧
    (∀ v, (Read (Write st id d).2 id).1 = .ok v → v = d) := by
  rw [Write_eq st id d h0 hN hd]
  have hidc : ((id.toNat : Nat) : Int) = id := Int.toNat_of_nonneg h0
  have hlenW : ∀ d', (some d : Option (List Nat)) = some d' → d'.length = st.blockSize := by
    intro d' hd'
    injection hd' with h
    rw [← h]
    exact hd
  obtain ⟨hwf1, hcfg1, _, hdata1, _, hpm1, _, _⟩ :=
    access_spec st id.toNat (some d) hwf hlenW
  have hdata1' : dataOf (access st id.toNat (some d)).2 id = some d := by
    rw [← hidc]
    exact hdata1
  refine ⟨?_, hdata1', ?_⟩
  · obtain ⟨lf, _, hlf⟩ := hpm1
    rw [hidc] at hlf
    rw [hlf]
    rfl
  · intro v hv
    have hN1 : id < ((access st id.toNat (some d)).2.numBlocks : Int) := by
      rw [hcfg1.1]
      exact hN
    rw [Read_eq _ id h0 hN1] at hv
    obtain ⟨_, _, hres2, _, _, _, _, _⟩ :=
      access_spec (access st id.toNat (some d)).2 id.toNat none hwf1
        (fun d' hd' => Option.noConfusion hd')
    rcases hres2 with hok | ⟨herr2, _⟩
    · rw [hok] at hv
      injection hv with hv2
      rw [← hv2]
      unfold prevOf
      rw [hidc, hdata1']
      rfl
    · rw [herr2] at hv
      exact Except.noConfusion hv

/-- C10 witness: on a one-slot-per-bucket engine with stash limit 1 and
an all-zeros tape, four writes fill every id the path can hold; the
fifth write reports a stash overflow, yet its leaf and payload are in
place. -/
theorem C10_overflow_write_applies_witness :
    (pmGet (Write (runOps (⟨5, 1, 1, 1, Strategy.greedyByDepth, false, 3, 4, [], [], List.replicate 7 (List.replicate 1 ⟨-1, -1, [0]⟩), [], mkTape [], 0⟩ : ORAM) [((0 : Int), some [10]), ((1 : Int), some [11]), ((2 : Int), some [12]), ((3 : Int), some [13])]) 4 [14]).2.posMap 4).isSome = true ∧
    dataOf (Write (runOps (⟨5, 1, 1, 1, Strategy.greedyByDepth, false, 3, 4, [], [], List.replicate 7 (List.replicate 1 ⟨-1, -1, [0]⟩), [], mkTape [], 0⟩ : ORAM) [((0 : Int), some [10]), ((1 : Int), some [11]), ((2 : Int), some [12]), ((3 : Int), some [13])]) 4 [14]).2 4 = some [14] ∧
    (∀ v, (Read (Write (runOps (⟨5, 1, 1, 1, Strategy.greedyByDepth, false, 3, 4, [], [], List.replicate 7 (List.replicate 1 ⟨-1, -1, [0]⟩), [], mkTape [], 0⟩ : ORAM) [((0 : Int), some [10]), ((1 : Int), some [11]), ((2 : Int), some [12]), ((3 : Int), some [13])]) 4 [14]).2 4).1 = .ok v → v = [14]) :=
  C10_overflow_write_applies (runOps (⟨5, 1, 1, 1, Strategy.greedyByDepth, false, 3, 4, [], [], List.replicate 7 (List.replicate 1 ⟨-1, -1, [0]⟩), [], mkTape [], 0⟩ : ORAM) [((0 : Int), some [10]), ((1 : Int), some [11]), ((2 : Int), some [12]), ((3 : Int), some [13])]) 4 [14]
    (runOps_WF [((0 : Int), some [10]), ((1 : Int), some [11]), ((2 : Int), some [12]), ((3 : Int), some [13])] _
      (@newInMemory_WF ⟨5, 1, 1, 1, Strategy.greedyByDepth, false⟩ (mkTape []) _ rfl))
    (by decide) (by decide) (by decide) rfl

/-- C3 counterexample: on a fresh one-bucket engine a single read makes
the bucket store serve bucket 0 — the only bucket of its path — with
two reads and two writes, not exactly one of each: the path drain reads
and writes it, and the eviction reads and writes it again. -/
theorem C3_counterexample :
    (newInMemory ⟨1, 1, 1, 1, .greedyByDepth, false⟩ (mkTape [])).map
      (fun st => ((Read st 0).2.events.count (Ev.readB 0),
        (Read st 0).2.events.count (Ev.writeB 0), pathOf st 0)) =
      .ok (2, 2, [0]) := rfl

/-- C3 (amended): per logical access (read or write) with constant-time
mode off, the bucket store receives, for every bucket of the accessed
path, one read and one write from the path drain (leaf first,
interleaved); the eviction then adds, under greedy-by-depth, one more
read per path bucket leaf-first and one more write per path bucket
leaf-first (two reads and two writes per bucket in total); under
level-by-level, one more read per path bucket leaf-first, each followed
by a write-back of that bucket exactly when it was modified; and under
deterministic two-path, the greedy trace on the accessed path followed
— unless that eviction already reported a stash overflow — by a drain
trace and a greedy trace on a second randomly drawn path. -/
theorem C3_per_access_trace :
    (∀ (st : ORAM) (id : Int) (nd : Option (List Nat)),
      WF st → st.strategy = .greedyByDepth → st.constantTime = false →
      0 ≤ id → id < (st.numBlocks : Int) →
      (∀ d, nd = some d → d.length = st.blockSize) →
      ∃ leaf : Nat, leaf < st.numLeaves ∧
        (Access st id nd).2.events = st.events
          ++ (pathOf st leaf).flatMap (fun i => [Ev.readB i, Ev.writeB i])
          ++ (pathOf st leaf).map Ev.readB ++ (pathOf st leaf).map Ev.writeB) ∧
    (∀ (st : ORAM) (id : Int) (nd : Option (List Nat)),
      WF st → st.strategy = .levelByLevel → st.constantTime = false →
      0 ≤ id → id < (st.numBlocks : Int) →
      (∀ d, nd = some d → d.length = st.blockSize) →
      ∃ leaf : Nat, leaf < st.numLeaves ∧ ∃ flags : List Bool,
        flags.length = (pathOf st leaf).length ∧
        (Access st id nd).2.events = st.events
          ++ (pathOf st leaf).flatMap (fun i => [Ev.readB i, Ev.writeB i])
          ++ ((pathOf st leaf).zip flags).flatMap
              (fun q => Ev.readB q.1 :: if q.2 then [Ev.writeB q.1] else [])) ∧
    (∀ (st : ORAM) (id : Int) (nd : Option (List Nat)),
      WF st → st.strategy = .deterministicTwoPath → st.constantTime = false →
      0 ≤ id → id < (st.numBlocks : Int) →
      (∀ d, nd = some d → d.length = st.blockSize) →
      ∃ leaf : Nat, leaf < st.numLeaves ∧
        (((Access st id nd).1 = .error .stashOverflow ∧
          (Access st id nd).2.events = st.events
            ++ (pathOf st leaf).flatMap (fun i => [Ev.readB i, Ev.writeB i])
            ++ (pathOf st leaf).map Ev.readB ++ (pathOf st leaf).map Ev.writeB) ∨
        (∃ leaf2 : Nat, leaf2 < st.numLeaves ∧
          (Access st id nd).2.events = st.events
            ++ (pathOf st leaf).flatMap (fun i => [Ev.readB i, Ev.writeB i])
            ++ (pathOf st leaf).map Ev.readB ++ (pathOf st leaf).map Ev.writeB
            ++ (pathOf st leaf2).flatMap (fun i => [Ev.readB i, Ev.writeB i])
            ++ (pathOf st leaf2).map Ev.readB ++ (pathOf st leaf2).map Ev.writeB))) := by
  refine ⟨?_, ?_, ?_⟩
  · intro st id nd hwf hstrat hct h0 hN hlen
    rw [Access_eq st id nd h0 hN hlen]
    exact access_events_greedy st id.toNat nd hwf hstrat hct
  · intro st id nd hwf hstrat hct h0 hN hlen
    rw [Access_eq st id nd h0 hN hlen]
    exact access_events_level st id.toNat nd hwf hlen hstrat hct
  · intro st id nd hwf hstrat hct h0 hN hlen
    rw [Access_eq st id nd h0 hN hlen]
    exact access_events_twoPath st id.toNat nd hwf hlen hstrat hct

/-- C3 witness: the greedy trace shape at a fresh one-bucket greedy
engine on a single read. -/
theorem C3_per_access_trace_witness :
    ∃ leaf : Nat, leaf < (⟨1, 1, 1, 1, Strategy.greedyByDepth, false, 1, 1, [], [], List.replicate 1 (List.replicate 1 ⟨-1, -1, [0]⟩), [], mkTape [], 0⟩ : ORAM).numLeaves ∧
      (Access (⟨1, 1, 1, 1, Strategy.greedyByDepth, false, 1, 1, [], [], List.replicate 1 (List.replicate 1 ⟨-1, -1, [0]⟩), [], mkTape [], 0⟩ : ORAM) 0 none).2.events = (⟨1, 1, 1, 1, Strategy.greedyByDepth, false, 1, 1, [], [], List.replicate 1 (List.replicate 1 ⟨-1, -1, [0]⟩), [], mkTape [], 0⟩ : ORAM).events
        ++ (pathOf (⟨1, 1, 1, 1, Strategy.greedyByDepth, false, 1, 1, [], [], List.replicate 1 (List.replicate 1 ⟨-1, -1, [0]⟩), [], mkTape [], 0⟩ : ORAM) leaf).flatMap (fun i => [Ev.readB i, Ev.writeB i])
        ++ (pathOf (⟨1, 1, 1, 1, Strategy.greedyByDepth, false, 1, 1, [], [], List.replicate 1 (List.replicate 1 ⟨-1, -1, [0]⟩), [], mkTape [], 0⟩ : ORAM) leaf).map Ev.readB ++ (pathOf (⟨1, 1, 1, 1, Strategy.greedyByDepth, false, 1, 1, [], [], List.replicate 1 (List.replicate 1 ⟨-1, -1, [0]⟩), [], mkTape [], 0⟩ : ORAM) leaf).map Ev.writeB :=
  C3_per_access_trace.1 (⟨1, 1, 1, 1, Strategy.greedyByDepth, false, 1, 1, [], [], List.replicate 1 (List.replicate 1 ⟨-1, -1, [0]⟩), [], mkTape [], 0⟩ : ORAM) 0 none
    (@newInMemory_WF ⟨1, 1, 1, 1, Strategy.greedyByDepth, false⟩ (mkTape []) _ rfl)
    rfl rfl (by decide) (by decide) (fun d hd => Option.noConfusion hd)

/-- C4 counterexample: the same valid three-write workload on the same
configuration and the same random tape succeeds entirely with
constant-time mode off but reports a stash overflow on the third write
with constant-time mode on — the two modes do not produce the same
errors. -/
theorem C4_counterexample :
    (newInMemory ⟨5, 1, 1, 1, .deterministicTwoPath, false⟩
        (mkTape [2, 0, 2, 0, 2, 0])).map
      (fun st => runResults st [(0, some [1]), (1, some [2]), (2, some [3])]) =
      .ok [.ok [0], .ok [0], .ok [0]] ∧
    (newInMemory ⟨5, 1, 1, 1, .deterministicTwoPath, true⟩
        (mkTape [2, 0, 2, 0, 2, 0])).map
      (fun st => runResults st [(0, some [1]), (1, some [2]), (2, some [3])]) =
      .ok [.ok [0], .ok [0], .error .stashOverflow] :=
  ⟨rfl, rfl⟩

/-- C4 (amended): constant-time mode preserves the logical contract of
every access that returns a payload — two well-formed engines holding
the same logical contents (in particular a constant-time and a default
engine over the same workload so far) give, for the same valid access,
identical payloads whenever both succeed, and their logical contents
stay identical even when an access fails; only the error behaviour may
diverge (see the counterexample). -/
theorem C4_logical_equivalence (stA stB : ORAM) (id : Int) (nd : Option (List Nat))
    (hwfA : WF stA) (hwfB : WF stB)
    (hbs : stA.blockSize = stB.blockSize) (hN : stA.numBlocks = stB.numBlocks)
    (hdata : ∀ j : Int, dataOf stA j = dataOf stB j) :
    (∀ vA vB, (Access stA id nd).1 = .ok vA → (Access stB id nd).1 = .ok vB →
      vA = vB) ∧
    WF (Access stA id nd).2 ∧ WF (Access stB id nd).2 ∧
    (Access stA id nd).2.blockSize = (Access stB id nd).2.blockSize ∧
    (Access stA id nd).2.numBlocks = (Access stB id nd).2.numBlocks ∧
    (∀ j : Int, dataOf (Access stA id nd).2 j = dataOf (Access stB id nd).2 j) := by
  by_cases h1 : id < 0 ∨ (stA.numBlocks : Int) ≤ id
  · have h1B : id < 0 ∨ (stB.numBlocks : Int) ≤ id := by
      rw [← hN]
      exact h1
    have hA : Access stA id nd = (.error .invalidBlockID, stA) := by
      unfold Access
      rw [if_pos h1]
    have hB : Access stB id nd = (.error .invalidBlockID, stB) := by
      unfold Access
      rw [if_pos h1B]
    rw [hA, hB]
    exact ⟨fun vA vB hvA _ => Except.noConfusion hvA, hwfA, hwfB, hbs, hN, hdata⟩
  · have h1B : ¬(id < 0 ∨ (stB.numBlocks : Int) ≤ id) := by
      rw [← hN]
      exact h1
    by_cases h2 : ∃ dd, nd = some dd ∧ dd.length ≠ stA.blockSize
    · obtain ⟨dd, hdd, hne⟩ := h2
      have hA : Access stA id nd = (.error .invalidDataSize, stA) := by
        unfold Access
        rw [if_neg h1, if_pos ⟨dd, hdd, hne⟩]
      have hB : Access stB id nd = (.error .invalidDataSize, stB) := by
        unfold Access
        rw [if_neg h1B, if_pos ⟨dd, hdd, by rw [← hbs]; exact hne⟩]
      rw [hA, hB]
      exact ⟨fun vA vB hvA _ => Except.noConfusion hvA, hwfA, hwfB, hbs, hN, hdata⟩
    · have h2B : ¬∃ dd, nd = some dd ∧ dd.length ≠ stB.blockSize := by
        rintro ⟨dd, hdd, hne⟩
        exact h2 ⟨dd, hdd, by rw [hbs]; exact hne⟩
      have hlenA : ∀ d', nd = some d' → d'.length = stA.blockSize := by
        intro d' hd'
        by_contra hne
        exact h2 ⟨d', hd', hne⟩
      have hlenB : ∀ d', nd = some d' → d'.length = stB.blockSize := by
        intro d' hd'
        rw [← hbs]
        exact hlenA d' hd'
      have hAe : Access stA id nd = access stA id.toNat nd := by
        unfold Access
        rw [if_neg h1, if_neg h2]
      have hBe : Access stB id nd = access stB id.toNat nd := by
        unfold Access
        rw [if_neg h1B, if_neg h2B]
      rw [hAe, hBe]
      obtain ⟨hwfA1, hcfgA, hresA, hdataA, hothA, _, _, _⟩ :=
        access_spec stA id.toNat nd hwfA hlenA
      obtain ⟨hwfB1, hcfgB, hresB, hdataB, hothB, _, _, _⟩ :=
        access_spec stB id.toNat nd hwfB hlenB
      have hprevEq : prevOf stA ((id.toNat : Nat) : Int) =
          prevOf stB ((id.toNat : Nat) : Int) := by
        unfold prevOf
        rw [hdata _, hbs]
      refine ⟨?_, hwfA1, hwfB1, ?_, ?_, ?_⟩
      · intro vA vB hvA hvB
        rcases hresA with hokA | ⟨herrA, _⟩
        · rcases hresB with hokB | ⟨herrB, _⟩
          · rw [hokA] at hvA
            rw [hokB] at hvB
            injection hvA with h1v
            injection hvB with h2v
            rw [← h1v, ← h2v, hprevEq]
          · rw [herrB] at hvB
            exact Except.noConfusion hvB
        · rw [herrA] at hvA
          exact Except.noConfusion hvA
      · rw [hcfgA.2.1, hcfgB.2.1]
        exact hbs
      · rw [hcfgA.1, hcfgB.1]
        exact hN
      · intro j
        by_cases hj : j = ((id.toNat : Nat) : Int)
        · rw [hj, hdataA, hdataB]
          rcases nd with _ | dd
          · rw [hprevEq]
          · rfl
        · rw [hothA j hj, hothB j hj]
          exact hdata j

/-- C4 witness: the logical equivalence at the counterexample's own
configuration, between the constant-time-off and constant-time-on fresh
engines, on the first write. -/
theorem C4_logical_equivalence_witness :
    (∀ vA vB, (Access (⟨5, 1, 1, 1, Strategy.deterministicTwoPath, false, 3, 4, [], [], List.replicate 7 (List.replicate 1 ⟨-1, -1, [0]⟩), [], mkTape [2, 0, 2, 0, 2, 0], 0⟩ : ORAM) 0 (some [1])).1 = .ok vA →
      (Access (⟨5, 1, 1, 1, Strategy.deterministicTwoPath, true, 3, 4, [], [], List.replicate 7 (List.replicate 1 ⟨-1, -1, [0]⟩), [], mkTape [2, 0, 2, 0, 2, 0], 0⟩ : ORAM) 0 (some [1])).1 = .ok vB → vA = vB) ∧
    WF (Access (⟨5, 1, 1, 1, Strategy.deterministicTwoPath, false, 3, 4, [], [], List.replicate 7 (List.replicate 1 ⟨-1, -1, [0]⟩), [], mkTape [2, 0, 2, 0, 2, 0], 0⟩ : ORAM) 0 (some [1])).2 ∧
    WF (Access (⟨5, 1, 1, 1, Strategy.deterministicTwoPath, true, 3, 4, [], [], List.replicate 7 (List.replicate 1 ⟨-1, -1, [0]⟩), [], mkTape [2, 0, 2, 0, 2, 0], 0⟩ : ORAM) 0 (some [1])).2 ∧
    (Access (⟨5, 1, 1, 1, Strategy.deterministicTwoPath, false, 3, 4, [], [], List.replicate 7 (List.replicate 1 ⟨-1, -1, [0]⟩), [], mkTape [2, 0, 2, 0, 2, 0], 0⟩ : ORAM) 0 (some [1])).2.blockSize =
      (Access (⟨5, 1, 1, 1, Strategy.deterministicTwoPath, true, 3, 4, [], [], List.replicate 7 (List.replicate 1 ⟨-1, -1, [0]⟩), [], mkTape [2, 0, 2, 0, 2, 0], 0⟩ : ORAM) 0 (some [1])).2.blockSize ∧
    (Access (⟨5, 1, 1, 1, Strategy.deterministicTwoPath, false, 3, 4, [], [], List.replicate 7 (List.replicate 1 ⟨-1, -1, [0]⟩), [], mkTape [2, 0, 2, 0, 2, 0], 0⟩ : ORAM) 0 (some [1])).2.numBlocks =
      (Access (⟨5, 1, 1, 1, Strategy.deterministicTwoPath, true, 3, 4, [], [], List.replicate 7 (List.replicate 1 ⟨-1, -1, [0]⟩), [], mkTape [2, 0, 2, 0, 2, 0], 0⟩ : ORAM) 0 (some [1])).2.numBlocks ∧
    (∀ j : Int, dataOf (Access (⟨5, 1, 1, 1, Strategy.deterministicTwoPath, false, 3, 4, [], [], List.replicate 7 (List.replicate 1 ⟨-1, -1, [0]⟩), [], mkTape [2, 0, 2, 0, 2, 0], 0⟩ : ORAM) 0 (some [1])).2 j =
      dataOf (Access (⟨5, 1, 1, 1, Strategy.deterministicTwoPath, true, 3, 4, [], [], List.replicate 7 (List.replicate 1 ⟨-1, -1, [0]⟩), [], mkTape [2, 0, 2, 0, 2, 0], 0⟩ : ORAM) 0 (some [1])).2 j) :=
  C4_logical_equivalence _ _ 0 (some [1])
    (@newInMemory_WF ⟨5, 1, 1, 1, Strategy.deterministicTwoPath, false⟩
      (mkTape [2, 0, 2, 0, 2, 0]) _ rfl)
    (@newInMemory_WF ⟨5, 1, 1, 1, Strategy.deterministicTwoPath, true⟩
      (mkTape [2, 0, 2, 0, 2, 0]) _ rfl)
    rfl rfl (fun j => rfl)

/-- C5: the placement invariant.  On any engine built by `NewInMemory`,
after any sequence of public accesses, every non-empty block sitting in
a tree bucket `i` lies on the leaf-to-root path of its own leaf — the
bucket is an ancestor of the block's leaf.  The stash is exempt. -/
theorem C5_placement_invariant (cfg : Config) (tape : Nat → Nat) (st0 : ORAM)
    (h0 : newInMemory cfg tape = .ok st0) (ops : List (Int × Option (List Nat)))
    (i : Nat) (b : Blk)
    (hb : b ∈ bucketNE ((runOps st0 ops).tree.getD i [])) :
    i ∈ pathOf (runOps st0 ops) b.leaf.toNat := by
  have hwf := runOps_WF ops st0 (newInMemory_WF h0)
  have hplc := hwf.placement i b hb
  have hi : i < (runOps st0 ops).tree.length := by
    by_contra hge
    have hnone : (runOps st0 ops).tree.getD i [] = [] := by
      rw [List.getD_eq_getElem?_getD, List.getElem?_eq_none (by omega)]
      rfl
    rw [hnone] at hb
    exact absurd hb (by simp [bucketNE])
  have hmem : b ∈ allBlocks (runOps st0 ops) :=
    List.mem_append_right _ (mem_treeNE_of_bucket hi hb)
  have hr := hwf.leafRange b hmem
  exact (canPlaceAt_iff_mem hwf.geom.hh hwf.geom.hnl b.leaf hr.1 hr.2 i).mp hplc

/-- C5 witness: after one write on a fresh two-block engine the written
block sits in bucket 1, the leaf bucket of its leaf 0, and bucket 1 is
on leaf 0's path. -/
theorem C5_placement_invariant_witness :
    1 ∈ pathOf (runOps (⟨2, 1, 1, 100, Strategy.greedyByDepth, false, 2, 2, [], [], List.replicate 3 (List.replicate 1 ⟨-1, -1, [0]⟩), [], mkTape [], 0⟩ : ORAM) [((0 : Int), some [7])]) 0 :=
  C5_placement_invariant ⟨2, 1, 1, 100, Strategy.greedyByDepth, false⟩ (mkTape []) _
    rfl [((0 : Int), some [7])] 1 ⟨0, 0, [7]⟩ (by decide)

/-- C6: uniqueness and count.  On any engine built by `NewInMemory`,
after any sequence of public accesses the position map has exactly one
entry per non-empty block of the stash-and-tree union, the ids of those
blocks are pairwise distinct, and so are the position-map keys. -/
theorem C6_unique_count (cfg : Config) (tape : Nat → Nat) (st0 : ORAM)
    (h0 : newInMemory cfg tape = .ok st0) (ops : List (Int × Option (List Nat))) :
    (runOps st0 ops).posMap.length = (allBlocks (runOps st0 ops)).length ∧
    ((allBlocks (runOps st0 ops)).map Blk.id).Nodup ∧
    (pmKeys (runOps st0 ops).posMap).Nodup := by
  have hwf := runOps_WF ops st0 (newInMemory_WF h0)
  exact ⟨hwf.count, hwf.idsNodup, hwf.keysNodup⟩

/-- C6 witness: the counts after two writes and a read on a fresh
two-block engine. -/
theorem C6_unique_count_witness :
    (runOps (⟨2, 1, 1, 100, Strategy.levelByLevel, false, 2, 2, [], [], List.replicate 3 (List.replicate 1 ⟨-1, -1, [0]⟩), [], mkTape [], 0⟩ : ORAM) [((0 : Int), some [7]), ((1 : Int), some [8]), ((0 : Int), none)]).posMap.length =
      (allBlocks (runOps (⟨2, 1, 1, 100, Strategy.levelByLevel, false, 2, 2, [], [], List.replicate 3 (List.replicate 1 ⟨-1, -1, [0]⟩), [], mkTape [], 0⟩ : ORAM)
        [((0 : Int), some [7]), ((1 : Int), some [8]), ((0 : Int), none)])).length ∧
    ((allBlocks (runOps (⟨2, 1, 1, 100, Strategy.levelByLevel, false, 2, 2, [], [], List.replicate 3 (List.replicate 1 ⟨-1, -1, [0]⟩), [], mkTape [], 0⟩ : ORAM)
      [((0 : Int), some [7]), ((1 : Int), some [8]), ((0 : Int), none)])).map Blk.id).Nodup ∧
    (pmKeys (runOps (⟨2, 1, 1, 100, Strategy.levelByLevel, false, 2, 2, [], [], List.replicate 3 (List.replicate 1 ⟨-1, -1, [0]⟩), [], mkTape [], 0⟩ : ORAM)
      [((0 : Int), some [7]), ((1 : Int), some [8]), ((0 : Int), none)]).posMap).Nodup :=
  C6_unique_count ⟨2, 1, 1, 100, Strategy.levelByLevel, false⟩ (mkTape []) _ rfl
    [((0 : Int), some [7]), ((1 : Int), some [8]), ((0 : Int), none)]

/-- C8: tree geometry.  `ComputeTreeParams` returns the smallest
positive height `h` with `2 ^ h - 1 ≥ ⌈numBlocks / bucketSize⌉`
(`(numBlocks + bucketSize - 1) / bucketSize` in the code), with
`2 ^ (h - 1)` leaves and `2 ^ h - 1` buckets; every path has `height`
bucket indices, leaf first with parent `(i - 1) / 2`; and on the
spec's `N = 7, Z = 1` instance the four paths are exactly
`[3,1,0]`, `[4,1,0]`, `[5,2,0]`, `[6,2,0]`. -/
theorem C8_tree_geometry :
    (∀ c : Config, ∀ h nl total : Nat, c.computeTreeParams = (h, nl, total) →
      1 ≤ h ∧ (c.numBlocks + c.bucketSize - 1) / c.bucketSize ≤ 2 ^ h - 1 ∧
      (∀ g, 1 ≤ g → (c.numBlocks + c.bucketSize - 1) / c.bucketSize ≤ 2 ^ g - 1 →
        h ≤ g) ∧
      nl = 2 ^ (h - 1) ∧ total = 2 ^ h - 1) ∧
    (∀ st : ORAM, ∀ leaf : Nat, (pathOf st leaf).length = st.height) ∧
    ((newInMemory ⟨7, 512, 1, 0, .levelByLevel, false⟩ (mkTape [])).map
      (fun st => (pathOf st 0, pathOf st 1, pathOf st 2, pathOf st 3)) =
      .ok ([3, 1, 0], [4, 1, 0], [5, 2, 0], [6, 2, 0])) := by
  refine ⟨?_, ?_, rfl⟩
  · intro c h nl total htp
    unfold Config.computeTreeParams at htp
    simp only [Prod.mk.injEq] at htp
    obtain ⟨hph, hpnl, hptot⟩ := htp
    have hfuel : (c.numBlocks + c.bucketSize - 1) / c.bucketSize ≤
        2 ^ (1 + (c.numBlocks + c.bucketSize - 1) / c.bucketSize) - 1 := by
      have h1 := Nat.lt_two_pow ((c.numBlocks + c.bucketSize - 1) / c.bucketSize)
      have h2 : 2 ^ ((c.numBlocks + c.bucketSize - 1) / c.bucketSize) ≤
          2 ^ (1 + (c.numBlocks + c.bucketSize - 1) / c.bucketSize) :=
        Nat.pow_le_pow_right (by omega) (by omega)
      omega
    obtain ⟨hge0, hbound0, hmin0⟩ := heightLoop_correct _ _ 1 hfuel
    refine ⟨?_, ?_, ?_, ?_, ?_⟩
    · rw [← hph]
      exact hge0
    · rw [← hph]
      exact hbound0
    · intro g hg hgb
      rw [← hph]
      exact hmin0 g hg hgb
    · rw [← hpnl, ← hph]
    · rw [← hptot, ← hph]
  · intro st leaf
    unfold pathOf
    exact pathAux_length _ _

/-- C8 witness: the geometry facts at the validated spec instance
`N = 7, Z = 1`: height 3 is least with `2 ^ h - 1 ≥ 7`, with 4 leaves
and 7 buckets. -/
theorem C8_tree_geometry_witness :
    1 ≤ 3 ∧ (7 + 1 - 1) / 1 ≤ 2 ^ 3 - 1 ∧
    (∀ g, 1 ≤ g → (7 + 1 - 1) / 1 ≤ 2 ^ g - 1 → 3 ≤ g) ∧
    (4 : Nat) = 2 ^ (3 - 1) ∧ (7 : Nat) = 2 ^ 3 - 1 :=
  C8_tree_geometry.1 ⟨7, 512, 1, 100, Strategy.levelByLevel, false⟩ 3 4 7 rfl

/-- C9: validation errors and atomicity.  `Access`, `Read` and `Write`
each reject `id = -1`, `id = N` and `id = N + k` (`k > 0`) with
`InvalidBlockID`, and a write (or write-carrying access) whose payload
length differs from the block size is rejected with `InvalidDataSize`;
in every case the returned state is the unchanged input state —
position map, stash and bucket store untouched. -/
theorem C9_validation_atomicity (st : ORAM) :
    (∀ nd, Access st (-1) nd = (.error .invalidBlockID, st)) ∧
    (∀ nd, Access st (st.numBlocks : Int) nd = (.error .invalidBlockID, st)) ∧
    (∀ k : Nat, ∀ nd, Access st ((st.numBlocks : Int) + ((k : Nat) + 1)) nd =
      (.error .invalidBlockID, st)) ∧
    (Read st (-1) = (.error .invalidBlockID, st) ∧
      Read st (st.numBlocks : Int) = (.error .invalidBlockID, st) ∧
      ∀ k : Nat, Read st ((st.numBlocks : Int) + ((k : Nat) + 1)) =
        (.error .invalidBlockID, st)) ∧
    (∀ d, Write st (-1) d = (.error .invalidBlockID, st) ∧
      Write st (st.numBlocks : Int) d = (.error .invalidBlockID, st) ∧
      ∀ k : Nat, Write st ((st.numBlocks : Int) + ((k : Nat) + 1)) d =
        (.error .invalidBlockID, st)) ∧
    (∀ id d, 0 ≤ id → id < (st.numBlocks : Int) → d.length ≠ st.blockSize →
      Access st id (some d) = (.error .invalidDataSize, st)) ∧
    (∀ id d, 0 ≤ id → id < (st.numBlocks : Int) → d.length ≠ st.blockSize →
      Write st id d = (.error .invalidDataSize, st)) := by
  refine ⟨?_, ?_, ?_, ⟨?_, ?_, ?_⟩, ?_, ?_, ?_⟩
  · intro nd
    unfold Access
    rw [if_pos (Or.inl (by decide))]
  · intro nd
    unfold Access
    rw [if_pos (Or.inr (Int.le_refl _))]
  · intro k nd
    unfold Access
    rw [if_pos (Or.inr (by omega))]
  · unfold Read
    rw [if_pos (Or.inl (by decide))]
  · unfold Read
    rw [if_pos (Or.inr (Int.le_refl _))]
  · intro k
    unfold Read
    rw [if_pos (Or.inr (by omega))]
  · intro d
    refine ⟨?_, ?_, ?_⟩
    · unfold Write
      rw [if_pos (Or.inl (by decide))]
    · unfold Write
      rw [if_pos (Or.inr (Int.le_refl _))]
    · intro k
      unfold Write
      rw [if_pos (Or.inr (by omega))]
  · intro id d hid0 hidN hne
    unfold Access
    rw [if_neg (by omega), if_pos ⟨d, rfl, hne⟩]
  · intro id d hid0 hidN hne
    unfold Write
    rw [if_neg (by omega), if_pos hne]

/-- C9 witness: five instances on a fresh engine with `N = 2`, `B = 1`:
`Access` at id -1, `Access` at id 2 = N, `Read` at id 2 = N, `Write` at
id 3 = N + 1, and a write of two bytes to the valid id 0. -/
theorem C9_validation_atomicity_witness :
    Access (⟨2, 1, 1, 100, Strategy.levelByLevel, false, 2, 2, [], [], List.replicate 3 (List.replicate 1 ⟨-1, -1, [0]⟩), [], mkTape [], 0⟩ : ORAM) (-1) none = (.error .invalidBlockID, (⟨2, 1, 1, 100, Strategy.levelByLevel, false, 2, 2, [], [], List.replicate 3 (List.replicate 1 ⟨-1, -1, [0]⟩), [], mkTape [], 0⟩ : ORAM)) ∧
    Access (⟨2, 1, 1, 100, Strategy.levelByLevel, false, 2, 2, [], [], List.replicate 3 (List.replicate 1 ⟨-1, -1, [0]⟩), [], mkTape [], 0⟩ : ORAM) 2 none = (.error .invalidBlockID, (⟨2, 1, 1, 100, Strategy.levelByLevel, false, 2, 2, [], [], List.replicate 3 (List.replicate 1 ⟨-1, -1, [0]⟩), [], mkTape [], 0⟩ : ORAM)) ∧
    Read (⟨2, 1, 1, 100, Strategy.levelByLevel, false, 2, 2, [], [], List.replicate 3 (List.replicate 1 ⟨-1, -1, [0]⟩), [], mkTape [], 0⟩ : ORAM) 2 = (.error .invalidBlockID, (⟨2, 1, 1, 100, Strategy.levelByLevel, false, 2, 2, [], [], List.replicate 3 (List.replicate 1 ⟨-1, -1, [0]⟩), [], mkTape [], 0⟩ : ORAM)) ∧
    Write (⟨2, 1, 1, 100, Strategy.levelByLevel, false, 2, 2, [], [], List.replicate 3 (List.replicate 1 ⟨-1, -1, [0]⟩), [], mkTape [], 0⟩ : ORAM) 3 [1] = (.error .invalidBlockID, (⟨2, 1, 1, 100, Strategy.levelByLevel, false, 2, 2, [], [], List.replicate 3 (List.replicate 1 ⟨-1, -1, [0]⟩), [], mkTape [], 0⟩ : ORAM)) ∧
    Write (⟨2, 1, 1, 100, Strategy.levelByLevel, false, 2, 2, [], [], List.replicate 3 (List.replicate 1 ⟨-1, -1, [0]⟩), [], mkTape [], 0⟩ : ORAM) 0 [1, 2] = (.error .invalidDataSize, (⟨2, 1, 1, 100, Strategy.levelByLevel, false, 2, 2, [], [], List.replicate 3 (List.replicate 1 ⟨-1, -1, [0]⟩), [], mkTape [], 0⟩ : ORAM)) := by
  obtain ⟨hA1, hA2, hA3, hR, hW, hDA, hDW⟩ := C9_validation_atomicity (⟨2, 1, 1, 100, Strategy.levelByLevel, false, 2, 2, [], [], List.replicate 3 (List.replicate 1 ⟨-1, -1, [0]⟩), [], mkTape [], 0⟩ : ORAM)
  exact ⟨hA1 none, hA2 none, hR.2.1, (hW [1]).2.2 0,
    hDW 0 [1, 2] (by decide) (by decide) (by decide)⟩

end PathORAM
